import Mathlib

/-!
# A verification development for `worker.js`

A shallow embedding of the content-based recommender of `src/worker.js`
(`recommend`, `withWhy`, `tokensOf`, `tokenize`, `l2`, `cosine`, `toNum`,
`median`, `trim`, `normalizeString`, `clamp`, `onmessage`), followed by theorems
about it.

Conventions of the embedding.

* JavaScript strings are lists of characters (`Str`).  Lower-casing is the
  ASCII one; the length of a string is its number of characters.
* Numbers that come in with a request (prices, budget, lambda, brandBoost,
  price band) are rationals: every finite double is one.  `NaN` and the
  infinities are not represented.
* Numbers the scorer computes (idf weights, norms, cosines, affinities, base
  scores, MMR values) live in an arbitrary linearly ordered field `α`, with
  `Math.sqrt`, `Math.log` and `Math.exp` supplied by a `Host`.  Arithmetic is
  exact: the rounding of doubles and of the `Float32Array` stores is not
  represented.
* A `Map` is an association list in insertion order, a `Set` a duplicate-free
  list in insertion order.
* `withWhy` writes `reason` onto the catalog item and returns that item; the
  embedding returns the item with its `reason` field replaced.
-/

namespace Worker

/-- JavaScript strings, as lists of characters. -/
abbrev Str := List Char

/-! ## Strings -/

/-- The characters the regular-expression class `\s` (and `trim`) treats as
white space. -/
def isJsSpace (c : Char) : Bool :=
  let n := c.toNat
  n == 9 || n == 10 || n == 11 || n == 12 || n == 13 || n == 32 || n == 160 ||
  n == 5760 || (8192 ≤ n && n ≤ 8202) || n == 8232 || n == 8233 || n == 8239 ||
  n == 8287 || n == 12288 || n == 65279

/-- JS `s.toLowerCase()`, on the ASCII letters. -/
def toLowerCase (s : Str) : Str := s.map Char.toLower

/-- JS `s.trim()`: white space removed at both ends. -/
def jsTrim (s : Str) : Str :=
  ((s.dropWhile isJsSpace).reverse.dropWhile isJsSpace).reverse

/-- JS `normalizeString(s)`: `String(s || '').trim().toLowerCase()`. -/
def normalizeString (s : Str) : Str := toLowerCase (jsTrim s)

/-- JS `s.split('>')[0]`: the text before the first `>`. -/
def firstSegment (s : Str) : Str := s.takeWhile (fun c => c != '>')

/-- JS `parts.join(sep)`. -/
def joinWith (sep : Str) : List Str → Str
  | [] => []
  | [x] => x
  | x :: y :: rest => x ++ sep ++ joinWith sep (y :: rest)

/-- JS `trim(s, n)`: `s.length > n ? s.slice(0, n - 1) + '…' : s`. -/
def trim (s : Str) (n : Nat) : Str :=
  if s.length > n then s.take (n - 1) ++ ['…'] else s

/-- JS `new Set(xs)`: the distinct elements of `xs`, in order of first occurrence. -/
def setOf (xs : List Str) : List Str :=
  xs.foldl (fun acc x => if x ∈ acc then acc else acc ++ [x]) []

/-! ## Tokenizer -/

/-- A character matched by `[a-z0-9\s]`. -/
def isKept (c : Char) : Bool := c.isLower || c.isDigit || isJsSpace c

/-- JS `s.replace(/[^a-z0-9\s]+/g, ' ')`: every maximal run of characters outside
`[a-z0-9\s]` becomes one space.  `inRun` says that the previous character was
part of such a run. -/
def replaceRuns : Str → Bool → Str
  | [], _ => []
  | c :: cs, inRun =>
    if isKept c then c :: replaceRuns cs false
    else if inRun then replaceRuns cs true
    else ' ' :: replaceRuns cs true

/-- JS `s.split(/\s+/)`: the pieces between maximal runs of white space (an empty
piece at an end when the string starts or ends with white space).  `cur` is the
piece being read, `inSep` says that the previous character was white space. -/
def splitWs : Str → Str → Bool → List Str
  | [], cur, _ => [cur]
  | c :: cs, cur, inSep =>
    if isJsSpace c then
      if inSep then splitWs cs [] true else cur :: splitWs cs [] true
    else splitWs cs (cur ++ [c]) false

/-- The stop-word set of `tokenize`. -/
def stopWords : List Str :=
  ["the", "and", "for", "with", "from", "into", "your", "you", "this", "that",
   "have", "has", "are", "was", "were", "of", "in", "on", "to", "a", "an"].map
    String.toList

/-- JS `tokenize(s)`. -/
def tokenize (s : Str) : List Str :=
  let s := toLowerCase s
  let toks := (splitWs (replaceRuns s false) [] false).filter (fun t => t.length > 1)
  toks.filter (fun t => !(stopWords.contains t))

/-! ## Numbers -/

/-- A value a catalog field may hold where the code expects a number: it is
missing, a number, or text. -/
inductive JSVal where
  | undefined
  | number (q : ℚ)
  | string (s : Str)
  deriving DecidableEq

/-- Truthiness, as in `if (x)` and `x || y`. -/
def JSVal.truthy : JSVal → Bool
  | .undefined => false
  | .number q => q != 0
  | .string s => !s.isEmpty

/-- JS `x || 0`. -/
def JSVal.orZero (x : JSVal) : JSVal := if x.truthy then x else .number 0

/-- Long division: the next `fuel` decimal digits of `r / b` for `r < b`,
stopping when the remainder is zero. -/
def fracDigits (b : Nat) : Nat → Nat → List Nat
  | 0, _ => []
  | fuel + 1, r => if r = 0 then [] else (r * 10 / b) :: fracDigits b fuel (r * 10 % b)

/-- A list of digits without its trailing zeros. -/
def stripTrailingZeros (ds : List Nat) : List Nat :=
  (ds.reverse.dropWhile (fun d => d == 0)).reverse

/-- The characters of a list of digits. -/
def digitChars (ds : List Nat) : Str := ds.map Nat.digitChar

/-- The digits of a natural number, most significant first. -/
def natDigits (n : Nat) : List Nat := (Nat.toDigits 10 n).map (fun c => c.toNat - 48)

/-- JS `Number::toString` for a positive number with significant digits `s`
(no trailing zero, at most 17 of them) and decimal exponent `n`, that is the
number `0.s × 10^n`: plain notation for `-6 < n ≤ 21`, exponent notation
otherwise. -/
def formatDigits (s : List Nat) (n : Int) : Str :=
  let k : Int := s.length
  if k ≤ n ∧ n ≤ 21 then
    digitChars s ++ List.replicate (n - k).toNat '0'
  else if 0 < n ∧ n ≤ 21 then
    digitChars (s.take n.toNat) ++ ['.'] ++ digitChars (s.drop n.toNat)
  else if -6 < n ∧ n ≤ 0 then
    ['0', '.'] ++ List.replicate (-n).toNat '0' ++ digitChars s
  else
    let e := n - 1
    let es : Str := (if e < 0 then ['-'] else ['+']) ++ Nat.toDigits 10 e.natAbs
    if s.length = 1 then digitChars s ++ ['e'] ++ es
    else digitChars (s.take 1) ++ ['.'] ++ digitChars (s.drop 1) ++ ['e'] ++ es

/-- JS `String(x)` for a number `x`: sign, then the (at most 17) significant
decimal digits of `|x|` laid out by `formatDigits`. -/
def numberToString (q : ℚ) : Str :=
  if q = 0 then ['0'] else
  let a := q.num.natAbs
  let b := q.den
  let sign : Str := if q < 0 then ['-'] else []
  let ip := a / b
  let fr := fracDigits b 400 (a % b)
  if ip = 0 then
    let zeros := (fr.takeWhile (fun d => d == 0)).length
    let s := stripTrailingZeros ((fr.dropWhile (fun d => d == 0)).take 17)
    sign ++ formatDigits s (-(zeros : Int))
  else
    let ids := natDigits ip
    let s := stripTrailingZeros ((ids ++ fr).take 17)
    sign ++ formatDigits s ids.length

/-- JS `String(x)`. -/
def jsString : JSVal → Str
  | .undefined => "undefined".toList
  | .number q => numberToString q
  | .string s => s

/-- The value of a string of decimal digits. -/
def digitsVal (s : Str) : Nat := s.foldl (fun acc c => acc * 10 + (c.toNat - 48)) 0

/-- JS `parseFloat(s)` on the strings `toNum` passes to it, which hold only digits
and dots: the longest prefix `digits [. digits]` or `. digits`; `none` is `NaN`. -/
def parseFloat (s : Str) : Option ℚ :=
  let ip := s.takeWhile Char.isDigit
  let rest := s.dropWhile Char.isDigit
  let fp := match rest with
    | '.' :: r => r.takeWhile Char.isDigit
    | _ => []
  if ip.isEmpty && fp.isEmpty then none
  else if fp.isEmpty then some (digitsVal ip : ℚ)
  else some (mkRat (digitsVal (ip ++ fp)) (10 ^ fp.length))

/-- JS `toNum(x)`: `parseFloat(String(x).replace(/[^\d.]/g, ''))`, and `0` when that
is not finite. -/
def toNum (x : JSVal) : ℚ :=
  match parseFloat ((jsString x).filter (fun c => c.isDigit || c == '.')) with
  | some n => n
  | none => 0

/-- JS `clamp(x, lo, hi)`: `Math.max(lo, Math.min(hi, x))`. -/
def clamp {β : Type} [LinearOrder β] (x lo hi : β) : β := max lo (min hi x)

/-- JS `median(arr)`. -/
def median (arr : List ℚ) : ℚ :=
  let a := arr.insertionSort (fun x y => x ≤ y)
  let m := a.length / 2
  if a.length % 2 = 1 then a.getD m 0 else (a.getD (m - 1) 0 + a.getD m 0) / 2

/-- The result of converting a string to a number (`Number(s)`). -/
inductive ExtNum where
  | nan
  | negInf
  | posInf
  | fin (q : ℚ)
  deriving DecidableEq

/-- The value of `s` read as digits in radix `r`; `none` when `s` is empty or
holds a character that is not such a digit. -/
def radixVal (r : Nat) (s : Str) : Option Nat :=
  let dig (c : Char) : Option Nat :=
    let v := if c.isDigit then c.toNat - 48
      else if 'a' ≤ c ∧ c ≤ 'f' then c.toNat - 87
      else if 'A' ≤ c ∧ c ≤ 'F' then c.toNat - 55
      else 16
    if v < r then some v else none
  if s.isEmpty then none
  else s.foldl (fun acc c => acc.bind (fun a => (dig c).map (fun v => a * r + v))) (some 0)

/-- An unsigned decimal literal `digits [. digits] [e [+-] digits]` or
`. digits [e [+-] digits]`, read to the end of the string. -/
def decimalLiteral (s : Str) : Option ℚ :=
  let ip := s.takeWhile Char.isDigit
  let rest := s.dropWhile Char.isDigit
  let fp := match rest with
    | '.' :: r => r.takeWhile Char.isDigit
    | _ => []
  let rest2 := match rest with
    | '.' :: r => r.dropWhile Char.isDigit
    | _ => rest
  if ip.isEmpty && fp.isEmpty then none else
  let m : ℚ := mkRat (digitsVal (ip ++ fp)) (10 ^ fp.length)
  match rest2 with
  | [] => some m
  | c :: r =>
    if c == 'e' || c == 'E' then
      let neg := r.head? == some '-'
      let ds := if r.head? == some '-' || r.head? == some '+' then r.tail else r
      if !ds.isEmpty && ds.all Char.isDigit then
        some (if neg then m / 10 ^ digitsVal ds else m * 10 ^ digitsVal ds)
      else none
    else none

/-- JS `Number(s)` for a string `s`, as the comparison `s <= n` computes it. -/
def stringToNumber (s : Str) : ExtNum :=
  let t := jsTrim s
  if t.isEmpty then .fin 0
  else if t = "Infinity".toList || t = "+Infinity".toList then .posInf
  else if t = "-Infinity".toList then .negInf
  else match t with
    | '0' :: c :: r =>
      if c == 'x' || c == 'X' then
        match radixVal 16 r with | some v => .fin v | none => .nan
      else if c == 'o' || c == 'O' then
        match radixVal 8 r with | some v => .fin v | none => .nan
      else if c == 'b' || c == 'B' then
        match radixVal 2 r with | some v => .fin v | none => .nan
      else match decimalLiteral t with | some q => .fin q | none => .nan
    | '-' :: r => match decimalLiteral r with | some q => .fin (-q) | none => .nan
    | '+' :: r => match decimalLiteral r with | some q => .fin q | none => .nan
    | _ => match decimalLiteral t with | some q => .fin q | none => .nan

/-- The comparison `x <= b` for a finite number `b`. -/
def jsLe (x : JSVal) (b : ℚ) : Bool :=
  match x with
  | .undefined => false
  | .number q => decide (q ≤ b)
  | .string s =>
    match stringToNumber s with
    | .nan => false
    | .negInf => true
    | .posInf => false
    | .fin q => decide (q ≤ b)

/-! ## Data model -/

/-- A catalog item.  A text field that is missing is the empty string (both are
falsy); `reason` is the field `withWhy` writes. -/
structure Item where
  product_name : Str := []
  product_category_tree : Str := []
  brand : Str := []
  description : Str := []
  price : JSVal := .undefined
  reason : Str := []
  deriving DecidableEq

/-- The `filters` object of a request. -/
structure Filters where
  categories : List Str := []
  brands : List Str := []
  minPrice : JSVal := .undefined
  maxPrice : JSVal := .undefined
  brandBoost : ℚ := 0

/-- The `opts` argument of `recommend`. -/
structure Opts where
  lambda : ℚ
  topk : ℤ
  budget : ℚ
  filters : Filters := {}

/-- The numeric built-ins of the host: `Math.sqrt`, `Math.log`, `Math.exp` on the
score type, and `Number.prototype.toLocaleString`. -/
structure Host (α : Type) where
  sqrt : α → α
  log : α → α
  exp : α → α
  toLocaleString : ℚ → Str

/-- JS `tokensOf(p)`. -/
def tokensOf (p : Item) : List Str :=
  tokenize (joinWith [' ']
    [p.product_name, firstSegment p.product_category_tree, p.brand, p.description])

/-- JS `num(x)`: `Number(toNum(x)).toLocaleString()`. -/
def num {α : Type} (host : Host α) (x : JSVal) : Str := host.toLocaleString (toNum x)

/-! ## Maps -/

/-- JS `m.get(t)`. -/
def mapGet {β : Type} : List (Str × β) → Str → Option β
  | [], _ => none
  | (k, v) :: m, t => if k = t then some v else mapGet m t

/-- JS `m.set(t, v)`: the value of an existing key is replaced in place, a new key
is appended. -/
def mapSet {β : Type} : List (Str × β) → Str → β → List (Str × β)
  | [], t, v => [(t, v)]
  | (k, w) :: m, t, v => if k = t then (k, v) :: m else (k, w) :: mapSet m t v

section Scoring

variable {α : Type} [LinearOrderedField α]

/-- A sparse vector: token to weight. -/
abbrev Vec (α : Type) := List (Str × α)

/-- The sum of the squared weights of a vector. -/
def sumSq (v : Vec α) : α := (v.map (fun tw => tw.2 * tw.2)).sum

/-- JS `l2(v)`: the square root of the sum of the squared weights. -/
def l2 (host : Host α) (v : Vec α) : α :=
  host.sqrt ((v.map Prod.snd).foldl (fun s w => s + w * w) 0)

/-- The body of the dot-product loop of `cosine` for the entry `[t, w]` of
`small`: `const ww = big.get(t); if (ww) dot += w * ww`. -/
def dotStep (big : Vec α) (dot : α) (tw : Str × α) : α :=
  match mapGet big tw.1 with
  | some ww => if ww = 0 then dot else dot + tw.2 * ww
  | none => dot

/-- JS `cosine(a, aN, b, bN)`. -/
def cosine (a : Vec α) (aN : α) (b : Vec α) (bN : α) : α :=
  if aN = 0 ∨ bN = 0 then 0 else
  let small := if a.length < b.length then a else b
  let big := if a.length < b.length then b else a
  let dot := small.foldl (dotStep big) 0
  dot / (aN * bN)

/-- The unit-weight bag of words `withWhy` builds from a token list:
`toks.forEach(t => v.set(t, (v.get(t) || 0) + 1))`. -/
def countTokens (v : Vec α) (toks : List Str) : Vec α :=
  toks.foldl (fun v t => mapSet v t ((mapGet v t).getD 0 + 1)) v

/-- The body of the loop of `withWhy` over the seeds, for the seed `s`: `best`
holds `bestSeed` and `bestSim`. -/
def seedStep (host : Host α) (v : Vec α) (vNorm : α) (best : Option Item × α) (s : Item) :
    Option Item × α :=
  let sVec := countTokens [] (tokensOf s)
  let sN := l2 host sVec
  let sim := cosine sVec (if sN = 0 then 1 / 100000000 else sN) v vNorm
  if sim > best.2 then (some s, sim) else best

/-- The loop of `withWhy` over the seeds: the seed most similar to the vector
`v`, the first one on ties; `best` holds `bestSeed` and `bestSim`. -/
def nearestSeed (host : Host α) (v : Vec α) (vNorm : α) :
    List Item → Option Item × α → Option Item × α
  | [], best => best
  | s :: rest, best => nearestSeed host v vNorm rest (seedStep host v vNorm best s)

/-- The nearest seed `withWhy` finds for the item `p`: nothing when there are no
seeds, else the result of the loop over the seeds started at `bestSeed = null`,
`bestSim = -1`. -/
def bestSeedOf (host : Host α) (p : Item) (seeds : List Item) : Option Item :=
  if seeds.isEmpty then none else
  let v := countTokens [] (tokensOf p)
  let vN := l2 host v
  (nearestSeed host v (if vN = 0 then 1 / 100000000 else vN) seeds (none, -1)).1

/-- The list `bits` of `withWhy` for the item `p`, given the nearest seed. -/
def whyBits (host : Host α) (bestSeed : Option Item) (p : Item) (budget : ℚ)
    (fCats fBrands : List Str) : List Str :=
  (match bestSeed with
    | some s => if s.product_name.isEmpty then []
        else ["similar to ".toList ++ trim s.product_name 40]
    | none => []) ++
  (if p.product_category_tree.isEmpty then []
    else ["category: ".toList ++ p.product_category_tree]) ++
  (if p.brand.isEmpty then [] else ["brand: ".toList ++ p.brand]) ++
  (if p.price.truthy then ["price ₹".toList ++ num host p.price] else []) ++
  (if budget > 0 then
    [if jsLe p.price budget then "within budget".toList else "over budget".toList]
    else []) ++
  (if !fCats.isEmpty ∧
      toLowerCase (jsTrim (firstSegment p.product_category_tree)) ∈ fCats
    then ["matches chosen category".toList] else []) ++
  (if !fBrands.isEmpty ∧ toLowerCase (jsTrim p.brand) ∈ fBrands
    then ["matches chosen brand".toList] else [])

/-- JS `withWhy(products, idx, seeds, budget, medPrice, fCats, fBrands)`, where `p`
is `products[idx]`: the item with its `reason` set to `bits.join(' • ')`. -/
def withWhy (host : Host α) (p : Item) (seeds : List Item) (budget : ℚ)
    (fCats fBrands : List Str) : Item :=
  let bits := whyBits host (bestSeedOf host p seeds) p budget fCats fBrands
  { p with reason := joinWith " • ".toList bits }

end Scoring

/-! ## Filter engine -/

/-- JS `new Set((filters.categories || []).map(normalizeString))`. -/
def fCatsOf (f : Filters) : List Str := setOf (f.categories.map normalizeString)

/-- JS `new Set((filters.brands || []).map(normalizeString))`. -/
def fBrandsOf (f : Filters) : List Str := setOf (f.brands.map normalizeString)

/-- JS `toNum(filters.minPrice || 0)`. -/
def minPOf (f : Filters) : ℚ := toNum f.minPrice.orZero

/-- JS `toNum(filters.maxPrice || 0)`. -/
def maxPOf (f : Filters) : ℚ := toNum f.maxPrice.orZero

/-- JS `Math.max(0, Math.min(1, parseFloat(filters.brandBoost || 0)))`; for a number
`x`, `parseFloat(String(x))` is `x`. -/
def brandBoostOf (f : Filters) : ℚ := max 0 (min 1 f.brandBoost)

/-- JS `products[i]` for an index `i` of `selIdxs`: nothing when `i` is out of range
or the entry is null. -/
def productAt (products : List (Option Item)) (i : ℤ) : Option Item :=
  if i < 0 then none else products[i.toNat]?.join

/-- JS `selIdxs.map(i => products[i]).filter(Boolean)`. -/
def seedsOf (products : List (Option Item)) (selIdxs : List ℤ) : List Item :=
  selIdxs.filterMap (productAt products)

/-- The synthetic seed built from the filter sets when there is no seed. -/
def syntheticSeed (fCats fBrands : List Str) : Item :=
  { product_name :=
      if !(joinWith [' '] fCats).isEmpty then joinWith [' '] fCats
      else if !(joinWith [' '] fBrands).isEmpty then joinWith [' '] fBrands
      else "seed".toList
    product_category_tree := joinWith [' '] fCats
    brand := joinWith [' '] fBrands
    description := [] }

/-- JS `drivingSeeds`: the seeds, or the synthetic seed when there are none. -/
def drivingSeedsOf (products : List (Option Item)) (selIdxs : List ℤ) (f : Filters) :
    List Item :=
  if (seedsOf products selIdxs).isEmpty then [syntheticSeed (fCatsOf f) (fBrandsOf f)]
  else seedsOf products selIdxs

/-- JS `seedTokens`: the set of the tokens of the driving seeds. -/
def seedTokensOf (products : List (Option Item)) (selIdxs : List ℤ) (f : Filters) :
    List Str :=
  setOf ((drivingSeedsOf products selIdxs f).flatMap tokensOf)

/-- The three price gates both passes apply to `price = toNum(p.price)`: the
item goes on when none of the three `continue`s fires. -/
def priceGate (budget minP maxP price : ℚ) : Bool :=
  !(budget > 0 && price > budget) &&
  !(minP > 0 && price > 0 && price < minP) &&
  !(maxP > 0 && price > 0 && price > maxP)

/-- The body of the prefilter loop for index `i` holding the non-null item `p`:
true when the loop reaches `candidatesSet.add(i)`. -/
def strictAdmit (products : List (Option Item)) (selIdxs : List ℤ) (opts : Opts)
    (i : Nat) (p : Item) : Bool :=
  let f := opts.filters
  !((i : ℤ) ∈ selIdxs) &&
  !p.product_name.isEmpty &&
  priceGate opts.budget (minPOf f) (maxPOf f) (toNum p.price) &&
  ((fCatsOf f).isEmpty ||
    decide (normalizeString (firstSegment p.product_category_tree) ∈ fCatsOf f)) &&
  ((fBrandsOf f).isEmpty || decide (normalizeString p.brand ∈ fBrandsOf f)) &&
  !(tokensOf p).isEmpty &&
  ((seedsOf products selIdxs).isEmpty ||
    (tokensOf p).any (fun t => decide (t ∈ seedTokensOf products selIdxs f)))

/-- The body of the fallback loop: true when the loop reaches
`candidatesSet.add(i)`. -/
def relaxedAdmit (selIdxs : List ℤ) (opts : Opts) (i : Nat) (p : Item) : Bool :=
  let f := opts.filters
  !((i : ℤ) ∈ selIdxs) &&
  !p.product_name.isEmpty &&
  priceGate opts.budget (minPOf f) (maxPOf f) (toNum p.price)

/-- The cap of the prefilter pass. -/
def MAX_CAND : Nat := 30000

/-- The prefilter loop from index `i` on, over the rest `ps` of the catalog;
`acc` is `candidatesSet`, each index kept with the item found there. The loop
stops when the set has `MAX_CAND` entries. -/
def strictLoop (keep : Nat → Item → Bool) :
    List (Option Item) → Nat → List (Nat × Item) → List (Nat × Item)
  | [], _, acc => acc
  | none :: ps, i, acc => strictLoop keep ps (i + 1) acc
  | some p :: ps, i, acc =>
    if keep i p then
      if (acc ++ [(i, p)]).length ≥ MAX_CAND then acc ++ [(i, p)]
      else strictLoop keep ps (i + 1) (acc ++ [(i, p)])
    else strictLoop keep ps (i + 1) acc

/-- The fallback loop from index `i` on: it runs while the set has fewer than
5000 entries. -/
def relaxedLoop (keep : Nat → Item → Bool) :
    List (Option Item) → Nat → List (Nat × Item) → List (Nat × Item)
  | [], _, acc => acc
  | q :: ps, i, acc =>
    if acc.length < 5000 then
      match q with
      | none => relaxedLoop keep ps (i + 1) acc
      | some p =>
        if keep i p then relaxedLoop keep ps (i + 1) (acc ++ [(i, p)])
        else relaxedLoop keep ps (i + 1) acc
    else acc

/-- The result of the prefilter pass. -/
def strictPass (products : List (Option Item)) (selIdxs : List ℤ) (opts : Opts) :
    List (Nat × Item) :=
  strictLoop (strictAdmit products selIdxs opts) products 0 []

/-- The result of the fallback pass. -/
def relaxedPass (products : List (Option Item)) (selIdxs : List ℤ) (opts : Opts) :
    List (Nat × Item) :=
  relaxedLoop (relaxedAdmit selIdxs opts) products 0 []

/-- JS `candidates`: the prefilter pass, or the fallback pass when the prefilter
pass admits nothing; each entry is a catalog index with the item at that index. -/
def candidatePool (products : List (Option Item)) (selIdxs : List ℤ) (opts : Opts) :
    List (Nat × Item) :=
  if (strictPass products selIdxs opts).isEmpty then relaxedPass products selIdxs opts
  else strictPass products selIdxs opts

/-! ## Vector space and scores -/

/-- JS `df.set(t, (df.get(t) || 0) + 1)`. -/
def dfInc (df : List (Str × Nat)) (t : Str) : List (Str × Nat) :=
  mapSet df t ((mapGet df t).getD 0 + 1)

/-- The document-frequency loop for one candidate with tokens `toks`:
`for (const t of new Set(toks)) df.set(t, (df.get(t) || 0) + 1)`. -/
def dfAdd (df : List (Str × Nat)) (toks : List Str) : List (Str × Nat) :=
  (setOf toks).foldl dfInc df

/-- The document-frequency map of the token lists of the candidates. -/
def dfOf (candTokens : List (List Str)) : List (Str × Nat) :=
  candTokens.foldl dfAdd []

/-- The median of the positive seed prices, `0` when there is none. -/
def medianSeedPriceOf (seeds : List Item) : ℚ :=
  let seedPrices := (seeds.map (fun p => toNum p.price)).filter (fun x => x > 0)
  if seedPrices.isEmpty then 0 else median seedPrices

section Scoring

variable {α : Type} [LinearOrderedField α]

/-- The idf map: `idf.set(t, Math.log((N + 1) / (d + 1)) + 1)` for every entry
`[t, d]` of `df`. -/
def idfOf (host : Host α) (N : Nat) (df : List (Str × Nat)) : Vec α :=
  df.map (fun td => (td.1, host.log (((N : α) + 1) / ((td.2 : α) + 1)) + 1))

/-- The body of the weighting loop for the token `t`:
`const w = idf.get(t); if (!w) continue; v.set(t, (v.get(t) || 0) + w)`. -/
def addToken (idf : Vec α) (v : Vec α) (t : Str) : Vec α :=
  match mapGet idf t with
  | some w => if w = 0 then v else mapSet v t ((mapGet v t).getD 0 + w)
  | none => v

/-- The weighting loop shared by the candidate vectors and the centroid, over
the tokens `toks`, starting from the vector `v`. -/
def addTokens (idf : Vec α) (v : Vec α) (toks : List Str) : Vec α :=
  toks.foldl (addToken idf) v

/-- JS `priceAff[k]` for a candidate whose parsed price is `price`. -/
def priceAffOf (host : Host α) (medianSeedPrice price : ℚ) : α :=
  if medianSeedPrice > 0 ∧ price > 0 then
    let dist := host.log ((price : α) / (medianSeedPrice : α))
    host.exp (-(1 / 2) * (dist * dist) / ((35 / 100) * (35 / 100)))
  else 1 / 2

/-- The idf map of a candidate pool: document frequencies over the token lists
of the pool, `N` the size of the pool. -/
def poolIdf (host : Host α) (candidates : List (Nat × Item)) : Vec α :=
  idfOf host candidates.length (dfOf (candidates.map (fun c => tokensOf c.2)))

/-- The seed centroid: the weighting loop run over the tokens of every driving
seed, one seed after the other. -/
def centroidOf (idf : Vec α) (drivingSeeds : List Item) : Vec α :=
  drivingSeeds.foldl (fun v p => addTokens idf v (tokensOf p)) []

/-- JS `centroidNorm`: `l2(centroid) || 1e-8`. -/
def centroidNormOf (host : Host α) (centroid : Vec α) : α :=
  if l2 host centroid = 0 then 1 / 100000000 else l2 host centroid

/-- What the scorer has computed when the MMR loop starts. -/
structure Scored (α : Type) where
  candidates : List (Nat × Item)
  candVecs : List (Vec α)
  candNorms : List α
  rel : List α
  baseScore : List α
  drivingSeeds : List Item

/-- Steps 2 to 5 of `recommend`: TF-IDF vectors over the pool, centroid,
relevance, price affinity, base score and brand boost, over exact arithmetic: a
number written to a typed array is read back as it is (`storedScoreOf` has the
rounding of the stores). -/
def scoreOf (host : Host α) (products : List (Option Item)) (selIdxs : List ℤ)
    (opts : Opts) : Scored α :=
  let f := opts.filters
  let seeds := seedsOf products selIdxs
  let drivingSeeds := drivingSeedsOf products selIdxs f
  let candidates := candidatePool products selIdxs opts
  let candTokens := candidates.map (fun c => tokensOf c.2)
  let idf := poolIdf host candidates
  let candVecs := candTokens.map (addTokens idf [])
  let candNorms := candVecs.map (l2 host)
  let centroid := centroidOf idf drivingSeeds
  let centroidNorm := centroidNormOf host centroid
  let rel := (candVecs.zip candNorms).map (fun vn => cosine centroid centroidNorm vn.1 vn.2)
  let medianSeedPrice := medianSeedPriceOf seeds
  let priceAff := candidates.map (fun c => priceAffOf host medianSeedPrice (toNum c.2.price))
  let base := (rel.zip priceAff).map (fun ra => 7 / 10 * ra.1 + 3 / 10 * ra.2)
  let baseScore :=
    if brandBoostOf f > 0 ∧ !(fBrandsOf f).isEmpty then
      (candidates.zip base).map (fun cb =>
        if normalizeString cb.1.2.brand ∈ fBrandsOf f
        then cb.2 + 15 / 100 * (brandBoostOf f : α) else cb.2)
    else base
  { candidates := candidates, candVecs := candVecs, candNorms := candNorms, rel := rel,
    baseScore := baseScore, drivingSeeds := drivingSeeds }

/-! ## MMR selection -/

/-- The state of the MMR loop: `out`, the positions chosen so far (`chosenVecs`
and `chosenNorms` are the vectors and norms at these positions, in the same
order), and `order`. -/
structure MMRState where
  out : List Item
  picked : List Nat
  order : List Nat

/-- JS `maxSim` of candidate position `i`: the largest cosine to a chosen item,
starting from `0`. -/
def maxSimOf (sc : Scored α) (picked : List Nat) (i : Nat) : α :=
  picked.foldl (fun maxSim j =>
    let sim := cosine (sc.candVecs.getD j []) (sc.candNorms.getD j 0)
      (sc.candVecs.getD i []) (sc.candNorms.getD i 0)
    if sim > maxSim then sim else maxSim) 0

/-- JS `mmr` of candidate position `i`. -/
def mmrOf (sc : Scored α) (lambda : ℚ) (picked : List Nat) (i : Nat) : α :=
  (lambda : α) * sc.baseScore.getD i 0 - (1 - (lambda : α)) * maxSimOf sc picked i

/-- The scan of `order` for picks after the first: `best` holds `bestIdx`
(`none` for `-1`) and `bestMMR`. -/
def scanOrder (sc : Scored α) (lambda : ℚ) (picked : List Nat) :
    List Nat → Option Nat × α → Option Nat × α
  | [], best => best
  | i :: rest, best =>
    scanOrder sc lambda picked rest
      (if mmrOf sc lambda picked i > best.2 then (some i, mmrOf sc lambda picked i) else best)

/-- JS `bestIdx` of pick number `pick`. -/
def bestIdxOf (sc : Scored α) (lambda : ℚ) (pick : Nat) (st : MMRState) : Option Nat :=
  if pick = 0 then st.order.head?
  else (scanOrder sc lambda st.picked st.order (none, -1)).1

/-- One run of the body of the MMR loop; `none` is `break`. -/
def mmrStep (host : Host α) (sc : Scored α) (opts : Opts) (pick : Nat) (st : MMRState) :
    Option MMRState :=
  match bestIdxOf sc opts.lambda pick st with
  | none => none
  | some bestIdx =>
    match sc.candidates[bestIdx]? with
    | none => none
    | some chosen =>
      some
        { out := st.out ++ [withWhy host chosen.2 sc.drivingSeeds opts.budget
            (fCatsOf opts.filters) (fBrandsOf opts.filters)]
          picked := st.picked ++ [bestIdx]
          order := st.order.erase bestIdx }

/-- The MMR loop `for (pick = 0; pick < L && pick < N; pick++)`, from `pick` on;
the first argument bounds the number of runs of the body that are left. -/
def mmrLoop (host : Host α) (sc : Scored α) (opts : Opts) (L : ℤ) (N : Nat) :
    Nat → Nat → MMRState → MMRState
  | 0, _, st => st
  | fuel + 1, pick, st =>
    if (pick : ℤ) < L ∧ pick < N then
      match mmrStep host sc opts pick st with
      | none => st
      | some st' => mmrLoop host sc opts L N fuel (pick + 1) st'
    else st

/-- JS `order`: the candidate positions sorted by descending base score (the sort
is stable). -/
def orderOf (sc : Scored α) : List Nat :=
  (List.range sc.candidates.length).insertionSort
    (fun a b => sc.baseScore.getD b 0 ≤ sc.baseScore.getD a 0)

/-- The state in which the MMR loop ends. -/
def mmrRun (host : Host α) (products : List (Option Item)) (selIdxs : List ℤ)
    (opts : Opts) : MMRState :=
  let sc := scoreOf host products selIdxs opts
  let N := sc.candidates.length
  mmrLoop host sc opts (clamp opts.topk 1 50) N N 0 { out := [], picked := [], order := orderOf sc }

/-- JS `recommend(products, selIdxs, opts)`. -/
def recommend (host : Host α) (products : List (Option Item)) (selIdxs : List ℤ)
    (opts : Opts) : List Item :=
  if products.isEmpty then [] else
  if (seedsOf products selIdxs).isEmpty ∧ (fCatsOf opts.filters).isEmpty ∧
      (fBrandsOf opts.filters).isEmpty then [] else
  if (candidatePool products selIdxs opts).isEmpty then [] else
  (mmrRun host products selIdxs opts).out

/-- The message a request carries; a field that is absent is `none`. -/
structure Request where
  products : List (Option Item)
  selIndices : List ℤ
  lambda : Option ℚ := none
  topk : Option ℤ := none
  budget : Option ℚ := none
  filters : Filters := {}

/-- The options `onmessage` passes to `recommend`: `lambda ?? 0.8` clamped to
`[0, 1]`, `parseInt(topk || 10)` clamped to `[1, 50]`, `parseFloat(budget || 0)`. -/
def optsOfRequest (r : Request) : Opts :=
  { lambda := clamp (r.lambda.getD (4 / 5)) 0 1
    topk := max 1 (min 50 (if r.topk.getD 0 = 0 then 10 else r.topk.getD 0))
    budget := r.budget.getD 0
    filters := r.filters }

/-- JS `onmessage`: the response posted for a request. -/
def onmessage (host : Host α) (r : Request) : List Item :=
  recommend host r.products r.selIndices (optsOfRequest r)

end Scoring

/-- The options with the brand boost switched off, everything else unchanged. -/
def withoutBoost (opts : Opts) : Opts :=
  { opts with filters := { opts.filters with brandBoost := 0 } }

/-- The seed indices with every index `i < 0` or `i ≥ products.length` removed. -/
def inRangeIdxs (products : List (Option Item)) (selIdxs : List ℤ) : List ℤ :=
  selIdxs.filter (fun i => decide (0 ≤ i ∧ i < (products.length : ℤ)))

/-! ## The scenario catalog -/

/-- The three products of the scenarios of the specification. -/
def scenarioProducts : List (Option Item) :=
  [some { product_name := "Red Running Shoes".toList
          product_category_tree := "Footwear>Sports".toList
          brand := "Acme".toList, price := .number 50 },
   some { product_name := "Blue Running Shoes".toList
          product_category_tree := "Footwear>Sports".toList
          brand := "Acme".toList, price := .number 52 },
   some { product_name := "Office Chair".toList
          product_category_tree := "Furniture>Office".toList
          brand := "Zed".toList, price := .number 80 }]

/-- Item 1 of the scenario catalog. -/
def blueShoes : Item :=
  { product_name := "Blue Running Shoes".toList
    product_category_tree := "Footwear>Sports".toList
    brand := "Acme".toList, price := .number 52 }

/-- Item 2 of the scenario catalog. -/
def officeChair : Item :=
  { product_name := "Office Chair".toList
    product_category_tree := "Furniture>Office".toList
    brand := "Zed".toList, price := .number 80 }

/-- Scenario 1: seed item 0, `topk = 2`, `lambda = 0.5`, no budget, no filters. -/
def scenario1Request : Request :=
  { products := scenarioProducts, selIndices := [0], lambda := some (mkRat 1 2),
    topk := some 2 }

/-- Scenario 2: no seeds, `categories = ["Furniture"]`, `topk = 1`. -/
def scenario2Request : Request :=
  { products := scenarioProducts, selIndices := [], topk := some 1,
    filters := { categories := ["Furniture".toList] } }

/-- Scenario 3: seed item 0, `budget = 10`. -/
def scenario3Request : Request :=
  { products := scenarioProducts, selIndices := [0], budget := some 10 }

/-- Scenario 4: seed item 0, `brands = ["Zed"]`, `brandBoost = 1`. -/
def scenario4Request : Request :=
  { products := scenarioProducts, selIndices := [0],
    filters := { brands := ["Zed".toList], brandBoost := 1 } }

/-- A catalog for the diversity property: a seed, two items with the same
tokens in a different order, and an item that shares a token with the seed
only. -/
def diversityProducts : List (Option Item) :=
  [some { product_name := "Red Shoes Chair".toList },
   some { product_name := "Red Shoes".toList },
   some { product_name := "Shoes Red".toList },
   some { product_name := "Office Chair".toList }]

/-- Options for the diversity catalog: `lambda = 0`, `topk = 3`, no budget. -/
def diversityOpts : Opts := { lambda := 0, topk := 3, budget := 0 }

/-- A host over the rationals, with rational approximations of the three
functions (Newton steps for the square root, truncated series for logarithm and
exponential) and a locale that prints a number as `String` does. -/
def ratHost : Host ℚ where
  sqrt x := if x ≤ 0 then 0 else
    (List.range 6).foldl (fun y _ => (y + x / y) / 2) (max x 1)
  log x := if x ≤ 0 then 0 else
    2 * ((List.range 8).map
      (fun k => ((x - 1) / (x + 1)) ^ (2 * k + 1) / ((2 * k + 1 : Nat) : ℚ))).sum
  exp x := ((List.range 12).map (fun k => x ^ k / ((Nat.factorial k : Nat) : ℚ))).sum
  toLocaleString := numberToString

/-- A catalog with an item whose price is missing: the seed and a second pair of
running shoes without a price. -/
def unpricedProducts : List (Option Item) :=
  [some { product_name := "Red Running Shoes".toList, price := .number 50 },
   some { product_name := "Blue Running Shoes".toList }]

/-- Options with every price constraint active: budget 10, band `[5, 20]`. -/
def constrainedOpts : Opts :=
  { lambda := mkRat 4 5, topk := 10, budget := 10,
    filters := { minPrice := .number 5, maxPrice := .number 20 } }

/-- A catalog with an item whose price is the text `$5`. -/
def textPriceProducts : List (Option Item) :=
  [some { product_name := "Red Running Shoes".toList, price := .number 50 },
   some { product_name := "Blue Running Shoes".toList, price := .string "$5".toList }]

/-- Options with budget 10 and nothing else. -/
def budgetTenOpts : Opts := { lambda := mkRat 4 5, topk := 10, budget := 10 }

/-- The entries of the catalog `ps`, whose first entry has index `i`, that are not
null and pass the test `keep`, in input order, each with its index. -/
def admittedFrom (keep : Nat → Item → Bool) : List (Option Item) → Nat → List (Nat × Item)
  | [], _ => []
  | none :: ps, i => admittedFrom keep ps (i + 1)
  | some p :: ps, i =>
    if keep i p then (i, p) :: admittedFrom keep ps (i + 1)
    else admittedFrom keep ps (i + 1)

/-- The strings `ts` occur in the text `s` one after the other, in this order and
without overlap: `s` is `pre ++ t ++ post` for the first of them, and the others
occur in `post` in the same way. -/
def occursInOrder : List Str → Str → Prop
  | [], _ => True
  | t :: ts, s => ∃ pre post : Str, s = pre ++ t ++ post ∧ occursInOrder ts post

/-- An item with its `reason` field emptied. -/
def clearReason (p : Item) : Item := { p with reason := [] }

section Scoring

variable {α : Type} [LinearOrderedField α]

/-- The catalog after a call of `recommend`: `withWhy` has written `reason` onto
the chosen items, in place; nothing is written when `recommend` returns before
the MMR loop. -/
def productsAfter (host : Host α) (products : List (Option Item)) (selIdxs : List ℤ)
    (opts : Opts) : List (Option Item) :=
  if products.isEmpty then products else
  if (seedsOf products selIdxs).isEmpty ∧ (fCatsOf opts.filters).isEmpty ∧
      (fBrandsOf opts.filters).isEmpty then products else
  if (candidatePool products selIdxs opts).isEmpty then products else
  (mmrRun host products selIdxs opts).picked.foldl (fun ps bestIdx =>
    match (scoreOf host products selIdxs opts).candidates[bestIdx]? with
    | some chosen => ps.set chosen.1 (some (withWhy host chosen.2
        (scoreOf host products selIdxs opts).drivingSeeds opts.budget
        (fCatsOf opts.filters) (fBrandsOf opts.filters)))
    | none => ps) products

end Scoring

section Scoring

variable {α : Type} [LinearOrderedField α]

/-- The invariant of the MMR loop: the positions chosen and the positions left
in `order` are together the positions of the pool, each once; `order` is sorted
by descending base score; and `out` holds the explained items of the chosen
positions, in the order of the picks. -/
def MMRInv (host : Host α) (sc : Scored α) (opts : Opts) (st : MMRState) : Prop :=
  (st.picked ++ st.order).Perm (List.range sc.candidates.length) ∧
  st.order.Sorted (fun a b => sc.baseScore.getD b 0 ≤ sc.baseScore.getD a 0) ∧
  st.out = st.picked.filterMap (fun b => (sc.candidates[b]?).map (fun c =>
    withWhy host c.2 sc.drivingSeeds opts.budget (fCatsOf opts.filters)
      (fBrandsOf opts.filters)))

/-- The state of the MMR loop of a request after `k` runs of its body (the final
state when the loop ends earlier); `mmrRun` is the case `k = N`. -/
def mmrStateAfter (host : Host α) (products : List (Option Item)) (selIdxs : List ℤ)
    (opts : Opts) (k : Nat) : MMRState :=
  let sc := scoreOf host products selIdxs opts
  mmrLoop host sc opts (clamp opts.topk 1 50) sc.candidates.length k 0
    { out := [], picked := [], order := orderOf sc }

end Scoring

/-- A catalog with two candidates that have the same tokens: the seed and two
items named with the seed's words. -/
def duplicateProducts : List (Option Item) :=
  [some { product_name := "Red Shoes".toList },
   some { product_name := "Red Shoes".toList },
   some { product_name := "Shoes Red".toList }]

/-- Options with `lambda = 0` and `topk = 2`. -/
def duplicateOpts : Opts := { lambda := 0, topk := 2, budget := 0 }

/-- The tokens two vectors share, in the order of the first. -/
def sharedTokens {α : Type} (a b : Vec α) : List Str :=
  (a.map Prod.fst).filter (fun t => (mapGet b t).isSome)

/-- The dot product over all shared tokens, as the specification words it: the
sum over the shared tokens of the product of the two weights. -/
def sharedDot {α : Type} [LinearOrderedField α] (a b : Vec α) : α :=
  ((sharedTokens a b).map (fun t => (mapGet a t).getD 0 * (mapGet b t).getD 0)).sum

/-- Rounding to the nearest integer, a tie going to the even one. -/
def roundHalfEven (x : ℚ) : ℤ :=
  if x - ⌊x⌋ < 1 / 2 then ⌊x⌋
  else if 1 / 2 < x - ⌊x⌋ then ⌊x⌋ + 1
  else if ⌊x⌋ % 2 = 0 then ⌊x⌋ else ⌊x⌋ + 1

/-- The number read back from an element of a `Float32Array` after `x` is
stored in it: the binary32 value nearest to `x`, a tie going to the even one,
with 24 significant bits and `-126` the smallest exponent.  A magnitude of
`2^128 - 2^103` or more is stored as `Infinity`, which the rationals do not
hold; there this function keeps rounding to 24 bits. -/
def fround (x : ℚ) : ℚ :=
  if x = 0 then 0 else
  let e : ℤ := max (Int.log 2 |x|) (-126)
  let q : ℚ := (2 : ℚ) ^ (e - 23)
  (if x < 0 then -1 else 1) * (roundHalfEven (|x| / q) : ℚ) * q

section Stored

variable {α : Type} [LinearOrderedField α]

/-- Steps 2 to 5 of `recommend` with the typed arrays made explicit:
`candNorms`, `rel`, `priceAff` and `baseScore` are `Float32Array`s, and `store`
is the rounding a number undergoes when it is written to one of them.  The
brand boost `baseScore[k] += 0.15 * brandBoost` reads the stored score, adds and
stores again; the arithmetic between two stores is exact.  `scoreOf` is the
case of a store that keeps the number as it is. -/
def storedScoreOf (store : α → α) (host : Host α) (products : List (Option Item))
    (selIdxs : List ℤ) (opts : Opts) : Scored α :=
  let f := opts.filters
  let seeds := seedsOf products selIdxs
  let drivingSeeds := drivingSeedsOf products selIdxs f
  let candidates := candidatePool products selIdxs opts
  let candTokens := candidates.map (fun c => tokensOf c.2)
  let idf := poolIdf host candidates
  let candVecs := candTokens.map (addTokens idf [])
  let candNorms := candVecs.map (fun v => store (l2 host v))
  let centroid := centroidOf idf drivingSeeds
  let centroidNorm := centroidNormOf host centroid
  let rel := (candVecs.zip candNorms).map
    (fun vn => store (cosine centroid centroidNorm vn.1 vn.2))
  let medianSeedPrice := medianSeedPriceOf seeds
  let priceAff := candidates.map
    (fun c => store (priceAffOf host medianSeedPrice (toNum c.2.price)))
  let base := (rel.zip priceAff).map (fun ra => store (7 / 10 * ra.1 + 3 / 10 * ra.2))
  let baseScore :=
    if brandBoostOf f > 0 ∧ !(fBrandsOf f).isEmpty then
      (candidates.zip base).map (fun cb =>
        if normalizeString cb.1.2.brand ∈ fBrandsOf f
        then store (cb.2 + 15 / 100 * (brandBoostOf f : α)) else cb.2)
    else base
  { candidates := candidates, candVecs := candVecs, candNorms := candNorms, rel := rel,
    baseScore := baseScore, drivingSeeds := drivingSeeds }

end Stored

/-- A catalog for the price band: the seed, an item priced 5 and an item priced
200, all sharing a token with the seed. -/
def bandProducts : List (Option Item) :=
  [some { product_name := "Red Shoes".toList },
   some { product_name := "Red Boots".toList, price := .number 5 },
   some { product_name := "Red Coat".toList, price := .number 200 }]

/-- Options whose filter has `maxPrice = 1e-7`, a number that `String` prints in
exponent notation. -/
def tinyMaxOpts : Opts :=
  { lambda := mkRat 4 5, topk := 10, budget := 0,
    filters := { maxPrice := .number (mkRat 1 10000000) } }

/-- Options whose filter has `minPrice = 1e21`, a number that `String` prints in
exponent notation. -/
def hugeMinOpts : Opts :=
  { lambda := mkRat 4 5, topk := 10, budget := 0,
    filters := { minPrice := .number 1000000000000000000000 } }

/-! ## Lemmas: filter engine -/

theorem priceGate_budget {budget minP maxP price : ℚ}
    (h : priceGate budget minP maxP price = true) (hb : 0 < budget) : price ≤ budget := by
  unfold priceGate at h
  by_contra hlt
  have : price > budget := not_le.mp hlt
  simp [hb, this] at h

theorem priceGate_max {budget minP maxP price : ℚ}
    (h : priceGate budget minP maxP price = true) (hm : 0 < maxP) : price ≤ maxP := by
  unfold priceGate at h
  by_contra hlt
  have h1 : price > maxP := not_le.mp hlt
  have h2 : price > 0 := lt_trans hm h1
  simp [hm, h1, h2] at h

theorem priceGate_min {budget minP maxP price : ℚ}
    (h : priceGate budget minP maxP price = true) (hm : 0 < minP) :
    price ≤ 0 ∨ minP ≤ price := by
  unfold priceGate at h
  by_contra hcon
  push_neg at hcon
  simp [hm, hcon.1, hcon.2] at h

theorem strictAdmit_relaxed {products : List (Option Item)} {selIdxs : List ℤ} {opts : Opts}
    {i : Nat} {p : Item} (h : strictAdmit products selIdxs opts i p = true) :
    relaxedAdmit selIdxs opts i p = true := by
  unfold strictAdmit at h
  unfold relaxedAdmit
  simp only [Bool.and_eq_true] at h ⊢
  exact h.1.1.1.1

theorem strictLoop_mem (keep : Nat → Item → Bool) :
    ∀ (ps : List (Option Item)) (i : Nat) (acc : List (Nat × Item)) (c : Nat × Item),
      c ∈ strictLoop keep ps i acc →
      c ∈ acc ∨ (keep c.1 c.2 = true ∧ i ≤ c.1 ∧ ps[c.1 - i]? = some (some c.2)) := by
  intro ps
  induction ps with
  | nil => intro i acc c h; left; simpa [strictLoop] using h
  | cons q ps ih =>
    intro i acc c h
    have step : ∀ acc', c ∈ strictLoop keep ps (i + 1) acc' →
        (c ∈ acc' ∨ (keep c.1 c.2 = true ∧ i ≤ c.1 ∧
          (q :: ps)[c.1 - i]? = some (some c.2))) := by
      intro acc' h'
      rcases ih (i + 1) acc' c h' with h1 | ⟨h1, h2, h3⟩
      · exact Or.inl h1
      · right
        refine ⟨h1, by omega, ?_⟩
        have : c.1 - i = (c.1 - (i + 1)) + 1 := by omega
        rw [this]
        simpa using h3
    have here : ∀ p, q = some p → keep i p = true → c ∈ acc ++ [(i, p)] →
        (c ∈ acc ∨ (keep c.1 c.2 = true ∧ i ≤ c.1 ∧
          (q :: ps)[c.1 - i]? = some (some c.2))) := by
      intro p hq ha hc
      rcases List.mem_append.mp hc with h1 | h1
      · exact Or.inl h1
      · right
        have : c = (i, p) := by simpa using h1
        subst this
        simp [ha, hq]
    cases q with
    | none => exact step acc (by simpa [strictLoop] using h)
    | some p =>
      unfold strictLoop at h
      by_cases ha : keep i p = true
      · rw [if_pos ha] at h
        by_cases hlen : (acc ++ [(i, p)]).length ≥ MAX_CAND
        · rw [if_pos hlen] at h
          exact here p rfl ha h
        · rw [if_neg hlen] at h
          rcases step _ h with h1 | h1
          · exact here p rfl ha h1
          · exact Or.inr h1
      · rw [if_neg ha] at h
        exact step acc h

theorem relaxedLoop_mem (keep : Nat → Item → Bool) :
    ∀ (ps : List (Option Item)) (i : Nat) (acc : List (Nat × Item)) (c : Nat × Item),
      c ∈ relaxedLoop keep ps i acc →
      c ∈ acc ∨ (keep c.1 c.2 = true ∧ i ≤ c.1 ∧ ps[c.1 - i]? = some (some c.2)) := by
  intro ps
  induction ps with
  | nil => intro i acc c h; left; simpa [relaxedLoop] using h
  | cons q ps ih =>
    intro i acc c h
    have step : ∀ acc', c ∈ relaxedLoop keep ps (i + 1) acc' →
        (c ∈ acc' ∨ (keep c.1 c.2 = true ∧ i ≤ c.1 ∧
          (q :: ps)[c.1 - i]? = some (some c.2))) := by
      intro acc' h'
      rcases ih (i + 1) acc' c h' with h1 | ⟨h1, h2, h3⟩
      · exact Or.inl h1
      · right
        refine ⟨h1, by omega, ?_⟩
        have : c.1 - i = (c.1 - (i + 1)) + 1 := by omega
        rw [this]
        simpa using h3
    unfold relaxedLoop at h
    by_cases hlen : acc.length < 5000
    · rw [if_pos hlen] at h
      cases q with
      | none => exact step acc h
      | some p =>
        simp only at h
        by_cases ha : keep i p = true
        · rw [if_pos ha] at h
          rcases step _ h with h1 | h1
          · rcases List.mem_append.mp h1 with h2 | h2
            · exact Or.inl h2
            · right
              have : c = (i, p) := by simpa using h2
              subst this
              simp [ha]
          · exact Or.inr h1
        · rw [if_neg ha] at h
          exact step acc h
    · rw [if_neg hlen] at h
      exact Or.inl h

/-- Every entry of the candidate pool is a catalog index with the item at that
index, and passed the gates of the fallback pass (which the prefilter pass
applies too). -/
theorem candidatePool_mem {products : List (Option Item)} {selIdxs : List ℤ} {opts : Opts}
    {c : Nat × Item} (h : c ∈ candidatePool products selIdxs opts) :
    relaxedAdmit selIdxs opts c.1 c.2 = true ∧ products[c.1]? = some (some c.2) := by
  unfold candidatePool at h
  split at h
  · rcases relaxedLoop_mem _ _ _ _ _ h with h1 | ⟨h1, _, h3⟩
    · simp at h1
    · exact ⟨h1, by simpa using h3⟩
  · rcases strictLoop_mem _ _ _ _ _ h with h1 | ⟨h1, _, h3⟩
    · simp at h1
    · exact ⟨strictAdmit_relaxed h1, by simpa using h3⟩

/-- When the prefilter pass admits something, every entry of the pool passed the
whole prefilter. -/
theorem candidatePool_mem_strict {products : List (Option Item)} {selIdxs : List ℤ}
    {opts : Opts} {c : Nat × Item} (hs : strictPass products selIdxs opts ≠ [])
    (h : c ∈ candidatePool products selIdxs opts) :
    strictAdmit products selIdxs opts c.1 c.2 = true := by
  unfold candidatePool at h
  have : (strictPass products selIdxs opts).isEmpty = false := by
    cases hh : strictPass products selIdxs opts with
    | nil => exact absurd hh hs
    | cons a l => rfl
  rw [this] at h
  simp only [Bool.false_eq_true, if_false] at h
  rcases strictLoop_mem _ _ _ _ _ h with h1 | ⟨h1, _, _⟩
  · simp at h1
  · exact h1

/-! ## Lemmas: MMR loop and response -/

section Scoring

variable {α : Type} [LinearOrderedField α]

theorem clamp_topk_bounds (topk : ℤ) : 1 ≤ clamp topk 1 50 ∧ clamp topk 1 50 ≤ 50 := by
  unfold clamp
  constructor
  · exact le_max_left _ _
  · exact max_le (by norm_num) (min_le_left _ _)

theorem clamp_topk_le (topk : ℤ) (h : 1 ≤ topk) : clamp topk 1 50 ≤ topk := by
  unfold clamp
  exact max_le h (min_le_right _ _)

/-- One run of the loop body appends to `out` the explained item of a pool entry. -/
theorem mmrStep_out (host : Host α) (sc : Scored α) (opts : Opts) (pick : Nat)
    (st st' : MMRState) (h : mmrStep host sc opts pick st = some st') :
    ∃ c ∈ sc.candidates, st'.out = st.out ++ [withWhy host c.2 sc.drivingSeeds opts.budget
      (fCatsOf opts.filters) (fBrandsOf opts.filters)] := by
  unfold mmrStep at h
  cases hb : bestIdxOf sc opts.lambda pick st with
  | none => simp [hb] at h
  | some b =>
    cases hc : sc.candidates[b]? with
    | none => simp [hb, hc] at h
    | some c =>
      simp only [hb, hc, Option.some.injEq] at h
      refine ⟨c, List.getElem?_mem hc, ?_⟩
      rw [← h]

theorem mmrLoop_out_mem (host : Host α) (sc : Scored α) (opts : Opts) (L : ℤ) (N : Nat) :
    ∀ (fuel pick : Nat) (st : MMRState) (r : Item),
      r ∈ (mmrLoop host sc opts L N fuel pick st).out →
      r ∈ st.out ∨ ∃ c ∈ sc.candidates, r = withWhy host c.2 sc.drivingSeeds opts.budget
        (fCatsOf opts.filters) (fBrandsOf opts.filters) := by
  intro fuel
  induction fuel with
  | zero => intro pick st r h; exact Or.inl (by simpa [mmrLoop] using h)
  | succ fuel ih =>
    intro pick st r h
    unfold mmrLoop at h
    by_cases hc : (pick : ℤ) < L ∧ pick < N
    · rw [if_pos hc] at h
      cases hs : mmrStep host sc opts pick st with
      | none => rw [hs] at h; exact Or.inl h
      | some st' =>
        rw [hs] at h
        obtain ⟨c, hcm, hout⟩ := mmrStep_out host sc opts pick st st' hs
        rcases ih (pick + 1) st' r h with h1 | h1
        · rw [hout] at h1
          rcases List.mem_append.mp h1 with h2 | h2
          · exact Or.inl h2
          · exact Or.inr ⟨c, hcm, by simpa using h2⟩
        · exact Or.inr h1
    · rw [if_neg hc] at h
      exact Or.inl h

theorem mmrLoop_out_length (host : Host α) (sc : Scored α) (opts : Opts) (L : ℤ) (N : Nat) :
    ∀ (fuel pick : Nat) (st : MMRState),
      (mmrLoop host sc opts L N fuel pick st).out.length
        ≤ st.out.length + (min L.toNat N - pick) := by
  intro fuel
  induction fuel with
  | zero => intro pick st; simp [mmrLoop]
  | succ fuel ih =>
    intro pick st
    unfold mmrLoop
    by_cases hc : (pick : ℤ) < L ∧ pick < N
    · rw [if_pos hc]
      cases hs : mmrStep host sc opts pick st with
      | none => simp
      | some st' =>
        obtain ⟨c, _, hout⟩ := mmrStep_out host sc opts pick st st' hs
        have h1 := ih (pick + 1) st'
        have h2 : st'.out.length = st.out.length + 1 := by rw [hout]; simp
        have h3 : pick < L.toNat := by
          have := hc.1
          omega
        have h4 : pick < min L.toNat N := lt_min h3 hc.2
        simp only
        omega
    · rw [if_neg hc]
      simp

/-- The loop never stops for lack of fuel: once the fuel covers the picks that are
left below `N`, more fuel changes nothing. -/
theorem mmrLoop_fuel (host : Host α) (sc : Scored α) (opts : Opts) (L : ℤ) (N : Nat) :
    ∀ (fuel pick : Nat) (st : MMRState), N - pick ≤ fuel →
      mmrLoop host sc opts L N (fuel + 1) pick st = mmrLoop host sc opts L N fuel pick st := by
  intro fuel
  induction fuel with
  | zero =>
    intro pick st h
    have hN : ¬ pick < N := by omega
    simp [mmrLoop, hN]
  | succ fuel ih =>
    intro pick st h
    rw [mmrLoop]
    conv_rhs => rw [mmrLoop]
    by_cases hc : (pick : ℤ) < L ∧ pick < N
    · rw [if_pos hc, if_pos hc]
      cases hs : mmrStep host sc opts pick st with
      | none => rfl
      | some st' => exact ih (pick + 1) st' (by omega)
    · rw [if_neg hc, if_neg hc]

/-- Every item of the response is the explained item of an entry of the
candidate pool. -/
theorem recommend_mem (host : Host α) (products : List (Option Item)) (selIdxs : List ℤ)
    (opts : Opts) (r : Item) (h : r ∈ recommend host products selIdxs opts) :
    ∃ c ∈ candidatePool products selIdxs opts,
      r = withWhy host c.2 (drivingSeedsOf products selIdxs opts.filters) opts.budget
        (fCatsOf opts.filters) (fBrandsOf opts.filters) := by
  unfold recommend at h
  split at h
  · simp at h
  split at h
  · simp at h
  split at h
  · simp at h
  unfold mmrRun at h
  rcases mmrLoop_out_mem host _ opts _ _ _ _ _ r h with h1 | h1
  · simp at h1
  · exact h1

/-- The response is no longer than the clamped count and the pool. -/
theorem recommend_length (host : Host α) (products : List (Option Item)) (selIdxs : List ℤ)
    (opts : Opts) :
    (recommend host products selIdxs opts).length
      ≤ min (clamp opts.topk 1 50).toNat (candidatePool products selIdxs opts).length := by
  unfold recommend
  split
  · simp
  split
  · simp
  split
  · simp
  unfold mmrRun
  have := mmrLoop_out_length host (scoreOf host products selIdxs opts) opts
    (clamp opts.topk 1 50) (scoreOf host products selIdxs opts).candidates.length
    (scoreOf host products selIdxs opts).candidates.length 0
    { out := [], picked := [], order := orderOf (scoreOf host products selIdxs opts) }
  simpa [scoreOf] using this

/-- A pool of one entry gives a response of one item, the explained item of that
entry. -/
theorem recommend_singleton (host : Host α) (products : List (Option Item))
    (selIdxs : List ℤ) (opts : Opts) (c : Nat × Item)
    (hp : products.isEmpty = false)
    (hd : ¬ ((seedsOf products selIdxs).isEmpty ∧ (fCatsOf opts.filters).isEmpty ∧
      (fBrandsOf opts.filters).isEmpty))
    (hc : candidatePool products selIdxs opts = [c]) :
    recommend host products selIdxs opts =
      [withWhy host c.2 (drivingSeedsOf products selIdxs opts.filters) opts.budget
        (fCatsOf opts.filters) (fBrandsOf opts.filters)] := by
  have hL := (clamp_topk_bounds opts.topk).1
  have hcand : (scoreOf host products selIdxs opts).candidates = [c] := hc
  have hseeds : (scoreOf host products selIdxs opts).drivingSeeds
      = drivingSeedsOf products selIdxs opts.filters := rfl
  unfold recommend
  rw [if_neg (by simp [hp]), if_neg hd, if_neg (by simp [hc])]
  unfold mmrRun
  simp only [hcand, List.length_singleton]
  have ho : orderOf (scoreOf host products selIdxs opts) = [0] := by
    unfold orderOf
    rw [hcand]
    rfl
  rw [ho]
  unfold mmrLoop
  rw [if_pos ⟨by simpa using (by omega : (0 : ℤ) < clamp opts.topk 1 50), by norm_num⟩]
  simp [mmrStep, bestIdxOf, hcand, hseeds, mmrLoop]

theorem withWhy_eq (host : Host α) (p : Item) (seeds : List Item) (budget : ℚ)
    (fCats fBrands : List Str) :
    withWhy host p seeds budget fCats fBrands =
      { p with reason := (withWhy host p seeds budget fCats fBrands).reason } := rfl

/-- A piece of a joined list occurs in the joined text. -/
theorem infix_joinWith (sep : Str) : ∀ (bits : List Str) (x : Str), x ∈ bits →
    x <:+: joinWith sep bits := by
  intro bits
  induction bits with
  | nil => intro x h; simp at h
  | cons a rest ih =>
    intro x h
    cases rest with
    | nil =>
      have : x = a := by simpa using h
      subst this
      simp [joinWith]
    | cons b rest' =>
      rcases List.mem_cons.mp h with h1 | h1
      · subst h1
        unfold joinWith
        rw [List.append_assoc]
        exact (List.prefix_append x _).isInfix
      · unfold joinWith
        exact (ih x h1).trans (List.suffix_append _ _).isInfix

end Scoring

/-! ## Lemmas: explanation text and parsed prices -/

section Scoring

variable {α : Type} [LinearOrderedField α]

theorem withWhy_reason_category (host : Host α) (p : Item) (seeds : List Item) (budget : ℚ)
    (fCats fBrands : List Str) (h : p.product_category_tree.isEmpty = false) :
    ("category: ".toList ++ p.product_category_tree)
      <:+: (withWhy host p seeds budget fCats fBrands).reason := by
  unfold withWhy whyBits
  apply infix_joinWith
  simp [h]

theorem withWhy_reason_matches (host : Host α) (p : Item) (seeds : List Item) (budget : ℚ)
    (fCats fBrands : List Str) (hne : fCats.isEmpty = false)
    (h : normalizeString (firstSegment p.product_category_tree) ∈ fCats) :
    "matches chosen category".toList <:+: (withWhy host p seeds budget fCats fBrands).reason := by
  unfold withWhy whyBits
  apply infix_joinWith
  unfold normalizeString at h
  simp [h, hne]

end Scoring

theorem parseFloat_nonneg (s : Str) (q : ℚ) (h : parseFloat s = some q) : 0 ≤ q := by
  unfold parseFloat at h
  simp only at h
  split at h
  · simp at h
  split at h
  · simp only [Option.some.injEq] at h
    rw [← h]
    exact Nat.cast_nonneg _
  · simp only [Option.some.injEq] at h
    rw [← h, Rat.mkRat_eq_div]
    positivity

/-- A parsed price is never negative. -/
theorem toNum_nonneg (x : JSVal) : 0 ≤ toNum x := by
  unfold toNum
  split
  · next n h => exact parseFloat_nonneg _ n h
  · exact le_refl 0

/-! ## Lemmas: maps -/

theorem mapGet_mapSet {β : Type} (m : List (Str × β)) (t : Str) (v : β) (u : Str) :
    mapGet (mapSet m t v) u = if u = t then some v else mapGet m u := by
  induction m with
  | nil =>
    by_cases h : u = t
    · simp [mapSet, mapGet, h]
    · have h2 : ¬ t = u := fun e => h e.symm
      simp [mapSet, mapGet, h, h2]
  | cons kw m ih =>
    obtain ⟨k, w⟩ := kw
    by_cases hk : k = t
    · by_cases hu : u = t
      · simp [mapSet, mapGet, hk, hu]
      · have h2 : ¬ t = u := fun e => hu e.symm
        simp [mapSet, mapGet, hk, hu, h2]
    · by_cases hu : u = t
      · subst hu
        simp only [mapSet, mapGet, hk, if_false, ih, if_true]
      · by_cases hku : k = u
        · simp [mapSet, mapGet, hk, hu, hku]
        · simp [mapSet, mapGet, hk, hu, hku, ih]

theorem keys_mapSet {β : Type} (m : List (Str × β)) (t : Str) (v : β) :
    (mapSet m t v).map Prod.fst =
      if t ∈ m.map Prod.fst then m.map Prod.fst else m.map Prod.fst ++ [t] := by
  induction m with
  | nil => rfl
  | cons kw m ih =>
    obtain ⟨k, w⟩ := kw
    by_cases hk : k = t
    · have hm : t ∈ List.map Prod.fst ((k, w) :: m) := by
        rw [List.map_cons, hk]; exact List.mem_cons_self _ _
      rw [if_pos hm]
      simp only [mapSet, hk, if_true, List.map_cons]
    · have h2 : ¬ t = k := fun e => hk e.symm
      simp only [mapSet, hk, if_false, List.map_cons, ih, List.mem_cons, h2, false_or]
      split
      · rfl
      · rfl

theorem mapGet_eq_none_iff {β : Type} (m : List (Str × β)) (t : Str) :
    mapGet m t = none ↔ t ∉ m.map Prod.fst := by
  induction m with
  | nil => simp only [mapGet, List.map_nil, List.not_mem_nil, not_false_eq_true]
  | cons kw m ih =>
    obtain ⟨k, w⟩ := kw
    by_cases hk : k = t
    · simp only [mapGet, hk, if_true, List.map_cons, List.mem_cons, true_or, not_true_eq_false]
      exact ⟨fun h => Option.noConfusion h, fun h => h.elim⟩
    · have h2 : ¬ t = k := fun e => hk e.symm
      simp only [mapGet, hk, if_false, ih, List.map_cons, List.mem_cons, h2, false_or]

theorem mem_of_mapGet {β : Type} (m : List (Str × β)) (t : Str) (w : β)
    (h : mapGet m t = some w) : (t, w) ∈ m := by
  induction m with
  | nil => simp [mapGet] at h
  | cons kw m ih =>
    obtain ⟨k, x⟩ := kw
    by_cases hk : k = t
    · simp [mapGet, hk] at h
      simp [hk, h]
    · simp [mapGet, hk] at h
      exact List.mem_cons_of_mem _ (ih h)

theorem mapGet_of_mem {β : Type} (m : List (Str × β)) (hn : (m.map Prod.fst).Nodup)
    (t : Str) (w : β) (h : (t, w) ∈ m) : mapGet m t = some w := by
  induction m with
  | nil => simp at h
  | cons kw m ih =>
    obtain ⟨k, x⟩ := kw
    simp only [List.map_cons, List.nodup_cons] at hn
    rcases List.mem_cons.mp h with h1 | h1
    · have : k = t ∧ x = w := by
        have := Prod.mk.inj h1
        exact ⟨this.1.symm, this.2.symm⟩
      simp [mapGet, this.1, this.2]
    · have hk : ¬ k = t := by
        intro e
        apply hn.1
        rw [e]
        exact List.mem_map_of_mem Prod.fst h1
      simp [mapGet, hk, ih hn.2 h1]

theorem keys_nodup_mapSet {β : Type} (m : List (Str × β)) (t : Str) (v : β)
    (hn : (m.map Prod.fst).Nodup) : ((mapSet m t v).map Prod.fst).Nodup := by
  rw [keys_mapSet]
  split
  · exact hn
  · next h =>
    rw [List.nodup_append]
    refine ⟨hn, List.nodup_singleton t, ?_⟩
    intro a ha hb
    have : a = t := by simpa using hb
    exact h (this ▸ ha)

/-- Two maps with distinct keys and the same lookups hold the same entries. -/
theorem perm_of_mapGet_eq {β : Type} (m1 m2 : List (Str × β))
    (h1 : (m1.map Prod.fst).Nodup) (h2 : (m2.map Prod.fst).Nodup)
    (h : ∀ t, mapGet m1 t = mapGet m2 t) : m1.Perm m2 := by
  have n1 : m1.Nodup := List.Nodup.of_map _ h1
  have n2 : m2.Nodup := List.Nodup.of_map _ h2
  rw [List.perm_ext_iff_of_nodup n1 n2]
  intro tw
  obtain ⟨t, w⟩ := tw
  constructor
  · intro hm
    exact mem_of_mapGet m2 t w (by rw [← h t]; exact mapGet_of_mem m1 h1 t w hm)
  · intro hm
    exact mem_of_mapGet m1 t w (by rw [h t]; exact mapGet_of_mem m2 h2 t w hm)

theorem mem_setOf (xs : List Str) (t : Str) : t ∈ setOf xs ↔ t ∈ xs := by
  unfold setOf
  have gen : ∀ (l acc : List Str),
      t ∈ l.foldl (fun acc x => if x ∈ acc then acc else acc ++ [x]) acc ↔ t ∈ acc ∨ t ∈ l := by
    intro l
    induction l with
    | nil => intro acc; simp
    | cons a l ih =>
      intro acc
      rw [List.foldl_cons, ih]
      by_cases ha : a ∈ acc
      · rw [if_pos ha]
        constructor
        · rintro (h | h)
          · exact Or.inl h
          · exact Or.inr (List.mem_cons_of_mem _ h)
        · rintro (h | h)
          · exact Or.inl h
          · rcases List.mem_cons.mp h with h1 | h1
            · exact Or.inl (h1 ▸ ha)
            · exact Or.inr h1
      · rw [if_neg ha]
        simp only [List.mem_append, List.mem_singleton, List.mem_cons]
        tauto
  simpa using gen xs []

theorem nodup_setOf (xs : List Str) : (setOf xs).Nodup := by
  unfold setOf
  have gen : ∀ (l acc : List Str), acc.Nodup →
      (l.foldl (fun acc x => if x ∈ acc then acc else acc ++ [x]) acc).Nodup := by
    intro l
    induction l with
    | nil => intro acc h; simpa using h
    | cons a l ih =>
      intro acc h
      rw [List.foldl_cons]
      apply ih
      by_cases ha : a ∈ acc
      · rw [if_pos ha]; exact h
      · rw [if_neg ha]
        rw [List.nodup_append]
        refine ⟨h, List.nodup_singleton a, ?_⟩
        intro x hx hb
        have : x = a := by simpa using hb
        exact ha (this ▸ hx)
  exact gen xs [] List.nodup_nil

/-! ## Lemmas: vectors -/

section Scoring

variable {α : Type} [LinearOrderedField α]

theorem foldl_sumSq (l : List α) : ∀ s : α,
    l.foldl (fun s w => s + w * w) s = s + (l.map (fun w => w * w)).sum := by
  induction l with
  | nil => intro s; simp
  | cons a l ih => intro s; rw [List.foldl_cons, ih, List.map_cons, List.sum_cons]; ring

theorem l2_eq (host : Host α) (v : Vec α) : l2 host v = host.sqrt (sumSq v) := by
  unfold l2 sumSq
  rw [foldl_sumSq, zero_add, List.map_map]
  rfl

theorem sumSq_perm {v1 v2 : Vec α} (h : v1.Perm v2) : sumSq v1 = sumSq v2 := by
  unfold sumSq
  exact (h.map _).sum_eq

theorem sumSq_nonneg (v : Vec α) : 0 ≤ sumSq v := by
  unfold sumSq
  apply List.sum_nonneg
  intro x hx
  obtain ⟨tw, _, rfl⟩ := List.mem_map.mp hx
  exact mul_self_nonneg _

theorem sumSq_pos (v : Vec α) (tw : Str × α) (h : tw ∈ v) (hne : tw.2 ≠ 0) : 0 < sumSq v := by
  unfold sumSq
  induction v with
  | nil => simp at h
  | cons a v ih =>
    rw [List.map_cons, List.sum_cons]
    rcases List.mem_cons.mp h with h1 | h1
    · subst h1
      have h2 : 0 < tw.2 * tw.2 := mul_self_pos.mpr hne
      have h3 := sumSq_nonneg v
      unfold sumSq at h3
      linarith
    · have h2 := ih h1
      have h3 : 0 ≤ a.2 * a.2 := mul_self_nonneg _
      linarith

/-- The dot-product loop of `cosine` when every token of `small` has in `big`
the weight it has in `small`. -/
theorem dot_fold_same (small big : Vec α)
    (h : ∀ tw ∈ small, mapGet big tw.1 = some tw.2) : ∀ s : α,
    small.foldl (dotStep big) s = s + sumSq small := by
  induction small with
  | nil => intro s; simp [sumSq]
  | cons a small ih =>
    intro s
    have ha := h a (List.mem_cons_self _ _)
    rw [List.foldl_cons, ih (fun tw htw => h tw (List.mem_cons_of_mem _ htw))]
    simp only [dotStep, ha, sumSq, List.map_cons, List.sum_cons]
    by_cases h0 : a.2 = 0
    · simp [h0]
    · simp only [h0, if_false]; ring

/-- The dot-product loop of `cosine` when no token of `small` is in `big`. -/
theorem dot_fold_none (small big : Vec α)
    (h : ∀ tw ∈ small, mapGet big tw.1 = none) : ∀ s : α,
    small.foldl (dotStep big) s = s := by
  induction small with
  | nil => intro s; rfl
  | cons a small ih =>
    intro s
    have ha := h a (List.mem_cons_self _ _)
    rw [List.foldl_cons, ih (fun tw htw => h tw (List.mem_cons_of_mem _ htw))]
    simp only [dotStep, ha]

/-- Two vectors without a common token have cosine `0`. -/
theorem cosine_disjoint (a : Vec α) (aN : α) (b : Vec α) (bN : α)
    (h : ∀ t, t ∈ a.map Prod.fst → t ∉ b.map Prod.fst) : cosine a aN b bN = 0 := by
  unfold cosine
  split
  · rfl
  · simp only
    by_cases hl : a.length < b.length
    · simp only [hl, if_true]
      rw [dot_fold_none a b (fun tw htw =>
        (mapGet_eq_none_iff b tw.1).mpr (h tw.1 (List.mem_map_of_mem Prod.fst htw)))]
      simp
    · simp only [hl, if_false]
      rw [dot_fold_none b a (fun tw htw =>
        (mapGet_eq_none_iff a tw.1).mpr (fun hin =>
          h tw.1 hin (List.mem_map_of_mem Prod.fst htw)))]
      simp

theorem addTokens_cons (idf v : Vec α) (t : Str) (toks : List Str) :
    addTokens idf v (t :: toks) = addTokens idf (addToken idf v t) toks := rfl

theorem mem_mapSet {β : Type} (m : List (Str × β)) (t : Str) (v : β) (x : Str × β)
    (h : x ∈ mapSet m t v) : x ∈ m ∨ x = (t, v) := by
  induction m with
  | nil =>
    right
    simpa [mapSet] using h
  | cons kw m ih =>
    obtain ⟨k, w⟩ := kw
    by_cases hk : k = t
    · simp only [mapSet, hk, if_true] at h
      rcases List.mem_cons.mp h with h1 | h1
      · exact Or.inr h1
      · exact Or.inl (List.mem_cons_of_mem _ h1)
    · simp only [mapSet, hk, if_false] at h
      rcases List.mem_cons.mp h with h1 | h1
      · exact Or.inl (h1 ▸ List.mem_cons_self _ _)
      · rcases ih h1 with h2 | h2
        · exact Or.inl (List.mem_cons_of_mem _ h2)
        · exact Or.inr h2

theorem addToken_keys_nodup (idf v : Vec α) (t : Str) (h : (v.map Prod.fst).Nodup) :
    ((addToken idf v t).map Prod.fst).Nodup := by
  unfold addToken
  split
  · split
    · exact h
    · exact keys_nodup_mapSet v t _ h
  · exact h

theorem addTokens_keys_nodup (idf : Vec α) (toks : List Str) : ∀ v : Vec α,
    (v.map Prod.fst).Nodup → ((addTokens idf v toks).map Prod.fst).Nodup := by
  induction toks with
  | nil => intro v h; exact h
  | cons t toks ih =>
    intro v h
    rw [addTokens_cons]
    exact ih _ (addToken_keys_nodup idf v t h)

theorem addToken_keys (idf v : Vec α) (t u : Str)
    (h : u ∈ (addToken idf v t).map Prod.fst) : u ∈ v.map Prod.fst ∨ u = t := by
  unfold addToken at h
  split at h
  · split at h
    · exact Or.inl h
    · rw [keys_mapSet] at h
      split at h
      · exact Or.inl h
      · rcases List.mem_append.mp h with h1 | h1
        · exact Or.inl h1
        · exact Or.inr (by simpa using h1)
  · exact Or.inl h

theorem addTokens_keys (idf : Vec α) (toks : List Str) : ∀ (v : Vec α) (u : Str),
    u ∈ (addTokens idf v toks).map Prod.fst → u ∈ v.map Prod.fst ∨ u ∈ toks := by
  induction toks with
  | nil => intro v u h; exact Or.inl h
  | cons t toks ih =>
    intro v u h
    rw [addTokens_cons] at h
    rcases ih _ u h with h1 | h1
    · rcases addToken_keys idf v t u h1 with h2 | h2
      · exact Or.inl h2
      · exact Or.inr (h2 ▸ List.mem_cons_self _ _)
    · exact Or.inr (List.mem_cons_of_mem _ h1)

theorem addToken_pos (idf v : Vec α) (t : Str) (hidf : ∀ u w, mapGet idf u = some w → 0 < w)
    (hv : ∀ tw ∈ v, 0 < tw.2) : ∀ tw ∈ addToken idf v t, 0 < tw.2 := by
  intro tw htw
  unfold addToken at htw
  split at htw
  · next w hw =>
    split at htw
    · exact hv tw htw
    · rcases mem_mapSet v t _ tw htw with h1 | h1
      · exact hv tw h1
      · rw [h1]
        have hwpos : 0 < w := hidf t w hw
        have hprev : 0 ≤ (mapGet v t).getD 0 := by
          cases hg : mapGet v t with
          | none => simp
          | some x => exact (hv (t, x) (mem_of_mapGet v t x hg)).le
        show 0 < (mapGet v t).getD 0 + w
        linarith
  · exact hv tw htw

theorem addTokens_pos (idf : Vec α) (hidf : ∀ u w, mapGet idf u = some w → 0 < w)
    (toks : List Str) :
    ∀ v : Vec α, (∀ tw ∈ v, 0 < tw.2) → ∀ tw ∈ addTokens idf v toks, 0 < tw.2 := by
  induction toks with
  | nil => intro v h; exact h
  | cons t toks ih =>
    intro v h
    rw [addTokens_cons]
    exact ih _ (addToken_pos idf v t hidf h)

theorem mapGet_addToken (idf v : Vec α) (t u : Str) :
    mapGet (addToken idf v t) u =
      match mapGet idf t with
      | some w => if w = 0 then mapGet v u
          else if u = t then some ((mapGet v t).getD 0 + w) else mapGet v u
      | none => mapGet v u := by
  unfold addToken
  cases hg : mapGet idf t with
  | none => rfl
  | some w =>
    by_cases hw : w = 0
    · simp only [hw, if_true]
    · simp only [hw, if_false, mapGet_mapSet]

theorem addToken_congr (idf v v' : Vec α) (t : Str) (h : ∀ u, mapGet v u = mapGet v' u) :
    ∀ u, mapGet (addToken idf v t) u = mapGet (addToken idf v' t) u := by
  intro u
  rw [mapGet_addToken, mapGet_addToken, h u, h t]

theorem addToken_comm (idf v : Vec α) (a b : Str) :
    ∀ u, mapGet (addToken idf (addToken idf v a) b) u
      = mapGet (addToken idf (addToken idf v b) a) u := by
  intro u
  simp only [mapGet_addToken]
  cases ha : mapGet idf a with
  | none => cases hb : mapGet idf b <;> simp
  | some wa =>
    cases hb : mapGet idf b with
    | none => simp
    | some wb =>
      by_cases ha0 : wa = 0
      · simp [ha0]
      by_cases hb0 : wb = 0
      · simp [hb0]
      by_cases hab : a = b
      · subst hab
        rw [ha] at hb
        have : wa = wb := by simpa using hb
        subst this
        rfl
      · have hba : ¬ b = a := fun e => hab e.symm
        simp only [ha0, hb0, if_false, hab, hba]
        by_cases hua : u = a
        · have hub : ¬ u = b := fun e => hab (hua.symm.trans e)
          simp [hua, hab]
        · by_cases hub : u = b
          · simp [hub, hba]
          · simp [hua, hub]

/-- The lookups of a weighted vector depend only on the multiset of tokens. -/
theorem addTokens_perm (idf : Vec α) {toks1 toks2 : List Str} (hp : toks1.Perm toks2) :
    ∀ v v' : Vec α, (∀ u, mapGet v u = mapGet v' u) →
      ∀ u, mapGet (addTokens idf v toks1) u = mapGet (addTokens idf v' toks2) u := by
  induction hp with
  | nil => intro v v' h; exact h
  | cons t _ ih =>
    intro v v' h
    rw [addTokens_cons, addTokens_cons]
    exact ih _ _ (addToken_congr idf v v' t h)
  | swap a b l =>
    intro v v' h
    rw [addTokens_cons, addTokens_cons, addTokens_cons, addTokens_cons]
    have h1 : ∀ u, mapGet (addToken idf (addToken idf v b) a) u
        = mapGet (addToken idf (addToken idf v' a) b) u := by
      intro u
      rw [addToken_comm idf v b a u]
      exact addToken_congr idf _ _ b (addToken_congr idf v v' a h) u
    have gen : ∀ (l : List Str) (w w' : Vec α), (∀ u, mapGet w u = mapGet w' u) →
        ∀ u, mapGet (addTokens idf w l) u = mapGet (addTokens idf w' l) u := by
      intro l
      induction l with
      | nil => intro w w' hw; exact hw
      | cons t l ihl =>
        intro w w' hw
        rw [addTokens_cons, addTokens_cons]
        exact ihl _ _ (addToken_congr idf w w' t hw)
    exact gen l _ _ h1
  | trans _ _ ih1 ih2 =>
    intro v v' h u
    rw [ih1 v v (fun _ => rfl) u]
    exact ih2 v v' h u

theorem addToken_present (idf v : Vec α) (t u : Str) (h : mapGet v u ≠ none) :
    mapGet (addToken idf v t) u ≠ none := by
  rw [mapGet_addToken]
  split
  · split
    · exact h
    · split
      · simp
      · exact h
  · exact h

theorem addTokens_present (idf : Vec α) (toks : List Str) : ∀ (v : Vec α) (u : Str),
    mapGet v u ≠ none → mapGet (addTokens idf v toks) u ≠ none := by
  induction toks with
  | nil => intro v u h; exact h
  | cons t toks ih =>
    intro v u h
    rw [addTokens_cons]
    exact ih _ u (addToken_present idf v t u h)

/-- A token with a non-zero idf weight gets an entry in the weighted vector. -/
theorem addTokens_mem (idf : Vec α) (toks : List Str) (u : Str) (w : α)
    (hw : mapGet idf u = some w) (hw0 : w ≠ 0) : ∀ v : Vec α, u ∈ toks →
    mapGet (addTokens idf v toks) u ≠ none := by
  induction toks with
  | nil => intro v h; simp at h
  | cons t toks ih =>
    intro v h
    rw [addTokens_cons]
    rcases List.mem_cons.mp h with h1 | h1
    · subst h1
      apply addTokens_present
      rw [mapGet_addToken, hw]
      simp [hw0]
    · exact ih _ h1

end Scoring

/-! ## Lemmas: document frequencies and idf -/

theorem mapGet_dfAdd (df : List (Str × Nat)) (toks : List Str) (u : Str) :
    mapGet (dfAdd df toks) u =
      if u ∈ toks then some ((mapGet df u).getD 0 + 1) else mapGet df u := by
  unfold dfAdd
  have gen : ∀ (L : List Str), L.Nodup → ∀ df : List (Str × Nat),
      mapGet (L.foldl dfInc df) u =
        if u ∈ L then some ((mapGet df u).getD 0 + 1) else mapGet df u := by
    intro L
    induction L with
    | nil => intro _ df; simp
    | cons a L ih =>
      intro hn df
      rw [List.nodup_cons] at hn
      rw [List.foldl_cons, ih hn.2]
      unfold dfInc
      rw [mapGet_mapSet]
      by_cases hua : u = a
      · subst hua
        simp [hn.1]
      · simp [hua]
  rw [gen (setOf toks) (nodup_setOf toks) df]
  simp only [mem_setOf]

theorem dfOf_bound_aux (cts : List (List Str)) : ∀ (df : List (Str × Nat)) (n : Nat),
    (∀ u d, mapGet df u = some d → d ≤ n) →
    ∀ u d, mapGet (cts.foldl dfAdd df) u = some d → d ≤ n + cts.length := by
  induction cts with
  | nil => intro df n h u d hd; exact le_trans (h u d hd) (Nat.le_add_right _ _)
  | cons toks cts ih =>
    intro df n h u d hd
    rw [List.foldl_cons] at hd
    have hstep : ∀ u d, mapGet (dfAdd df toks) u = some d → d ≤ n + 1 := by
      intro u d hud
      rw [mapGet_dfAdd] at hud
      split at hud
      · have : (mapGet df u).getD 0 + 1 = d := by simpa using hud
        cases hg : mapGet df u with
        | none => rw [hg] at this; simp at this; omega
        | some x =>
          rw [hg] at this
          have := h u x hg
          simp at *
          omega
      · exact le_trans (h u d hud) (Nat.le_add_right _ _)
    have := ih (dfAdd df toks) (n + 1) hstep u d hd
    simp only [List.length_cons]
    omega

/-- A document frequency is at most the number of candidates. -/
theorem dfOf_bound (cts : List (List Str)) (u : Str) (d : Nat)
    (h : mapGet (dfOf cts) u = some d) : d ≤ cts.length := by
  have := dfOf_bound_aux cts [] 0 (by intro u d hd; simp [mapGet] at hd) u d h
  simpa using this

theorem dfOf_present_aux (cts : List (List Str)) (u : Str) : ∀ (df : List (Str × Nat)),
    (mapGet df u ≠ none ∨ ∃ toks ∈ cts, u ∈ toks) → mapGet (cts.foldl dfAdd df) u ≠ none := by
  induction cts with
  | nil =>
    intro df h
    rcases h with h | ⟨toks, ht, _⟩
    · exact h
    · simp at ht
  | cons toks cts ih =>
    intro df h
    rw [List.foldl_cons]
    apply ih
    by_cases hu : u ∈ toks
    · left
      rw [mapGet_dfAdd, if_pos hu]
      simp
    · rcases h with h | ⟨toks', ht, hut⟩
      · left
        rw [mapGet_dfAdd, if_neg hu]
        exact h
      · rcases List.mem_cons.mp ht with h1 | h1
        · exact absurd (h1 ▸ hut) hu
        · exact Or.inr ⟨toks', h1, hut⟩

/-- Every token of a candidate has a document frequency. -/
theorem dfOf_present (cts : List (List Str)) (toks : List Str) (u : Str)
    (ht : toks ∈ cts) (hu : u ∈ toks) : mapGet (dfOf cts) u ≠ none :=
  dfOf_present_aux cts u [] (Or.inr ⟨toks, ht, hu⟩)

section Scoring

variable {α : Type} [LinearOrderedField α]

theorem mapGet_idfOf (host : Host α) (N : Nat) (df : List (Str × Nat)) (u : Str) :
    mapGet (idfOf host N df) u =
      (mapGet df u).map (fun (d : Nat) => host.log (((N : α) + 1) / ((d : α) + 1)) + 1) := by
  unfold idfOf
  induction df with
  | nil => rfl
  | cons kd df ih =>
    obtain ⟨k, d⟩ := kd
    by_cases hk : k = u
    · simp only [List.map_cons, mapGet, hk, if_true, Option.map_some']
    · simp only [List.map_cons, mapGet, hk, if_false, ih]

/-- Every token of a pool entry has an idf weight. -/
theorem poolIdf_present (host : Host α) (pool : List (Nat × Item)) (c : Nat × Item)
    (hc : c ∈ pool) (u : Str) (hu : u ∈ tokensOf c.2) :
    ∃ w, mapGet (poolIdf host pool) u = some w := by
  unfold poolIdf
  rw [mapGet_idfOf]
  have := dfOf_present (pool.map (fun c => tokensOf c.2)) (tokensOf c.2) u
    (List.mem_map_of_mem (fun c => tokensOf c.2) hc) hu
  cases hg : mapGet (dfOf (pool.map (fun c => tokensOf c.2))) u with
  | none => exact absurd hg this
  | some d => exact ⟨_, rfl⟩

end Scoring

/-- With the real logarithm every idf weight of a pool is at least `1`. -/
theorem poolIdf_ge_one (host : Host ℝ) (hlog : host.log = Real.log)
    (pool : List (Nat × Item)) (u : Str) (w : ℝ)
    (h : mapGet (poolIdf host pool) u = some w) : 1 ≤ w := by
  unfold poolIdf at h
  rw [mapGet_idfOf] at h
  cases hg : mapGet (dfOf (pool.map (fun c => tokensOf c.2))) u with
  | none => rw [hg] at h; simp at h
  | some d =>
    rw [hg] at h
    simp only [Option.map_some', Option.some.injEq] at h
    have hd : d ≤ pool.length := by
      have := dfOf_bound _ u d hg
      simpa using this
    rw [← h, hlog]
    have h1 : (1 : ℝ) ≤ ((pool.length : ℝ) + 1) / ((d : ℝ) + 1) := by
      rw [le_div_iff₀ (by positivity)]
      have : (d : ℝ) ≤ (pool.length : ℝ) := by exact_mod_cast hd
      linarith
    have := Real.log_nonneg h1
    linarith

/-- With real square root and logarithm, two pool entries with the same token
multiset, not empty, have cosine `1`. -/
theorem cosine_same_tokens (host : Host ℝ) (hsqrt : host.sqrt = Real.sqrt)
    (hlog : host.log = Real.log) (pool : List (Nat × Item)) (c d : Nat × Item)
    (hd : d ∈ pool) (hne : tokensOf d.2 ≠ [])
    (hperm : (tokensOf d.2).Perm (tokensOf c.2)) :
    cosine (addTokens (poolIdf host pool) [] (tokensOf c.2))
        (l2 host (addTokens (poolIdf host pool) [] (tokensOf c.2)))
      (addTokens (poolIdf host pool) [] (tokensOf d.2))
        (l2 host (addTokens (poolIdf host pool) [] (tokensOf d.2))) = 1 := by
  set idf := poolIdf host pool with hidf
  set va := addTokens idf [] (tokensOf c.2) with hva
  set vb := addTokens idf [] (tokensOf d.2) with hvb
  have na : (va.map Prod.fst).Nodup := addTokens_keys_nodup idf _ [] List.nodup_nil
  have nb : (vb.map Prod.fst).Nodup := addTokens_keys_nodup idf _ [] List.nodup_nil
  have hget : ∀ u, mapGet vb u = mapGet va u :=
    addTokens_perm idf hperm [] [] (fun _ => rfl)
  have hp : vb.Perm va := perm_of_mapGet_eq vb va nb na hget
  have hidfpos : ∀ u w, mapGet idf u = some w → 0 < w := fun u w h =>
    lt_of_lt_of_le one_pos (poolIdf_ge_one host hlog pool u w h)
  have hpos : ∀ tw ∈ vb, 0 < tw.2 :=
    addTokens_pos idf hidfpos _ [] (by intro tw h; simp at h)
  obtain ⟨u, hu⟩ := List.exists_mem_of_ne_nil _ hne
  obtain ⟨w, hw⟩ := poolIdf_present host pool d hd u hu
  have hw0 : w ≠ 0 := (hidfpos u w hw).ne'
  have hmem : mapGet vb u ≠ none := addTokens_mem idf _ u w hw hw0 [] hu
  obtain ⟨x, hx⟩ := Option.ne_none_iff_exists'.mp hmem
  have hxin : (u, x) ∈ vb := mem_of_mapGet vb u x hx
  have hS : 0 < sumSq vb := sumSq_pos vb (u, x) hxin (hpos _ hxin).ne'
  have hSa : sumSq va = sumSq vb := (sumSq_perm hp).symm
  have hlen : ¬ va.length < vb.length := by rw [hp.length_eq]; exact lt_irrefl _
  have hdot : vb.foldl (dotStep va) 0 = 0 + sumSq vb :=
    dot_fold_same vb va (fun tw htw => by
      rw [← hget tw.1]; exact mapGet_of_mem vb nb tw.1 tw.2 htw) 0
  have hsq : Real.sqrt (sumSq vb) ≠ 0 := (Real.sqrt_pos.mpr hS).ne'
  unfold cosine
  rw [l2_eq, l2_eq, hSa, hsqrt]
  rw [if_neg (by simp [hsq])]
  simp only [hlen, if_false, hdot, zero_add]
  rw [Real.mul_self_sqrt hS.le]
  exact div_self hS.ne'

/-! ## Lemmas: the MMR scan -/

section Scoring

variable {α : Type} [LinearOrderedField α]

theorem candVecs_getD (host : Host α) (products : List (Option Item)) (selIdxs : List ℤ)
    (opts : Opts) (j : Nat) (cj : Nat × Item)
    (h : (candidatePool products selIdxs opts)[j]? = some cj) :
    (scoreOf host products selIdxs opts).candVecs.getD j [] =
      addTokens (poolIdf host (candidatePool products selIdxs opts)) [] (tokensOf cj.2) := by
  unfold scoreOf
  simp only [List.getD_eq_getElem?_getD, List.getElem?_map, h, Option.map_some',
    Option.getD_some]

theorem candNorms_getD (host : Host α) (products : List (Option Item)) (selIdxs : List ℤ)
    (opts : Opts) (j : Nat) (cj : Nat × Item)
    (h : (candidatePool products selIdxs opts)[j]? = some cj) :
    (scoreOf host products selIdxs opts).candNorms.getD j 0 =
      l2 host (addTokens (poolIdf host (candidatePool products selIdxs opts)) []
        (tokensOf cj.2)) := by
  unfold scoreOf
  simp only [List.getD_eq_getElem?_getD, List.getElem?_map, h, Option.map_some',
    Option.getD_some]

theorem candNorms_getD_none (host : Host α) (products : List (Option Item))
    (selIdxs : List ℤ) (opts : Opts) (j : Nat)
    (h : (candidatePool products selIdxs opts)[j]? = none) :
    (scoreOf host products selIdxs opts).candNorms.getD j 0 = 0 := by
  unfold scoreOf
  simp only [List.getD_eq_getElem?_getD, List.getElem?_map, h, Option.map_none',
    Option.getD_none]

/-- The running maximum of `maxSimOf` never decreases and dominates every
similarity it has seen. -/
theorem foldl_max_spec (f : Nat → α) (l : List Nat) : ∀ m0 : α,
    m0 ≤ l.foldl (fun m j => if f j > m then f j else m) m0 ∧
    ∀ j ∈ l, f j ≤ l.foldl (fun m j => if f j > m then f j else m) m0 := by
  induction l with
  | nil => intro m0; exact ⟨le_refl _, by intro j h; simp at h⟩
  | cons a l ih =>
    intro m0
    rw [List.foldl_cons]
    have h := ih (if f a > m0 then f a else m0)
    have h1 : m0 ≤ (if f a > m0 then f a else m0) := by
      split
      · next hgt => exact le_of_lt hgt
      · exact le_refl _
    have h2 : f a ≤ (if f a > m0 then f a else m0) := by
      split
      · exact le_refl _
      · next hgt => exact not_lt.mp hgt
    refine ⟨le_trans h1 h.1, ?_⟩
    intro j hj
    rcases List.mem_cons.mp hj with e | hj'
    · rw [e]; exact le_trans h2 h.1
    · exact h.2 j hj'

theorem foldl_max_const (f : Nat → α) (l : List Nat) (m0 : α) (h : ∀ j ∈ l, f j ≤ m0) :
    l.foldl (fun m j => if f j > m then f j else m) m0 = m0 := by
  induction l with
  | nil => rfl
  | cons a l ih =>
    rw [List.foldl_cons]
    have ha : ¬ f a > m0 := not_lt.mpr (h a (List.mem_cons_self _ _))
    rw [if_neg ha]
    exact ih (fun j hj => h j (List.mem_cons_of_mem _ hj))

theorem maxSimOf_ge (sc : Scored α) (picked : List Nat) (i j : Nat) (hj : j ∈ picked) :
    cosine (sc.candVecs.getD j []) (sc.candNorms.getD j 0)
      (sc.candVecs.getD i []) (sc.candNorms.getD i 0) ≤ maxSimOf sc picked i :=
  (foldl_max_spec (fun j => cosine (sc.candVecs.getD j []) (sc.candNorms.getD j 0)
    (sc.candVecs.getD i []) (sc.candNorms.getD i 0)) picked 0).2 j hj

theorem maxSimOf_zero (sc : Scored α) (picked : List Nat) (i : Nat)
    (h : ∀ j ∈ picked, cosine (sc.candVecs.getD j []) (sc.candNorms.getD j 0)
      (sc.candVecs.getD i []) (sc.candNorms.getD i 0) ≤ 0) :
    maxSimOf sc picked i = 0 :=
  foldl_max_const (fun j => cosine (sc.candVecs.getD j []) (sc.candNorms.getD j 0)
    (sc.candVecs.getD i []) (sc.candNorms.getD i 0)) picked 0 h

/-- The scan of `order`: the best value dominates the start value and the MMR
of every position scanned, and the result is the start pair or a scanned
position with its MMR. -/
theorem scanOrder_spec (sc : Scored α) (lambda : ℚ) (picked : List Nat) (l : List Nat) :
    ∀ best : Option Nat × α,
      best.2 ≤ (scanOrder sc lambda picked l best).2 ∧
      (∀ i ∈ l, mmrOf sc lambda picked i ≤ (scanOrder sc lambda picked l best).2) ∧
      (scanOrder sc lambda picked l best = best ∨
        ∃ i ∈ l, scanOrder sc lambda picked l best = (some i, mmrOf sc lambda picked i)) := by
  induction l with
  | nil =>
    intro best
    exact ⟨le_refl _, by intro i h; simp at h, Or.inl rfl⟩
  | cons a l ih =>
    intro best
    unfold scanOrder
    obtain ⟨h1, h2, h3⟩ := ih (if mmrOf sc lambda picked a > best.2
      then (some a, mmrOf sc lambda picked a) else best)
    by_cases hgt : mmrOf sc lambda picked a > best.2
    · rw [if_pos hgt] at h1 h2 h3 ⊢
      refine ⟨le_trans (le_of_lt hgt) h1, ?_, ?_⟩
      · intro i hi
        rcases List.mem_cons.mp hi with e | hi'
        · rw [e]; exact h1
        · exact h2 i hi'
      · right
        rcases h3 with h3 | ⟨i, hi, h3⟩
        · exact ⟨a, List.mem_cons_self _ _, h3⟩
        · exact ⟨i, List.mem_cons_of_mem _ hi, h3⟩
    · rw [if_neg hgt] at h1 h2 h3 ⊢
      refine ⟨h1, ?_, ?_⟩
      · intro i hi
        rcases List.mem_cons.mp hi with e | hi'
        · rw [e]; exact le_trans (not_lt.mp hgt) h1
        · exact h2 i hi'
      · rcases h3 with h3 | ⟨i, hi, h3⟩
        · exact Or.inl h3
        · exact Or.inr ⟨i, List.mem_cons_of_mem _ hi, h3⟩

/-- A position whose MMR is below that of another position of `order` is not
the result of the scan. -/
theorem scanOrder_ne (sc : Scored α) (lambda : ℚ) (picked order : List Nat) (d e : Nat)
    (he : e ∈ order) (hlt : mmrOf sc lambda picked d < mmrOf sc lambda picked e) :
    (scanOrder sc lambda picked order (none, -1)).1 ≠ some d := by
  obtain ⟨_, h2, h3⟩ := scanOrder_spec sc lambda picked order (none, -1)
  intro hres
  rcases h3 with h3 | ⟨i, _, h3⟩
  · rw [h3] at hres
    simp at hres
  · rw [h3] at hres h2
    have hid : i = d := by simpa using hres
    subst hid
    exact absurd (h2 e he) (not_le.mpr hlt)

end Scoring

/-! ## Lemmas: brand boost and seed indices -/

section Scoring

variable {α : Type} [LinearOrderedField α]

theorem candidatePool_withoutBoost (products : List (Option Item)) (selIdxs : List ℤ)
    (opts : Opts) :
    candidatePool products selIdxs (withoutBoost opts) = candidatePool products selIdxs opts :=
  rfl

theorem baseScore_withoutBoost_length (host : Host α) (products : List (Option Item))
    (selIdxs : List ℤ) (opts : Opts) :
    (scoreOf host products selIdxs (withoutBoost opts)).baseScore.length
      = (candidatePool products selIdxs opts).length := by
  have h0 : ¬ (brandBoostOf (withoutBoost opts).filters > 0) := by
    simp [brandBoostOf, withoutBoost]
  unfold scoreOf
  simp only [h0, false_and, if_false]
  simp [candidatePool_withoutBoost]

theorem baseScore_boost (host : Host α) (products : List (Option Item))
    (selIdxs : List ℤ) (opts : Opts) (hb : 0 < brandBoostOf opts.filters)
    (hne : fBrandsOf opts.filters ≠ []) :
    (scoreOf host products selIdxs opts).baseScore =
      ((candidatePool products selIdxs opts).zip
        (scoreOf host products selIdxs (withoutBoost opts)).baseScore).map (fun cb =>
          if normalizeString cb.1.2.brand ∈ fBrandsOf opts.filters
          then cb.2 + 15 / 100 * (brandBoostOf opts.filters : α) else cb.2) := by
  have h0 : ¬ (brandBoostOf (withoutBoost opts).filters > 0) := by
    simp [brandBoostOf, withoutBoost]
  have h1 : brandBoostOf opts.filters > 0 ∧ (!(fBrandsOf opts.filters).isEmpty) = true := by
    refine ⟨hb, ?_⟩
    cases hh : fBrandsOf opts.filters with
    | nil => exact absurd hh hne
    | cons a l => rfl
  unfold scoreOf
  simp only [h0, false_and, if_false, h1, and_self, if_true]
  rfl

theorem strictLoop_congr (keep1 keep2 : Nat → Item → Bool) :
    ∀ (ps : List (Option Item)) (i : Nat) (acc : List (Nat × Item)),
      (∀ j p, i ≤ j → j < i + ps.length → keep1 j p = keep2 j p) →
      strictLoop keep1 ps i acc = strictLoop keep2 ps i acc := by
  intro ps
  induction ps with
  | nil => intro i acc _; rfl
  | cons q ps ih =>
    intro i acc h
    have hrec : ∀ acc', strictLoop keep1 ps (i + 1) acc' = strictLoop keep2 ps (i + 1) acc' :=
      fun acc' => ih (i + 1) acc' (fun j p h1 h2 => h j p (by omega)
        (by simp only [List.length_cons]; omega))
    cases q with
    | none => simp only [strictLoop, hrec]
    | some p =>
      have hk : keep1 i p = keep2 i p := h i p (le_refl i) (by simp)
      simp only [strictLoop, hrec, hk]

theorem relaxedLoop_congr (keep1 keep2 : Nat → Item → Bool) :
    ∀ (ps : List (Option Item)) (i : Nat) (acc : List (Nat × Item)),
      (∀ j p, i ≤ j → j < i + ps.length → keep1 j p = keep2 j p) →
      relaxedLoop keep1 ps i acc = relaxedLoop keep2 ps i acc := by
  intro ps
  induction ps with
  | nil => intro i acc _; rfl
  | cons q ps ih =>
    intro i acc h
    have hrec : ∀ acc', relaxedLoop keep1 ps (i + 1) acc' = relaxedLoop keep2 ps (i + 1) acc' :=
      fun acc' => ih (i + 1) acc' (fun j p h1 h2 => h j p (by omega)
        (by simp only [List.length_cons]; omega))
    cases q with
    | none => simp only [relaxedLoop, hrec]
    | some p =>
      have hk : keep1 i p = keep2 i p := h i p (le_refl i) (by simp)
      simp only [relaxedLoop, hrec, hk]

theorem productAt_out_of_range (products : List (Option Item)) (i : ℤ)
    (h : ¬ (0 ≤ i ∧ i < (products.length : ℤ))) : productAt products i = none := by
  unfold productAt
  by_cases h0 : i < 0
  · simp [h0]
  · have h1 : products.length ≤ i.toNat := by omega
    simp [h0, List.getElem?_eq_none h1]

theorem seedsOf_inRange (products : List (Option Item)) (selIdxs : List ℤ) :
    seedsOf products (inRangeIdxs products selIdxs) = seedsOf products selIdxs := by
  unfold seedsOf inRangeIdxs
  induction selIdxs with
  | nil => rfl
  | cons i rest ih =>
    by_cases h : 0 ≤ i ∧ i < (products.length : ℤ)
    · rw [List.filter_cons_of_pos (by simpa using h)]
      simp only [List.filterMap_cons, ih]
    · rw [List.filter_cons_of_neg (by simpa using h)]
      simp only [List.filterMap_cons, productAt_out_of_range products i h, ih]

theorem mem_inRange (products : List (Option Item)) (selIdxs : List ℤ) (j : Nat)
    (hj : j < products.length) :
    ((j : ℤ) ∈ inRangeIdxs products selIdxs) ↔ ((j : ℤ) ∈ selIdxs) := by
  unfold inRangeIdxs
  rw [List.mem_filter]
  constructor
  · exact fun h => h.1
  · intro h
    refine ⟨h, ?_⟩
    simp only [decide_eq_true_eq]
    omega

theorem candidatePool_inRange (products : List (Option Item)) (selIdxs : List ℤ)
    (opts : Opts) :
    candidatePool products (inRangeIdxs products selIdxs) opts
      = candidatePool products selIdxs opts := by
  have hs := seedsOf_inRange products selIdxs
  have hstrict : strictPass products (inRangeIdxs products selIdxs) opts
      = strictPass products selIdxs opts := by
    unfold strictPass
    apply strictLoop_congr
    intro j p _ hj
    have hm := mem_inRange products selIdxs j (by simpa using hj)
    unfold strictAdmit seedTokensOf drivingSeedsOf
    simp only [hs, hm]
  have hrelaxed : relaxedPass products (inRangeIdxs products selIdxs) opts
      = relaxedPass products selIdxs opts := by
    unfold relaxedPass
    apply relaxedLoop_congr
    intro j p _ hj
    have hm := mem_inRange products selIdxs j (by simpa using hj)
    unfold relaxedAdmit
    simp only [hm]
  unfold candidatePool
  rw [hstrict, hrelaxed]

theorem scoreOf_inRange (host : Host α) (products : List (Option Item)) (selIdxs : List ℤ)
    (opts : Opts) :
    scoreOf host products (inRangeIdxs products selIdxs) opts
      = scoreOf host products selIdxs opts := by
  unfold scoreOf drivingSeedsOf
  simp only [seedsOf_inRange, candidatePool_inRange]

end Scoring

/-! ## Lemmas: the nearest seed -/

section Scoring

variable {α : Type} [LinearOrderedField α]

theorem seedStep_fst (host : Host α) (v : Vec α) (vNorm : α) (best : Option Item × α)
    (s : Item) :
    (seedStep host v vNorm best s).1 = best.1 ∨ (seedStep host v vNorm best s).1 = some s := by
  unfold seedStep
  simp only
  split_ifs <;> simp

/-- The loop over the seeds returns the seed it started with or one of the
seeds. -/
theorem nearestSeed_fst (host : Host α) (v : Vec α) (vNorm : α) (seeds : List Item) :
    ∀ best : Option Item × α,
      (nearestSeed host v vNorm seeds best).1 = best.1 ∨
      ∃ s ∈ seeds, (nearestSeed host v vNorm seeds best).1 = some s := by
  induction seeds with
  | nil => intro best; exact Or.inl rfl
  | cons s rest ih =>
    intro best
    unfold nearestSeed
    rcases ih (seedStep host v vNorm best s) with h | ⟨t, ht, h⟩
    · rcases seedStep_fst host v vNorm best s with k | k
      · exact Or.inl (h.trans k)
      · exact Or.inr ⟨s, List.mem_cons_self _ _, h.trans k⟩
    · exact Or.inr ⟨t, List.mem_cons_of_mem _ ht, h⟩

theorem bestSeedOf_cases (host : Host α) (p : Item) (seeds : List Item) :
    bestSeedOf host p seeds = none ∨ ∃ s ∈ seeds, bestSeedOf host p seeds = some s := by
  unfold bestSeedOf
  split
  · exact Or.inl rfl
  · exact nearestSeed_fst host _ _ seeds (none, -1)

end Scoring

/-! ## Lemmas: the passes as filters -/

/-- The prefilter loop appends the admitted entries until the set has `MAX_CAND`
entries. -/
theorem strictLoop_eq (keep : Nat → Item → Bool) :
    ∀ (ps : List (Option Item)) (i : Nat) (acc : List (Nat × Item)),
      acc.length < MAX_CAND →
      strictLoop keep ps i acc = acc ++ (admittedFrom keep ps i).take (MAX_CAND - acc.length) := by
  intro ps
  induction ps with
  | nil => intro i acc _; simp [strictLoop, admittedFrom]
  | cons q ps ih =>
    intro i acc hlt
    cases q with
    | none => simp only [strictLoop, admittedFrom]; exact ih (i + 1) acc hlt
    | some p =>
      unfold strictLoop admittedFrom
      by_cases hk : keep i p = true
      · rw [if_pos hk, if_pos hk]
        by_cases hfull : (acc ++ [(i, p)]).length ≥ MAX_CAND
        · rw [if_pos hfull]
          have h1 : MAX_CAND - acc.length = 1 := by
            simp only [List.length_append, List.length_singleton] at hfull
            omega
          rw [h1]
          simp
        · rw [if_neg hfull]
          have hlt' : (acc ++ [(i, p)]).length < MAX_CAND := not_le.mp hfull
          rw [ih (i + 1) (acc ++ [(i, p)]) hlt']
          have h1 : MAX_CAND - acc.length = (MAX_CAND - (acc ++ [(i, p)]).length) + 1 := by
            simp only [List.length_append, List.length_singleton] at hlt' ⊢
            omega
          rw [h1, List.take_succ_cons]
          simp
      · rw [if_neg hk, if_neg hk]
        exact ih (i + 1) acc hlt

/-- The fallback loop appends the admitted entries while the set has fewer than
5000 entries. -/
theorem relaxedLoop_eq (keep : Nat → Item → Bool) :
    ∀ (ps : List (Option Item)) (i : Nat) (acc : List (Nat × Item)),
      relaxedLoop keep ps i acc = acc ++ (admittedFrom keep ps i).take (5000 - acc.length) := by
  intro ps
  induction ps with
  | nil => intro i acc; simp [relaxedLoop, admittedFrom]
  | cons q ps ih =>
    intro i acc
    unfold relaxedLoop
    by_cases hlt : acc.length < 5000
    · rw [if_pos hlt]
      cases q with
      | none => simp only [admittedFrom]; exact ih (i + 1) acc
      | some p =>
        simp only [admittedFrom]
        by_cases hk : keep i p = true
        · rw [if_pos hk, if_pos hk, ih (i + 1) (acc ++ [(i, p)])]
          have h1 : 5000 - acc.length = (5000 - (acc ++ [(i, p)]).length) + 1 := by
            simp only [List.length_append, List.length_singleton]
            omega
          rw [h1, List.take_succ_cons]
          simp
        · rw [if_neg hk, if_neg hk]
          exact ih (i + 1) acc
    · rw [if_neg hlt]
      have : 5000 - acc.length = 0 := by omega
      rw [this]
      simp

theorem admittedFrom_mem (keep : Nat → Item → Bool) :
    ∀ (ps : List (Option Item)) (i : Nat) (c : Nat × Item),
      c ∈ admittedFrom keep ps i ↔
        (keep c.1 c.2 = true ∧ i ≤ c.1 ∧ ps[c.1 - i]? = some (some c.2)) := by
  intro ps
  induction ps with
  | nil => intro i c; simp [admittedFrom]
  | cons q ps ih =>
    intro i c
    have shift : ∀ (j : Nat), i + 1 ≤ j → (q :: ps)[j - i]? = ps[j - (i + 1)]? := by
      intro j hj
      have : j - i = (j - (i + 1)) + 1 := by omega
      rw [this, List.getElem?_cons_succ]
    have tail : c ∈ admittedFrom keep ps (i + 1) ↔
        (keep c.1 c.2 = true ∧ i + 1 ≤ c.1 ∧ (q :: ps)[c.1 - i]? = some (some c.2)) := by
      rw [ih (i + 1) c]
      constructor
      · rintro ⟨h1, h2, h3⟩; exact ⟨h1, h2, by rw [shift c.1 h2]; exact h3⟩
      · rintro ⟨h1, h2, h3⟩; exact ⟨h1, h2, by rw [← shift c.1 h2]; exact h3⟩
    have split_idx : ∀ (P : Prop), (i ≤ c.1 ∧ P) ↔ ((c.1 = i ∧ P) ∨ (i + 1 ≤ c.1 ∧ P)) := by
      intro P
      constructor
      · rintro ⟨h, hp⟩
        rcases Nat.eq_or_lt_of_le h with e | l
        · exact Or.inl ⟨e.symm, hp⟩
        · exact Or.inr ⟨l, hp⟩
      · rintro (⟨e, hp⟩ | ⟨l, hp⟩)
        · exact ⟨by omega, hp⟩
        · exact ⟨by omega, hp⟩
    cases q with
    | none =>
      simp only [admittedFrom]
      rw [tail]
      constructor
      · rintro ⟨h1, h2, h3⟩; exact ⟨h1, by omega, h3⟩
      · rintro ⟨h1, h2, h3⟩
        refine ⟨h1, ?_, h3⟩
        rcases Nat.eq_or_lt_of_le h2 with e | l
        · rw [← e] at h3; simp at h3
        · exact l
    | some p =>
      simp only [admittedFrom]
      by_cases hk : keep i p = true
      · rw [if_pos hk, List.mem_cons, tail]
        constructor
        · rintro (e | ⟨h1, h2, h3⟩)
          · subst e; exact ⟨hk, le_refl _, by simp⟩
          · exact ⟨h1, by omega, h3⟩
        · rintro ⟨h1, h2, h3⟩
          rcases Nat.eq_or_lt_of_le h2 with e | l
          · left
            rw [← e] at h3
            simp at h3
            exact Prod.ext e.symm h3.symm
          · exact Or.inr ⟨h1, l, h3⟩
      · rw [if_neg hk, tail]
        constructor
        · rintro ⟨h1, h2, h3⟩; exact ⟨h1, by omega, h3⟩
        · rintro ⟨h1, h2, h3⟩
          refine ⟨h1, ?_, h3⟩
          rcases Nat.eq_or_lt_of_le h2 with e | l
          · rw [← e] at h3
            simp at h3
            rw [← e, ← h3] at h1
            exact absurd h1 hk
          · exact l

/-- The admitted entries come in strictly increasing index order. -/
theorem admittedFrom_sorted (keep : Nat → Item → Bool) :
    ∀ (ps : List (Option Item)) (i : Nat),
      ((admittedFrom keep ps i).map Prod.fst).Sorted (· < ·) := by
  intro ps
  induction ps with
  | nil => intro i; simp [admittedFrom]
  | cons q ps ih =>
    intro i
    cases q with
    | none => simp only [admittedFrom]; exact ih (i + 1)
    | some p =>
      simp only [admittedFrom]
      by_cases hk : keep i p = true
      · rw [if_pos hk, List.map_cons, List.sorted_cons]
        refine ⟨?_, ih (i + 1)⟩
        intro b hb
        obtain ⟨c, hc, rfl⟩ := List.mem_map.mp hb
        have := ((admittedFrom_mem keep ps (i + 1) c).mp hc).2.1
        show i < c.1
        omega
      · rw [if_neg hk]; exact ih (i + 1)

theorem strictPass_eq (products : List (Option Item)) (selIdxs : List ℤ) (opts : Opts) :
    strictPass products selIdxs opts
      = (admittedFrom (strictAdmit products selIdxs opts) products 0).take 30000 := by
  unfold strictPass
  rw [strictLoop_eq _ _ _ _ (by decide)]
  rfl

theorem relaxedPass_eq (products : List (Option Item)) (selIdxs : List ℤ) (opts : Opts) :
    relaxedPass products selIdxs opts
      = (admittedFrom (relaxedAdmit selIdxs opts) products 0).take 5000 := by
  unfold relaxedPass
  rw [relaxedLoop_eq]
  rfl

/-- The catalog indices of the candidate pool are strictly increasing. -/
theorem candidatePool_sorted (products : List (Option Item)) (selIdxs : List ℤ) (opts : Opts) :
    ((candidatePool products selIdxs opts).map Prod.fst).Sorted (· < ·) := by
  unfold candidatePool
  split
  · rw [relaxedPass_eq, List.map_take]
    exact (admittedFrom_sorted _ _ _).sublist (List.take_sublist _ _)
  · rw [strictPass_eq, List.map_take]
    exact (admittedFrom_sorted _ _ _).sublist (List.take_sublist _ _)

theorem priceGate_iff (budget minP maxP price : ℚ) :
    priceGate budget minP maxP price = true ↔
      (¬ (budget > 0 ∧ price > budget) ∧ ¬ (minP > 0 ∧ price > 0 ∧ price < minP) ∧
        ¬ (maxP > 0 ∧ price > 0 ∧ price > maxP)) := by
  unfold priceGate
  simp only [Bool.and_eq_true, Bool.not_eq_true', Bool.eq_false_iff, ne_eq, decide_eq_true_eq,
    and_assoc]

theorem relaxedAdmit_iff (selIdxs : List ℤ) (opts : Opts) (i : Nat) (p : Item) :
    relaxedAdmit selIdxs opts i p = true ↔
      ((i : ℤ) ∉ selIdxs ∧ p.product_name ≠ [] ∧
        ¬ (opts.budget > 0 ∧ toNum p.price > opts.budget) ∧
        ¬ (minPOf opts.filters > 0 ∧ toNum p.price > 0 ∧ toNum p.price < minPOf opts.filters) ∧
        ¬ (maxPOf opts.filters > 0 ∧ toNum p.price > 0 ∧
          toNum p.price > maxPOf opts.filters)) := by
  unfold relaxedAdmit
  simp only [Bool.and_eq_true, priceGate_iff, Bool.not_eq_true', Bool.eq_false_iff, ne_eq,
    decide_eq_true_eq, List.isEmpty_iff, and_assoc]

/-! ## Lemmas: tokenizer -/

theorem occursInOrder_prepend (x : Str) : ∀ (ts : List Str) (s : Str),
    occursInOrder ts s → occursInOrder ts (x ++ s) := by
  intro ts s h
  cases ts with
  | nil => trivial
  | cons t ts =>
    obtain ⟨pre, post, hs, hrest⟩ := h
    exact ⟨x ++ pre, post, by rw [hs]; simp, hrest⟩

theorem occursInOrder_sublist : ∀ (l1 l2 : List Str), l1.Sublist l2 → ∀ s : Str,
    occursInOrder l2 s → occursInOrder l1 s := by
  intro l1 l2 h
  induction h with
  | slnil => intro s hs; exact hs
  | cons a _ ih =>
    intro s hs
    obtain ⟨pre, post, hsp, hrest⟩ := hs
    rw [hsp, List.append_assoc]
    exact occursInOrder_prepend _ _ _ (occursInOrder_prepend _ _ _ (ih post hrest))
  | cons₂ a _ ih =>
    intro s hs
    obtain ⟨pre, post, hsp, hrest⟩ := hs
    exact ⟨pre, post, hsp, ih post hrest⟩

/-- The pieces `split` returns for the replaced text occur in the original text,
in order. -/
theorem splitWs_inOrder : ∀ (s cur : Str) (inRun inSep : Bool),
    (inRun = true → inSep = true) → (inSep = true → cur = []) →
    occursInOrder (splitWs (replaceRuns s inRun) cur inSep) (cur ++ s) := by
  intro s
  induction s with
  | nil =>
    intro cur inRun inSep _ _
    exact ⟨[], [], by simp, trivial⟩
  | cons c cs ih =>
    intro cur inRun inSep h1 h2
    have sep : ∀ (b : Bool), occursInOrder (splitWs (replaceRuns cs b) [] true) cs →
        occursInOrder (if inSep = true then splitWs (replaceRuns cs b) [] true
          else cur :: splitWs (replaceRuns cs b) [] true) (cur ++ c :: cs) := by
      intro b hrec
      by_cases hs : inSep = true
      · rw [if_pos hs, h2 hs]
        exact occursInOrder_prepend [c] _ _ hrec
      · rw [if_neg hs]
        exact ⟨[], c :: cs, by simp, occursInOrder_prepend [c] _ _ hrec⟩
    unfold replaceRuns
    by_cases hk : isKept c = true
    · rw [if_pos hk]
      unfold splitWs
      by_cases hsp : isJsSpace c = true
      · rw [if_pos hsp]
        exact sep false (by simpa using ih [] false true (by simp) (by simp))
      · rw [if_neg hsp]
        have := ih (cur ++ [c]) false false (by simp) (by simp)
        simpa using this
    · rw [if_neg hk]
      by_cases hr : inRun = true
      · rw [if_pos hr]
        have hc : cur = [] := h2 (h1 hr)
        have hi : inSep = true := h1 hr
        subst hc
        rw [hi]
        have := ih [] true true (by simp) (by simp)
        exact occursInOrder_prepend [c] _ _ (by simpa using this)
      · rw [if_neg hr]
        unfold splitWs
        rw [if_pos (by decide)]
        exact sep true (by simpa using ih [] true true (by simp) (by simp))

/-- The pieces `split` returns for the replaced text hold only characters of
`a-z` and `0-9`. -/
theorem splitWs_chars : ∀ (s cur : Str) (inRun inSep : Bool),
    (∀ c ∈ cur, c.isLower = true ∨ c.isDigit = true) →
    ∀ t ∈ splitWs (replaceRuns s inRun) cur inSep,
      ∀ c ∈ t, c.isLower = true ∨ c.isDigit = true := by
  intro s
  induction s with
  | nil =>
    intro cur inRun inSep hcur t ht
    have : t = cur := by simpa [replaceRuns, splitWs] using ht
    rw [this]; exact hcur
  | cons c cs ih =>
    intro cur inRun inSep hcur t ht
    have sep : ∀ (b : Bool), t ∈ (if inSep = true then splitWs (replaceRuns cs b) [] true
          else cur :: splitWs (replaceRuns cs b) [] true) →
        ∀ c ∈ t, c.isLower = true ∨ c.isDigit = true := by
      intro b hmem
      by_cases hs : inSep = true
      · rw [if_pos hs] at hmem
        exact ih [] b true (by simp) t hmem
      · rw [if_neg hs] at hmem
        rcases List.mem_cons.mp hmem with e | hm
        · rw [e]; exact hcur
        · exact ih [] b true (by simp) t hm
    unfold replaceRuns at ht
    by_cases hk : isKept c = true
    · rw [if_pos hk] at ht
      unfold splitWs at ht
      by_cases hsp : isJsSpace c = true
      · rw [if_pos hsp] at ht
        exact sep false ht
      · rw [if_neg hsp] at ht
        refine ih (cur ++ [c]) false false ?_ t ht
        intro x hx
        rcases List.mem_append.mp hx with h | h
        · exact hcur x h
        · have hxc : x = c := by simpa using h
          rw [hxc]
          unfold isKept at hk
          simp only [Bool.or_eq_true] at hk
          rcases hk with hk | hk
          · exact hk
          · exact absurd hk hsp
    · rw [if_neg hk] at ht
      by_cases hr : inRun = true
      · rw [if_pos hr] at ht
        exact ih cur true inSep hcur t ht
      · rw [if_neg hr] at ht
        unfold splitWs at ht
        rw [if_pos (by decide)] at ht
        exact sep true ht

/-! ## Lemmas: the `reason` field is not read -/

theorem productAt_clear (ps : List (Option Item)) (i : ℤ) :
    productAt (ps.map (Option.map clearReason)) i = (productAt ps i).map clearReason := by
  unfold productAt
  split
  · rfl
  · rw [List.getElem?_map]
    cases ps[i.toNat]? with
    | none => rfl
    | some q => cases q <;> rfl

theorem seedsOf_clear (ps : List (Option Item)) (selIdxs : List ℤ) :
    seedsOf (ps.map (Option.map clearReason)) selIdxs
      = (seedsOf ps selIdxs).map clearReason := by
  unfold seedsOf
  induction selIdxs with
  | nil => rfl
  | cons i rest ih =>
    simp only [List.filterMap_cons, productAt_clear, ih]
    cases productAt ps i <;> simp

theorem drivingSeedsOf_clear (ps : List (Option Item)) (selIdxs : List ℤ) (f : Filters) :
    drivingSeedsOf (ps.map (Option.map clearReason)) selIdxs f
      = (drivingSeedsOf ps selIdxs f).map clearReason := by
  unfold drivingSeedsOf
  rw [seedsOf_clear]
  cases seedsOf ps selIdxs with
  | nil => rfl
  | cons a l => rfl

theorem flatMap_tokensOf_clear (l : List Item) :
    (l.map clearReason).flatMap tokensOf = l.flatMap tokensOf := by
  induction l with
  | nil => rfl
  | cons a l ih => simp only [List.map_cons, List.flatMap_cons, ih]; rfl

theorem seedTokensOf_clear (ps : List (Option Item)) (selIdxs : List ℤ) (f : Filters) :
    seedTokensOf (ps.map (Option.map clearReason)) selIdxs f = seedTokensOf ps selIdxs f := by
  unfold seedTokensOf
  rw [drivingSeedsOf_clear, flatMap_tokensOf_clear]

theorem strictAdmit_clear (ps : List (Option Item)) (selIdxs : List ℤ) (opts : Opts)
    (i : Nat) (p : Item) :
    strictAdmit (ps.map (Option.map clearReason)) selIdxs opts i (clearReason p)
      = strictAdmit ps selIdxs opts i p := by
  have he : ((seedsOf ps selIdxs).map clearReason).isEmpty = (seedsOf ps selIdxs).isEmpty := by
    cases seedsOf ps selIdxs <;> rfl
  simp only [strictAdmit, seedsOf_clear, seedTokensOf_clear, he]
  rfl

theorem admittedFrom_clear (keep keep2 : Nat → Item → Bool)
    (h : ∀ i p, keep2 i (clearReason p) = keep i p) :
    ∀ (ps : List (Option Item)) (i : Nat),
      admittedFrom keep2 (ps.map (Option.map clearReason)) i
        = (admittedFrom keep ps i).map (fun c => (c.1, clearReason c.2)) := by
  intro ps
  induction ps with
  | nil => intro i; rfl
  | cons q ps ih =>
    intro i
    cases q with
    | none => simp only [List.map_cons, Option.map_none', admittedFrom, ih]
    | some p =>
      simp only [List.map_cons, Option.map_some', admittedFrom, ih, h]
      split <;> rfl

theorem candidatePool_clear (ps : List (Option Item)) (selIdxs : List ℤ) (opts : Opts) :
    candidatePool (ps.map (Option.map clearReason)) selIdxs opts
      = (candidatePool ps selIdxs opts).map (fun c => (c.1, clearReason c.2)) := by
  have hs : strictPass (ps.map (Option.map clearReason)) selIdxs opts
      = (strictPass ps selIdxs opts).map (fun c => (c.1, clearReason c.2)) := by
    rw [strictPass_eq, strictPass_eq,
      admittedFrom_clear (strictAdmit ps selIdxs opts) _ (strictAdmit_clear ps selIdxs opts),
      List.map_take]
  have hr : relaxedPass (ps.map (Option.map clearReason)) selIdxs opts
      = (relaxedPass ps selIdxs opts).map (fun c => (c.1, clearReason c.2)) := by
    rw [relaxedPass_eq, relaxedPass_eq,
      admittedFrom_clear (relaxedAdmit selIdxs opts) _ (fun _ _ => rfl), List.map_take]
  unfold candidatePool
  rw [hs, hr]
  cases strictPass ps selIdxs opts <;> rfl

section Scoring

variable {α : Type} [LinearOrderedField α]

theorem medianSeedPriceOf_clear (seeds : List Item) :
    medianSeedPriceOf (seeds.map clearReason) = medianSeedPriceOf seeds := by
  unfold medianSeedPriceOf
  rw [List.map_map]
  rfl

theorem centroidOf_clear (idf : Vec α) (seeds : List Item) :
    centroidOf idf (seeds.map clearReason) = centroidOf idf seeds := by
  unfold centroidOf
  have gen : ∀ (l : List Item) (v : Vec α),
      (l.map clearReason).foldl (fun v p => addTokens idf v (tokensOf p)) v
        = l.foldl (fun v p => addTokens idf v (tokensOf p)) v := by
    intro l
    induction l with
    | nil => intro v; rfl
    | cons s rest ih => intro v; simp only [List.map_cons, List.foldl_cons]; exact ih _
  exact gen seeds []

theorem poolIdf_clear (host : Host α) (pool : List (Nat × Item)) :
    poolIdf host (pool.map (fun c => (c.1, clearReason c.2))) = poolIdf host pool := by
  unfold poolIdf
  rw [List.length_map, List.map_map]
  rfl

/-- The scorer computes the same vectors, norms and base scores for a catalog and
for the same catalog with the `reason` fields emptied. -/
theorem scoreOf_clear (host : Host α) (ps : List (Option Item)) (selIdxs : List ℤ)
    (opts : Opts) :
    scoreOf host (ps.map (Option.map clearReason)) selIdxs opts =
      { candidates := (scoreOf host ps selIdxs opts).candidates.map
          (fun c => (c.1, clearReason c.2))
        candVecs := (scoreOf host ps selIdxs opts).candVecs
        candNorms := (scoreOf host ps selIdxs opts).candNorms
        rel := (scoreOf host ps selIdxs opts).rel
        baseScore := (scoreOf host ps selIdxs opts).baseScore
        drivingSeeds := (scoreOf host ps selIdxs opts).drivingSeeds.map clearReason } := by
  unfold scoreOf
  simp only [candidatePool_clear, seedsOf_clear, drivingSeedsOf_clear, poolIdf_clear,
    medianSeedPriceOf_clear, centroidOf_clear, List.map_map]
  have hz : ∀ (β : Type) (l : List (Nat × Item)) (m : List β),
      (l.map (fun c => (c.1, clearReason c.2))).zip m
        = (l.zip m).map (fun cb => ((cb.1.1, clearReason cb.1.2), cb.2)) := by
    intro β l
    induction l with
    | nil => intro m; rfl
    | cons a l ih =>
      intro m
      cases m with
      | nil => rfl
      | cons b m => simp only [List.map_cons, List.zip_cons_cons, ih]
  simp only [hz, List.map_map]
  rfl

theorem seedStep_clear (host : Host α) (v : Vec α) (vNorm : α) (best : Option Item × α)
    (s : Item) :
    seedStep host v vNorm (best.1.map clearReason, best.2) (clearReason s)
      = ((seedStep host v vNorm best s).1.map clearReason, (seedStep host v vNorm best s).2) := by
  unfold seedStep
  simp only
  have ht : tokensOf (clearReason s) = tokensOf s := rfl
  rw [ht]
  split_ifs <;> rfl

theorem nearestSeed_clear (host : Host α) (v : Vec α) (vNorm : α) (seeds : List Item) :
    ∀ best : Option Item × α,
      nearestSeed host v vNorm (seeds.map clearReason) (best.1.map clearReason, best.2)
        = ((nearestSeed host v vNorm seeds best).1.map clearReason,
           (nearestSeed host v vNorm seeds best).2) := by
  induction seeds with
  | nil => intro best; rfl
  | cons s rest ih =>
    intro best
    simp only [List.map_cons, nearestSeed]
    rw [seedStep_clear]
    exact ih _

theorem bestSeedOf_clear (host : Host α) (p : Item) (seeds : List Item) :
    bestSeedOf host (clearReason p) (seeds.map clearReason)
      = (bestSeedOf host p seeds).map clearReason := by
  unfold bestSeedOf
  have he : (seeds.map clearReason).isEmpty = seeds.isEmpty := by cases seeds <;> rfl
  rw [he]
  split
  · rfl
  · have ht : tokensOf (clearReason p) = tokensOf p := rfl
    simp only [ht]
    have := nearestSeed_clear host (countTokens [] (tokensOf p))
      (if l2 host (countTokens [] (tokensOf p)) = 0 then 1 / 100000000
        else l2 host (countTokens [] (tokensOf p))) seeds (none, -1)
    simp only [Option.map_none'] at this
    rw [this]

theorem whyBits_clear (host : Host α) (b : Option Item) (p : Item) (budget : ℚ)
    (fCats fBrands : List Str) :
    whyBits host (b.map clearReason) (clearReason p) budget fCats fBrands
      = whyBits host b p budget fCats fBrands := by
  cases b <;> rfl

/-- The explanation of an item does not read the `reason` fields of the item or
of the seeds. -/
theorem withWhy_clear (host : Host α) (p : Item) (seeds : List Item) (budget : ℚ)
    (fCats fBrands : List Str) :
    withWhy host (clearReason p) (seeds.map clearReason) budget fCats fBrands
      = withWhy host p seeds budget fCats fBrands := by
  unfold withWhy
  simp only [bestSeedOf_clear, whyBits_clear]
  rfl

theorem scanOrder_congr (sc sc2 : Scored α) (hv : sc2.candVecs = sc.candVecs)
    (hn : sc2.candNorms = sc.candNorms) (hb : sc2.baseScore = sc.baseScore)
    (lambda : ℚ) (picked : List Nat) : ∀ (l : List Nat) (best : Option Nat × α),
    scanOrder sc2 lambda picked l best = scanOrder sc lambda picked l best := by
  have hm : ∀ i, mmrOf sc2 lambda picked i = mmrOf sc lambda picked i := by
    intro i
    unfold mmrOf maxSimOf
    rw [hv, hn, hb]
  intro l
  induction l with
  | nil => intro best; rfl
  | cons a l ih => intro best; simp only [scanOrder, hm, ih]

theorem orderOf_congr (sc sc2 : Scored α) (hb : sc2.baseScore = sc.baseScore)
    (hl : sc2.candidates.length = sc.candidates.length) : orderOf sc2 = orderOf sc := by
  unfold orderOf
  rw [hb, hl]

/-- The MMR loop depends on the scorer's result only through vectors, norms, base
scores and the explained items. -/
theorem mmrLoop_congr (host : Host α) (sc sc2 : Scored α) (opts : Opts) (L : ℤ) (N : Nat)
    (hv : sc2.candVecs = sc.candVecs) (hn : sc2.candNorms = sc.candNorms)
    (hb : sc2.baseScore = sc.baseScore)
    (hw : ∀ b : Nat, (sc2.candidates[b]?).map (fun c => withWhy host c.2 sc2.drivingSeeds
        opts.budget (fCatsOf opts.filters) (fBrandsOf opts.filters))
      = (sc.candidates[b]?).map (fun c => withWhy host c.2 sc.drivingSeeds
        opts.budget (fCatsOf opts.filters) (fBrandsOf opts.filters))) :
    ∀ (fuel pick : Nat) (st : MMRState),
      mmrLoop host sc2 opts L N fuel pick st = mmrLoop host sc opts L N fuel pick st := by
  have hstep : ∀ pick st, mmrStep host sc2 opts pick st = mmrStep host sc opts pick st := by
    intro pick st
    have hbest : bestIdxOf sc2 opts.lambda pick st = bestIdxOf sc opts.lambda pick st := by
      unfold bestIdxOf
      rw [scanOrder_congr sc sc2 hv hn hb]
    unfold mmrStep
    rw [hbest]
    cases bestIdxOf sc opts.lambda pick st with
    | none => rfl
    | some b =>
      have h := hw b
      cases h2 : sc2.candidates[b]? with
      | none =>
        cases h1 : sc.candidates[b]? with
        | none => simp only [h2, h1]
        | some c => rw [h2, h1] at h; simp at h
      | some c2 =>
        cases h1 : sc.candidates[b]? with
        | none => rw [h2, h1] at h; simp at h
        | some c =>
          rw [h2, h1] at h
          simp only [Option.map_some', Option.some.injEq] at h
          simp only [h2, h1, h]
  intro fuel
  induction fuel with
  | zero => intro pick st; rfl
  | succ fuel ih =>
    intro pick st
    simp only [mmrLoop, hstep]
    split
    · cases mmrStep host sc opts pick st with
      | none => rfl
      | some st2 => exact ih _ _
    · rfl

/-- The response for a catalog and for the same catalog with the `reason` fields
emptied are the same. -/
theorem recommend_clear (host : Host α) (ps : List (Option Item)) (selIdxs : List ℤ)
    (opts : Opts) :
    recommend host (ps.map (Option.map clearReason)) selIdxs opts
      = recommend host ps selIdxs opts := by
  have hsc := scoreOf_clear host ps selIdxs opts
  have h1 : (ps.map (Option.map clearReason)).isEmpty = ps.isEmpty := by cases ps <;> rfl
  have h2 : (seedsOf (ps.map (Option.map clearReason)) selIdxs).isEmpty
      = (seedsOf ps selIdxs).isEmpty := by
    rw [seedsOf_clear]; cases seedsOf ps selIdxs <;> rfl
  have h3 : (candidatePool (ps.map (Option.map clearReason)) selIdxs opts).isEmpty
      = (candidatePool ps selIdxs opts).isEmpty := by
    rw [candidatePool_clear]; cases candidatePool ps selIdxs opts <;> rfl
  have hlen : (scoreOf host (ps.map (Option.map clearReason)) selIdxs opts).candidates.length
      = (scoreOf host ps selIdxs opts).candidates.length := by
    rw [hsc]; simp
  have hv : (scoreOf host (ps.map (Option.map clearReason)) selIdxs opts).candVecs
      = (scoreOf host ps selIdxs opts).candVecs := by rw [hsc]
  have hn : (scoreOf host (ps.map (Option.map clearReason)) selIdxs opts).candNorms
      = (scoreOf host ps selIdxs opts).candNorms := by rw [hsc]
  have hb : (scoreOf host (ps.map (Option.map clearReason)) selIdxs opts).baseScore
      = (scoreOf host ps selIdxs opts).baseScore := by rw [hsc]
  have hrun : mmrRun host (ps.map (Option.map clearReason)) selIdxs opts
      = mmrRun host ps selIdxs opts := by
    unfold mmrRun
    simp only
    rw [hlen, orderOf_congr _ _ hb hlen,
      mmrLoop_congr host (scoreOf host ps selIdxs opts) _ opts _ _ hv hn hb]
    intro b
    rw [hsc]
    simp only [List.getElem?_map]
    cases (scoreOf host ps selIdxs opts).candidates[b]? with
    | none => rfl
    | some c => simp only [Option.map_some', withWhy_clear]
  unfold recommend
  rw [h1, h2, h3, hrun]

end Scoring

theorem set_eq_self_of_getElem? {β : Type} : ∀ (l : List β) (i : Nat) (a : β),
    l[i]? = some a → l.set i a = l := by
  intro l
  induction l with
  | nil => intro i a h; rfl
  | cons x l ih =>
    intro i a h
    cases i with
    | zero =>
      have : x = a := by simpa using h
      rw [this]; rfl
    | succ i =>
      simp only [List.set_cons_succ]
      rw [ih i a (by simpa using h)]

section Scoring

variable {α : Type} [LinearOrderedField α]

/-- A call of `recommend` changes nothing in the catalog but `reason` fields. -/
theorem productsAfter_clear (host : Host α) (products : List (Option Item))
    (selIdxs : List ℤ) (opts : Opts) :
    (productsAfter host products selIdxs opts).map (Option.map clearReason)
      = products.map (Option.map clearReason) := by
  unfold productsAfter
  split
  · rfl
  split
  · rfl
  split
  · rfl
  have gen : ∀ (picked : List Nat) (ps : List (Option Item)),
      ps.map (Option.map clearReason) = products.map (Option.map clearReason) →
      (picked.foldl (fun ps bestIdx =>
        match (scoreOf host products selIdxs opts).candidates[bestIdx]? with
        | some chosen => ps.set chosen.1 (some (withWhy host chosen.2
            (scoreOf host products selIdxs opts).drivingSeeds opts.budget
            (fCatsOf opts.filters) (fBrandsOf opts.filters)))
        | none => ps) ps).map (Option.map clearReason)
        = products.map (Option.map clearReason) := by
    intro picked
    induction picked with
    | nil => intro ps h; exact h
    | cons b rest ih =>
      intro ps h
      rw [List.foldl_cons]
      apply ih
      cases hc : (scoreOf host products selIdxs opts).candidates[b]? with
      | none => exact h
      | some c =>
        simp only
        have hmem : c ∈ candidatePool products selIdxs opts := List.getElem?_mem hc
        have hp := (candidatePool_mem hmem).2
        rw [List.map_set, h]
        apply set_eq_self_of_getElem?
        rw [List.getElem?_map, hp]
        rfl
  exact gen _ products rfl

end Scoring

/-! ## Lemmas: the invariant of the MMR loop -/

section Scoring

variable {α : Type} [LinearOrderedField α]

theorem orderOf_perm (sc : Scored α) : (orderOf sc).Perm (List.range sc.candidates.length) :=
  List.perm_insertionSort _ _

theorem orderOf_sorted (sc : Scored α) :
    (orderOf sc).Sorted (fun a b => sc.baseScore.getD b 0 ≤ sc.baseScore.getD a 0) := by
  haveI : IsTotal Nat (fun a b => sc.baseScore.getD b 0 ≤ sc.baseScore.getD a 0) :=
    ⟨fun a b => le_total _ _⟩
  haveI : IsTrans Nat (fun a b => sc.baseScore.getD b 0 ≤ sc.baseScore.getD a 0) :=
    ⟨fun a b c hab hbc => le_trans hbc hab⟩
  exact List.sorted_insertionSort _ _

theorem bestIdxOf_mem (sc : Scored α) (lambda : ℚ) (pick : Nat) (st : MMRState) (b : Nat)
    (h : bestIdxOf sc lambda pick st = some b) : b ∈ st.order := by
  unfold bestIdxOf at h
  split at h
  · exact List.mem_of_mem_head? h
  · obtain ⟨_, _, h3⟩ := scanOrder_spec sc lambda st.picked st.order (none, -1)
    rcases h3 with h3 | ⟨i, hi, h3⟩
    · rw [h3] at h; simp at h
    · rw [h3] at h
      have : i = b := by simpa using h
      exact this ▸ hi

theorem mmrInv_init (host : Host α) (sc : Scored α) (opts : Opts) :
    MMRInv host sc opts { out := [], picked := [], order := orderOf sc } :=
  ⟨by simpa using orderOf_perm sc, orderOf_sorted sc, rfl⟩

/-- A run of the loop body keeps the invariant, and the position it picks was in
`order`. -/
theorem mmrStep_inv (host : Host α) (sc : Scored α) (opts : Opts) (pick : Nat)
    (st st2 : MMRState) (hinv : MMRInv host sc opts st)
    (h : mmrStep host sc opts pick st = some st2) :
    MMRInv host sc opts st2 ∧
    ∃ b, b ∈ st.order ∧ st2.picked = st.picked ++ [b] ∧ st2.order = st.order.erase b := by
  unfold mmrStep at h
  cases hb : bestIdxOf sc opts.lambda pick st with
  | none => simp [hb] at h
  | some b =>
    have hmem := bestIdxOf_mem sc opts.lambda pick st b hb
    cases hc : sc.candidates[b]? with
    | none => simp [hb, hc] at h
    | some c =>
      simp only [hb, hc, Option.some.injEq] at h
      subst h
      obtain ⟨hperm, hsorted, hout⟩ := hinv
      refine ⟨⟨?_, ?_, ?_⟩, b, hmem, rfl, rfl⟩
      · simp only
        have h1 : (st.picked ++ [b] ++ st.order.erase b).Perm (st.picked ++ st.order) := by
          rw [List.append_assoc]
          exact List.Perm.append_left _ (List.perm_cons_erase hmem).symm
        exact h1.trans hperm
      · exact hsorted.sublist (List.erase_sublist _ _)
      · simp only [List.filterMap_append, hout, List.filterMap_cons, hc, Option.map_some',
          List.filterMap_nil]

theorem mmrLoop_inv (host : Host α) (sc : Scored α) (opts : Opts) (L : ℤ) (N : Nat) :
    ∀ (fuel pick : Nat) (st : MMRState), MMRInv host sc opts st →
      MMRInv host sc opts (mmrLoop host sc opts L N fuel pick st) := by
  intro fuel
  induction fuel with
  | zero => intro pick st h; exact h
  | succ fuel ih =>
    intro pick st h
    unfold mmrLoop
    split
    · cases hs : mmrStep host sc opts pick st with
      | none => exact h
      | some st2 => exact ih _ _ (mmrStep_inv host sc opts pick st st2 h hs).1
    · exact h

/-- Under the invariant the chosen positions are distinct positions of the pool. -/
theorem mmrInv_picked (host : Host α) (sc : Scored α) (opts : Opts) (st : MMRState)
    (h : MMRInv host sc opts st) :
    st.picked.Nodup ∧ st.order.Nodup ∧ (∀ b ∈ st.picked, b ∉ st.order) ∧
    (∀ b ∈ st.picked ++ st.order, b < sc.candidates.length) := by
  have hn : (st.picked ++ st.order).Nodup := h.1.nodup_iff.mpr (List.nodup_range _)
  rw [List.nodup_append] at hn
  refine ⟨hn.1, hn.2.1, fun b hb hb2 => hn.2.2 hb hb2, ?_⟩
  intro b hb
  exact List.mem_range.mp (h.1.mem_iff.mp hb)

end Scoring

section Scoring

variable {α : Type} [LinearOrderedField α]

/-- Two positions of the pool that hold the same catalog index are the same
position. -/
theorem candidatePool_index_inj (products : List (Option Item)) (selIdxs : List ℤ)
    (opts : Opts) (a b : Nat) (ca cb : Nat × Item)
    (ha : (candidatePool products selIdxs opts)[a]? = some ca)
    (hb : (candidatePool products selIdxs opts)[b]? = some cb) (h : ca.1 = cb.1) : a = b := by
  have hn : ((candidatePool products selIdxs opts).map Prod.fst).Nodup :=
    (candidatePool_sorted products selIdxs opts).nodup
  have ha2 : ((candidatePool products selIdxs opts).map Prod.fst)[a]? = some ca.1 := by
    rw [List.getElem?_map, ha]; rfl
  have hb2 : ((candidatePool products selIdxs opts).map Prod.fst)[b]? = some ca.1 := by
    rw [List.getElem?_map, hb, h]; rfl
  obtain ⟨hla, hea⟩ := List.getElem?_eq_some_iff.mp ha2
  obtain ⟨hlb, heb⟩ := List.getElem?_eq_some_iff.mp hb2
  exact (hn.getElem_inj_iff).mp (hea.trans heb.symm)

/-- The response is the list of explained items of pool entries with distinct
catalog indices. -/
theorem recommend_entries (host : Host α) (products : List (Option Item)) (selIdxs : List ℤ)
    (opts : Opts) :
    ∃ cs : List (Nat × Item),
      (∀ c ∈ cs, c ∈ candidatePool products selIdxs opts) ∧ (cs.map Prod.fst).Nodup ∧
      recommend host products selIdxs opts = cs.map (fun c => withWhy host c.2
        (drivingSeedsOf products selIdxs opts.filters) opts.budget (fCatsOf opts.filters)
        (fBrandsOf opts.filters)) := by
  have hnil : ∃ cs : List (Nat × Item),
      (∀ c ∈ cs, c ∈ candidatePool products selIdxs opts) ∧ (cs.map Prod.fst).Nodup ∧
      ([] : List Item) = cs.map (fun c => withWhy host c.2
        (drivingSeedsOf products selIdxs opts.filters) opts.budget (fCatsOf opts.filters)
        (fBrandsOf opts.filters)) := ⟨[], by simp, by simp, rfl⟩
  unfold recommend
  split
  · exact hnil
  split
  · exact hnil
  split
  · exact hnil
  have hinv : MMRInv host (scoreOf host products selIdxs opts) opts
      (mmrRun host products selIdxs opts) := by
    unfold mmrRun
    exact mmrLoop_inv host _ opts _ _ _ _ _ (mmrInv_init host _ opts)
  have hpicked := (mmrInv_picked host _ opts _ hinv).1
  refine ⟨(mmrRun host products selIdxs opts).picked.filterMap
    (fun b => (candidatePool products selIdxs opts)[b]?), ?_, ?_, ?_⟩
  · intro c hc
    obtain ⟨b, _, hb⟩ := List.mem_filterMap.mp hc
    exact List.getElem?_mem hb
  · rw [List.map_filterMap]
    apply List.Nodup.filterMap _ hpicked
    intro a b x hxa hxb
    cases ha : (candidatePool products selIdxs opts)[a]? with
    | none => rw [ha] at hxa; simp at hxa
    | some ca =>
      cases hb : (candidatePool products selIdxs opts)[b]? with
      | none => rw [hb] at hxb; simp at hxb
      | some cb =>
        rw [ha] at hxa
        rw [hb] at hxb
        simp only [Option.map_some', Option.mem_def, Option.some.injEq] at hxa hxb
        exact candidatePool_index_inj products selIdxs opts a b ca cb ha hb (hxa.trans hxb.symm)
  · rw [hinv.2.2, List.map_filterMap]
    rfl

end Scoring

/-! ## Lemmas: the argmax of each pick -/

section Scoring

variable {α : Type} [LinearOrderedField α]

/-- The head of the stable descending sort is the first element of largest
score. -/
theorem insertionSort_head (score : Nat → α) : ∀ (l : List Nat) (h : Nat),
    (l.insertionSort (fun a b => score b ≤ score a)).head? = some h →
    ∃ pre post : List Nat, l = pre ++ h :: post ∧ (∀ x ∈ pre, score x < score h) ∧
      (∀ x ∈ post, score x ≤ score h) := by
  intro l
  induction l with
  | nil => intro h hh; simp at hh
  | cons a l ih =>
    intro h hh
    rw [List.insertionSort] at hh
    cases hs : l.insertionSort (fun a b => score b ≤ score a) with
    | nil =>
      have hl : l = [] := by
        have hp := List.perm_insertionSort (fun a b => score b ≤ score a) l
        rw [hs] at hp
        exact List.Perm.nil_eq hp |>.symm ▸ rfl
      rw [hs] at hh
      have : a = h := by simpa [List.orderedInsert] using hh
      subst this
      exact ⟨[], [], by rw [hl]; rfl, by simp, by simp⟩
    | cons h2 t =>
      obtain ⟨pre, post, hl, hpre, hpost⟩ := ih h2 (by rw [hs]; rfl)
      rw [hs, List.orderedInsert] at hh
      by_cases hr : score h2 ≤ score a
      · rw [if_pos hr] at hh
        have : a = h := by simpa using hh
        subst this
        refine ⟨[], l, rfl, by simp, ?_⟩
        intro x hx
        rw [hl] at hx
        rcases List.mem_append.mp hx with h1 | h1
        · exact le_trans (le_of_lt (hpre x h1)) hr
        · rcases List.mem_cons.mp h1 with e | h3
          · rw [e]; exact hr
          · exact le_trans (hpost x h3) hr
      · rw [if_neg hr] at hh
        have : h2 = h := by simpa using hh
        subst this
        refine ⟨a :: pre, post, by rw [hl]; rfl, ?_, hpost⟩
        intro x hx
        rcases List.mem_cons.mp hx with e | h1
        · rw [e]; exact not_le.mp hr
        · exact hpre x h1

/-- In `0 .. N-1` the elements before `b` are the numbers below `b`. -/
theorem range_split (N b : Nat) (pre post : List Nat) (h : List.range N = pre ++ b :: post) :
    b < N ∧ ∀ i, i < b → i ∈ pre := by
  have hb : b ∈ List.range N := by rw [h]; simp
  have hbN : b < N := List.mem_range.mp hb
  refine ⟨hbN, ?_⟩
  intro i hi
  have hi2 : i ∈ List.range N := List.mem_range.mpr (lt_trans hi hbN)
  have hpw : List.Pairwise (· < ·) (pre ++ b :: post) := h ▸ List.pairwise_lt_range N
  rw [h] at hi2
  rcases List.mem_append.mp hi2 with h1 | h1
  · exact h1
  · rcases List.mem_cons.mp h1 with e | h2
    · omega
    · have := (List.pairwise_append.mp hpw).2.1
      have hlt : b < i := (List.pairwise_cons.mp this).1 i h2
      omega

/-- The first pick: the position of largest base score, the lowest such position
on ties. -/
theorem first_pick (sc : Scored α) (lambda : ℚ) (hN : 0 < sc.candidates.length) :
    ∃ b, bestIdxOf sc lambda 0 { out := [], picked := [], order := orderOf sc } = some b ∧
      b < sc.candidates.length ∧
      (∀ i, i < sc.candidates.length → sc.baseScore.getD i 0 ≤ sc.baseScore.getD b 0) ∧
      (∀ i, i < b → sc.baseScore.getD i 0 < sc.baseScore.getD b 0) := by
  have hne : orderOf sc ≠ [] := by
    intro h
    have hp := orderOf_perm sc
    rw [h] at hp
    have := hp.length_eq
    simp at this
    omega
  obtain ⟨b, rest, hbr⟩ := List.exists_cons_of_ne_nil hne
  have hhead : (orderOf sc).head? = some b := by rw [hbr]; rfl
  obtain ⟨pre, post, hl, hpre, hpost⟩ :=
    insertionSort_head (fun i => sc.baseScore.getD i 0) (List.range sc.candidates.length) b hhead
  obtain ⟨hbN, hlow⟩ := range_split _ b pre post hl
  refine ⟨b, by unfold bestIdxOf; simpa using hhead, hbN, ?_, fun i hi => hpre i (hlow i hi)⟩
  intro i hi
  have hi2 : i ∈ List.range sc.candidates.length := List.mem_range.mpr hi
  rw [hl] at hi2
  rcases List.mem_append.mp hi2 with h1 | h1
  · exact le_of_lt (hpre i h1)
  · rcases List.mem_cons.mp h1 with e | h2
    · rw [e]
    · exact hpost i h2

/-- The scan of `order` returns the start pair or the first position of largest
MMR, which then exceeds the start value. -/
theorem scanOrder_first (sc : Scored α) (lambda : ℚ) (picked : List Nat) (l : List Nat) :
    ∀ best : Option Nat × α,
      scanOrder sc lambda picked l best = best ∨
      ∃ (c : Nat) (pre post : List Nat), l = pre ++ c :: post ∧
        scanOrder sc lambda picked l best = (some c, mmrOf sc lambda picked c) ∧
        (∀ i ∈ pre, mmrOf sc lambda picked i < mmrOf sc lambda picked c) ∧
        (∀ i ∈ post, mmrOf sc lambda picked i ≤ mmrOf sc lambda picked c) ∧
        best.2 < mmrOf sc lambda picked c := by
  induction l with
  | nil => intro best; exact Or.inl rfl
  | cons a l ih =>
    intro best
    unfold scanOrder
    by_cases hgt : mmrOf sc lambda picked a > best.2
    · rw [if_pos hgt]
      right
      rcases ih (some a, mmrOf sc lambda picked a) with h | ⟨c, pre, post, hl, hres, hpre, hpost, hb⟩
      · refine ⟨a, [], l, rfl, h, by simp, ?_, hgt⟩
        intro i hi
        have := (scanOrder_spec sc lambda picked l (some a, mmrOf sc lambda picked a)).2.1 i hi
        rw [h] at this
        exact this
      · refine ⟨c, a :: pre, post, by rw [hl]; rfl, hres, ?_, hpost, lt_trans hgt hb⟩
        intro i hi
        rcases List.mem_cons.mp hi with e | h1
        · rw [e]; exact hb
        · exact hpre i h1
    · rw [if_neg hgt]
      rcases ih best with h | ⟨c, pre, post, hl, hres, hpre, hpost, hb⟩
      · exact Or.inl h
      · right
        refine ⟨c, a :: pre, post, by rw [hl]; rfl, hres, ?_, hpost, hb⟩
        intro i hi
        rcases List.mem_cons.mp hi with e | h1
        · rw [e]; exact lt_of_le_of_lt (not_lt.mp hgt) hb
        · exact hpre i h1

theorem foldl_max_attained (f : Nat → α) (l : List Nat) : ∀ m0 : α,
    l.foldl (fun m j => if f j > m then f j else m) m0 = m0 ∨
    ∃ j ∈ l, l.foldl (fun m j => if f j > m then f j else m) m0 = f j := by
  induction l with
  | nil => intro m0; exact Or.inl rfl
  | cons a l ih =>
    intro m0
    rw [List.foldl_cons]
    rcases ih (if f a > m0 then f a else m0) with h | ⟨j, hj, h⟩
    · by_cases hgt : f a > m0
      · rw [if_pos hgt] at h ⊢
        exact Or.inr ⟨a, List.mem_cons_self _ _, h⟩
      · rw [if_neg hgt] at h ⊢
        exact Or.inl h
    · exact Or.inr ⟨j, List.mem_cons_of_mem _ hj, h⟩

end Scoring

/-! ## Lemmas: the loop on two duplicates -/

section Scoring

variable {α : Type} [LinearOrderedField α]

/-- With `lambda = 0`, two candidates and cosine `1` between them, the loop makes
the first pick and then breaks: the MMR of the remaining candidate is `-1`,
which is not above the start value `-1` of `bestMMR`. -/
theorem mmrLoop_two_duplicates (host : Host α) (sc : Scored α) (opts : Opts) (b0 b1 : Nat)
    (c0 : Nat × Item) (horder : orderOf sc = [b0, b1]) (hc0 : sc.candidates[b0]? = some c0)
    (hne : b1 ≠ b0)
    (hcos : cosine (sc.candVecs.getD b0 []) (sc.candNorms.getD b0 0)
      (sc.candVecs.getD b1 []) (sc.candNorms.getD b1 0) = 1)
    (hlam : opts.lambda = 0) :
    (mmrLoop host sc opts 2 2 2 0 { out := [], picked := [], order := orderOf sc }).out.length
      = 1 := by
  have hmax : maxSimOf sc [b0] b1 = 1 := by
    unfold maxSimOf
    simp only [List.foldl_cons, List.foldl_nil, hcos]
    norm_num
  have hmmr : mmrOf sc opts.lambda [b0] b1 = -1 := by
    unfold mmrOf
    rw [hmax, hlam]
    simp
  have hscan : scanOrder sc opts.lambda [b0] [b1] (none, -1) = (none, -1) := by
    unfold scanOrder
    rw [hmmr]
    simp [scanOrder]
  have hstep0 : mmrStep host sc opts 0 { out := [], picked := [], order := [b0, b1] }
      = some { out := [withWhy host c0.2 sc.drivingSeeds opts.budget (fCatsOf opts.filters)
                (fBrandsOf opts.filters)],
               picked := [b0], order := [b1] } := by
    unfold mmrStep bestIdxOf
    simp [hc0, hne]
  have hstep1 : mmrStep host sc opts 1
      { out := [withWhy host c0.2 sc.drivingSeeds opts.budget (fCatsOf opts.filters)
          (fBrandsOf opts.filters)], picked := [b0], order := [b1] } = none := by
    unfold mmrStep bestIdxOf
    simp [hscan]
  rw [horder]
  unfold mmrLoop
  rw [if_pos (by norm_num), hstep0]
  simp only
  unfold mmrLoop
  rw [if_pos (by norm_num), hstep1]
  rfl

end Scoring

/-! ## Lemmas: the cosine lies between 0 and 1 and is symmetric -/

section Scoring

variable {α : Type} [LinearOrderedField α]

/-- The dot-product loop of `cosine` sums, over the entries of `small`, the
weight times the weight of the same token in `big` (zero when absent). -/
theorem dot_fold_eq_sum (small big : Vec α) : ∀ s : α,
    small.foldl (dotStep big) s
      = s + (small.map (fun tw => tw.2 * (mapGet big tw.1).getD 0)).sum := by
  induction small with
  | nil => intro s; simp
  | cons a small ih =>
    intro s
    rw [List.foldl_cons, ih, List.map_cons, List.sum_cons]
    unfold dotStep
    cases hg : mapGet big a.1 with
    | none => simp
    | some ww =>
      by_cases h0 : ww = 0
      · simp [h0]
      · simp only [h0, if_false, Option.getD_some]; ring

/-- The Cauchy-Schwarz inequality for two lists of numbers read off one list. -/
theorem sum_mul_sq_le (β : Type) (l : List β) (x y : β → α) :
    ((l.map (fun i => x i * y i)).sum) ^ 2
      ≤ (l.map (fun i => x i * x i)).sum * (l.map (fun i => y i * y i)).sum := by
  induction l with
  | nil => simp
  | cons i l ih =>
    simp only [List.map_cons, List.sum_cons]
    set S := (l.map (fun i => x i * y i)).sum
    set A := (l.map (fun i => x i * x i)).sum
    set B := (l.map (fun i => y i * y i)).sum
    have hA : 0 ≤ A := List.sum_nonneg (by
      intro z hz; obtain ⟨j, _, rfl⟩ := List.mem_map.mp hz; exact mul_self_nonneg _)
    have hB : 0 ≤ B := List.sum_nonneg (by
      intro z hz; obtain ⟨j, _, rfl⟩ := List.mem_map.mp hz; exact mul_self_nonneg _)
    have key : 2 * (x i * y i) * S ≤ x i * x i * B + y i * y i * A := by
      rcases eq_or_lt_of_le hB with hB0 | hBpos
      · have hS : S = 0 := by
          have : S ^ 2 ≤ 0 := by rw [← hB0, mul_zero] at ih; exact ih
          exact pow_eq_zero_iff (two_ne_zero) |>.mp (le_antisymm this (sq_nonneg S))
        rw [hS, ← hB0]
        have := mul_nonneg (mul_self_nonneg (y i)) hA
        linarith
      · have h1 : 0 ≤ B * (x i * x i * B + y i * y i * A - 2 * (x i * y i) * S) := by
          have e : B * (x i * x i * B + y i * y i * A - 2 * (x i * y i) * S)
              = (x i * B - y i * S) ^ 2 + y i * y i * (A * B - S ^ 2) := by ring
          rw [e]
          exact add_nonneg (sq_nonneg _)
            (mul_nonneg (mul_self_nonneg _) (by linarith))
        have h2 := (mul_nonneg_iff_of_pos_left hBpos).mp h1
        linarith
    nlinarith [key, ih]

/-- Over a list of distinct tokens the squared weights looked up in a vector sum
to at most the squared weights of the vector. -/
theorem lookup_sq_le (big : Vec α) : ∀ K : List Str, K.Nodup →
    (K.map (fun t => (mapGet big t).getD 0 * (mapGet big t).getD 0)).sum ≤ sumSq big := by
  induction big with
  | nil =>
    intro K _
    have : (K.map (fun t => (mapGet ([] : Vec α) t).getD 0 * (mapGet ([] : Vec α) t).getD 0))
        = K.map (fun _ => (0 : α)) := by
      apply List.map_congr_left
      intro t _
      simp [mapGet]
    rw [this]
    simp [sumSq]
  | cons kw big ih =>
    obtain ⟨k, w⟩ := kw
    intro K hK
    have hstep : ∀ K : List Str, K.Nodup →
        (K.map (fun t => (mapGet ((k, w) :: big) t).getD 0
          * (mapGet ((k, w) :: big) t).getD 0)).sum
        ≤ w * w + (K.map (fun t => (mapGet big t).getD 0 * (mapGet big t).getD 0)).sum := by
      intro K
      induction K with
      | nil => intro _; simp; exact mul_self_nonneg w
      | cons t K ihK =>
        intro hn
        rw [List.nodup_cons] at hn
        simp only [List.map_cons, List.sum_cons]
        by_cases hkt : k = t
        · subst hkt
          have hrest : (K.map (fun t => (mapGet ((k, w) :: big) t).getD 0
                * (mapGet ((k, w) :: big) t).getD 0))
              = K.map (fun t => (mapGet big t).getD 0 * (mapGet big t).getD 0) := by
            apply List.map_congr_left
            intro u hu
            have : ¬ k = u := fun e => hn.1 (e ▸ hu)
            simp [mapGet, this]
          rw [hrest]
          simp only [mapGet, if_true, Option.getD_some]
          have := mul_self_nonneg ((mapGet big k).getD 0)
          linarith
        · have := ihK hn.2
          have e : mapGet ((k, w) :: big) t = mapGet big t := by simp [mapGet, hkt]
          rw [e]
          linarith
    have h1 := hstep K hK
    have h2 := ih K hK
    have h3 : sumSq ((k, w) :: big) = w * w + sumSq big := by simp [sumSq]
    rw [h3]
    linarith

/-- The square of the dot product is at most the product of the sums of
squares. -/
theorem dot_sq_le (small big : Vec α) (hn : (small.map Prod.fst).Nodup) :
    (small.foldl (dotStep big) 0) ^ 2 ≤ sumSq small * sumSq big := by
  rw [dot_fold_eq_sum, zero_add]
  have h1 := sum_mul_sq_le (Str × α) small (fun tw => tw.2) (fun tw => (mapGet big tw.1).getD 0)
  have h2 : (small.map (fun tw => (mapGet big tw.1).getD 0 * (mapGet big tw.1).getD 0)).sum
      ≤ sumSq big := by
    have := lookup_sq_le big (small.map Prod.fst) hn
    rw [List.map_map] at this
    exact this
  have h3 : 0 ≤ (small.map (fun tw => tw.2 * tw.2)).sum := sumSq_nonneg small
  calc _ ≤ (small.map (fun tw => tw.2 * tw.2)).sum
        * (small.map (fun tw => (mapGet big tw.1).getD 0 * (mapGet big tw.1).getD 0)).sum := h1
    _ ≤ sumSq small * sumSq big := mul_le_mul_of_nonneg_left h2 h3

theorem dot_nonneg (small big : Vec α) (hs : ∀ tw ∈ small, 0 ≤ tw.2)
    (hb : ∀ tw ∈ big, 0 ≤ tw.2) : 0 ≤ small.foldl (dotStep big) 0 := by
  rw [dot_fold_eq_sum, zero_add]
  apply List.sum_nonneg
  intro z hz
  obtain ⟨tw, htw, rfl⟩ := List.mem_map.mp hz
  apply mul_nonneg (hs tw htw)
  cases hg : mapGet big tw.1 with
  | none => simp
  | some ww => exact hb (tw.1, ww) (mem_of_mapGet big tw.1 ww hg)

/-- The weight of a token in a vector with distinct keys, as a sum over the
entries. -/
theorem lookup_eq_sum (b : Vec α) (hn : (b.map Prod.fst).Nodup) (t : Str) :
    (mapGet b t).getD 0 = (b.map (fun ux => if ux.1 = t then ux.2 else 0)).sum := by
  induction b with
  | nil => simp [mapGet]
  | cons kw b ih =>
    obtain ⟨k, w⟩ := kw
    simp only [List.map_cons, List.nodup_cons] at hn
    simp only [List.map_cons, List.sum_cons, mapGet]
    by_cases hk : k = t
    · subst hk
      have hz : (b.map (fun ux => if ux.1 = k then ux.2 else 0)).sum = 0 := by
        rw [← ih hn.2]
        have : mapGet b k = none := (mapGet_eq_none_iff b k).mpr hn.1
        rw [this]; rfl
      simp [hz]
    · simp [hk, ih hn.2]

/-- The dot product over shared tokens does not depend on which of the two
vectors the loop runs over. -/
theorem dot_comm (a b : Vec α) (ha : (a.map Prod.fst).Nodup) (hb : (b.map Prod.fst).Nodup) :
    a.foldl (dotStep b) 0 = b.foldl (dotStep a) 0 := by
  rw [dot_fold_eq_sum, dot_fold_eq_sum, zero_add, zero_add]
  induction a with
  | nil =>
    have : (b.map (fun tw => tw.2 * (mapGet ([] : Vec α) tw.1).getD 0))
        = b.map (fun _ => (0 : α)) := by
      apply List.map_congr_left
      intro tw _
      simp [mapGet]
    rw [this]
    simp
  | cons kw a ih =>
    obtain ⟨k, w⟩ := kw
    simp only [List.map_cons, List.nodup_cons] at ha
    rw [List.map_cons, List.sum_cons, ih ha.2]
    have hk : mapGet a k = none := (mapGet_eq_none_iff a k).mpr ha.1
    have hpoint : ∀ ux ∈ b, ux.2 * (mapGet ((k, w) :: a) ux.1).getD 0
        = w * (if ux.1 = k then ux.2 else 0) + ux.2 * (mapGet a ux.1).getD 0 := by
      intro ux _
      by_cases hu : k = ux.1
      · have hu2 : ux.1 = k := hu.symm
        rw [hu2]
        simp [mapGet, hk]
        ring
      · have hu2 : ¬ ux.1 = k := fun e => hu e.symm
        simp [mapGet, hu, hu2]
    rw [List.map_congr_left hpoint]
    have hsplit : ∀ l : List (Str × α),
        (l.map (fun ux => w * (if ux.1 = k then ux.2 else 0) + ux.2 * (mapGet a ux.1).getD 0)).sum
          = w * (l.map (fun ux => if ux.1 = k then ux.2 else 0)).sum
            + (l.map (fun ux => ux.2 * (mapGet a ux.1).getD 0)).sum := by
      intro l
      induction l with
      | nil => simp
      | cons x l ihl => simp only [List.map_cons, List.sum_cons, ihl]; ring
    rw [hsplit, ← lookup_eq_sum b hb k]

/-- The cosine does not depend on the order of its two vectors. -/
theorem cosine_comm (a : Vec α) (aN : α) (b : Vec α) (bN : α)
    (ha : (a.map Prod.fst).Nodup) (hb : (b.map Prod.fst).Nodup) :
    cosine a aN b bN = cosine b bN a aN := by
  unfold cosine
  by_cases h0 : aN = 0 ∨ bN = 0
  · rw [if_pos h0, if_pos (Or.symm h0)]
  · rw [if_neg h0, if_neg (fun h => h0 (Or.symm h))]
    simp only
    rw [mul_comm bN aN]
    congr 1
    rcases lt_trichotomy a.length b.length with h | h | h
    · have h2 : ¬ b.length < a.length := by omega
      simp only [h, h2, if_true, if_false]
    · have h1 : ¬ a.length < b.length := by omega
      have h2 : ¬ b.length < a.length := by omega
      simp only [h1, h2, if_false]
      exact dot_comm b a hb ha
    · have h1 : ¬ a.length < b.length := by omega
      simp only [h, h1, if_true, if_false]

theorem centroidOf_spec (idf : Vec α) (hidf : ∀ u w, mapGet idf u = some w → 0 < w)
    (seeds : List Item) :
    ((centroidOf idf seeds).map Prod.fst).Nodup ∧ ∀ tw ∈ centroidOf idf seeds, 0 < tw.2 := by
  unfold centroidOf
  have gen : ∀ (l : List Item) (v : Vec α), (v.map Prod.fst).Nodup → (∀ tw ∈ v, 0 < tw.2) →
      ((l.foldl (fun v p => addTokens idf v (tokensOf p)) v).map Prod.fst).Nodup ∧
      ∀ tw ∈ l.foldl (fun v p => addTokens idf v (tokensOf p)) v, 0 < tw.2 := by
    intro l
    induction l with
    | nil => intro v h1 h2; exact ⟨h1, h2⟩
    | cons s rest ih =>
      intro v h1 h2
      rw [List.foldl_cons]
      exact ih _ (addTokens_keys_nodup idf _ v h1) (addTokens_pos idf hidf _ v h2)
  exact gen seeds [] List.nodup_nil (by intro tw h; simp at h)

end Scoring

/-- With the real square root, the cosine of two vectors with distinct keys and
non-negative weights, taken with their L2 norms (a zero norm of the first
replaced by `1e-8`), lies between `0` and `1`. -/
theorem cosine_bounds (host : Host ℝ) (hsqrt : host.sqrt = Real.sqrt) (a b : Vec ℝ)
    (ha : (a.map Prod.fst).Nodup) (hb : (b.map Prod.fst).Nodup)
    (hap : ∀ tw ∈ a, 0 ≤ tw.2) (hbp : ∀ tw ∈ b, 0 ≤ tw.2) :
    0 ≤ cosine a (centroidNormOf host a) b (l2 host b) ∧
    cosine a (centroidNormOf host a) b (l2 host b) ≤ 1 := by
  have hA := sumSq_nonneg a
  have hB := sumSq_nonneg b
  have hla : l2 host a = Real.sqrt (sumSq a) := by rw [l2_eq, hsqrt]
  have hlb : l2 host b = Real.sqrt (sumSq b) := by rw [l2_eq, hsqrt]
  have haN : 0 < centroidNormOf host a := by
    unfold centroidNormOf
    split
    · norm_num
    · next h => rw [hla] at h ⊢; exact lt_of_le_of_ne (Real.sqrt_nonneg _) (Ne.symm h)
  unfold cosine
  by_cases h0 : centroidNormOf host a = 0 ∨ l2 host b = 0
  · rw [if_pos h0]; exact ⟨le_refl _, zero_le_one⟩
  rw [if_neg h0]
  simp only
  have hbN : 0 < l2 host b := by
    rw [hlb]
    exact lt_of_le_of_ne (Real.sqrt_nonneg _) (fun e => h0 (Or.inr (by rw [hlb]; exact e.symm)))
  -- the dot product, whichever vector the loop runs over
  have hdot : ∀ d : ℝ, (d = a.foldl (dotStep b) 0 ∨ d = b.foldl (dotStep a) 0) →
      0 ≤ d ∧ d ≤ centroidNormOf host a * l2 host b := by
    intro d hd
    have hd0 : 0 ≤ d := by
      rcases hd with e | e
      · rw [e]; exact dot_nonneg a b hap hbp
      · rw [e]; exact dot_nonneg b a hbp hap
    have hsq : d ^ 2 ≤ sumSq a * sumSq b := by
      rcases hd with e | e
      · rw [e]; exact dot_sq_le a b ha
      · rw [e, mul_comm]; exact dot_sq_le b a hb
    have hle : d ≤ Real.sqrt (sumSq a) * Real.sqrt (sumSq b) := by
      rw [← Real.sqrt_mul hA]
      exact Real.le_sqrt_of_sq_le hsq
    refine ⟨hd0, ?_⟩
    unfold centroidNormOf
    split
    · next hz =>
      rw [hla] at hz
      rw [hz, zero_mul] at hle
      have : d = 0 := le_antisymm hle hd0
      rw [this]
      exact mul_nonneg (by norm_num) hbN.le
    · rw [hla, hlb]; exact hle
  have hden : 0 < centroidNormOf host a * l2 host b := mul_pos haN hbN
  by_cases hl : a.length < b.length
  · simp only [hl, if_true]
    obtain ⟨h1, h2⟩ := hdot _ (Or.inl rfl)
    exact ⟨div_nonneg h1 hden.le, (div_le_one hden).mpr h2⟩
  · simp only [hl, if_false]
    obtain ⟨h1, h2⟩ := hdot _ (Or.inr rfl)
    exact ⟨div_nonneg h1 hden.le, (div_le_one hden).mpr h2⟩

section Relevance

variable {α : Type} [LinearOrderedField α]

/-- For a vector with distinct keys the sum the loop computes is the dot product
over the shared tokens. -/
theorem dot_sum_eq_shared (a b : Vec α) (ha : (a.map Prod.fst).Nodup) :
    a.foldl (dotStep b) 0 = sharedDot a b := by
  rw [dot_fold_eq_sum, zero_add]
  unfold sharedDot sharedTokens
  have gen : ∀ l : List (Str × α), (∀ tw ∈ l, mapGet a tw.1 = some tw.2) →
      (l.map (fun tw => tw.2 * (mapGet b tw.1).getD 0)).sum
        = (((l.map Prod.fst).filter (fun t => (mapGet b t).isSome)).map
            (fun t => (mapGet a t).getD 0 * (mapGet b t).getD 0)).sum := by
    intro l
    induction l with
    | nil => intro _; rfl
    | cons x l ih =>
      intro h
      have hx := h x (List.mem_cons_self _ _)
      have hl := ih (fun tw htw => h tw (List.mem_cons_of_mem _ htw))
      rw [List.map_cons, List.sum_cons, List.map_cons, hl]
      cases hb : mapGet b x.1 with
      | none =>
        rw [List.filter_cons_of_neg (by simp [hb])]
        simp
      | some w =>
        rw [List.filter_cons_of_pos (by simp [hb]), List.map_cons, List.sum_cons, hx, hb]
        rfl
  exact gen a (fun tw htw => mapGet_of_mem a ha tw.1 tw.2 htw)

/-- The relevance array: one cosine per pool entry, between the seed centroid
and the entry's vector, with the entry's L2 norm. -/
theorem rel_eq (host : Host α) (products : List (Option Item)) (selIdxs : List ℤ)
    (opts : Opts) :
    (scoreOf host products selIdxs opts).rel
      = (candidatePool products selIdxs opts).map (fun c =>
          cosine
            (centroidOf (poolIdf host (candidatePool products selIdxs opts))
              (drivingSeedsOf products selIdxs opts.filters))
            (centroidNormOf host
              (centroidOf (poolIdf host (candidatePool products selIdxs opts))
                (drivingSeedsOf products selIdxs opts.filters)))
            (addTokens (poolIdf host (candidatePool products selIdxs opts)) [] (tokensOf c.2))
            (l2 host
              (addTokens (poolIdf host (candidatePool products selIdxs opts)) []
                (tokensOf c.2)))) := by
  unfold scoreOf
  simp only [List.map_map, List.zip_map', List.map_map]
  rfl

end Relevance

/-! ## Lemmas: the base score with the typed-array stores -/

section Stored

variable {α : Type} [LinearOrderedField α]

/-- With a store that keeps the number as it is, the arrays are those of
`scoreOf`. -/
theorem storedScoreOf_id (host : Host α) (products : List (Option Item)) (selIdxs : List ℤ)
    (opts : Opts) :
    storedScoreOf id host products selIdxs opts = scoreOf host products selIdxs opts := rfl

theorem storedBase_withoutBoost (store : α → α) (host : Host α)
    (products : List (Option Item)) (selIdxs : List ℤ) (opts : Opts) :
    (storedScoreOf store host products selIdxs (withoutBoost opts)).baseScore
      = (candidatePool products selIdxs opts).map (fun c =>
          store (7 / 10 * (store (cosine
              (centroidOf (poolIdf host (candidatePool products selIdxs opts))
                (drivingSeedsOf products selIdxs opts.filters))
              (centroidNormOf host
                (centroidOf (poolIdf host (candidatePool products selIdxs opts))
                  (drivingSeedsOf products selIdxs opts.filters)))
              (addTokens (poolIdf host (candidatePool products selIdxs opts)) []
                (tokensOf c.2))
              (store (l2 host
                (addTokens (poolIdf host (candidatePool products selIdxs opts)) []
                  (tokensOf c.2))))))
            + 3 / 10 * store (priceAffOf host
                (medianSeedPriceOf (seedsOf products selIdxs)) (toNum c.2.price)))) := by
  have h0 : ¬ (brandBoostOf (withoutBoost opts).filters > 0) := by
    simp [brandBoostOf, withoutBoost]
  unfold storedScoreOf
  simp only [h0, false_and, if_false]
  simp only [candidatePool_withoutBoost, List.map_map, List.zip_map', List.map_map]
  rfl

theorem storedBase_withoutBoost_length (store : α → α) (host : Host α)
    (products : List (Option Item)) (selIdxs : List ℤ) (opts : Opts) :
    (storedScoreOf store host products selIdxs (withoutBoost opts)).baseScore.length
      = (candidatePool products selIdxs opts).length := by
  rw [storedBase_withoutBoost, List.length_map]

/-- Every score of the unboosted run is a stored number. -/
theorem storedBase_range (store : α → α) (host : Host α)
    (products : List (Option Item)) (selIdxs : List ℤ) (opts : Opts) (s : α)
    (hs : s ∈ (storedScoreOf store host products selIdxs (withoutBoost opts)).baseScore) :
    ∃ y, s = store y := by
  rw [storedBase_withoutBoost] at hs
  obtain ⟨c, _, rfl⟩ := List.mem_map.mp hs
  exact ⟨_, rfl⟩

theorem storedBase_boost (store : α → α) (host : Host α) (products : List (Option Item))
    (selIdxs : List ℤ) (opts : Opts) (hb : 0 < brandBoostOf opts.filters)
    (hne : fBrandsOf opts.filters ≠ []) :
    (storedScoreOf store host products selIdxs opts).baseScore =
      ((candidatePool products selIdxs opts).zip
        (storedScoreOf store host products selIdxs (withoutBoost opts)).baseScore).map
        (fun cb =>
          if normalizeString cb.1.2.brand ∈ fBrandsOf opts.filters
          then store (cb.2 + 15 / 100 * (brandBoostOf opts.filters : α)) else cb.2) := by
  have h0 : ¬ (brandBoostOf (withoutBoost opts).filters > 0) := by
    simp [brandBoostOf, withoutBoost]
  have h1 : brandBoostOf opts.filters > 0 ∧ (!(fBrandsOf opts.filters).isEmpty) = true := by
    refine ⟨hb, ?_⟩
    cases hh : fBrandsOf opts.filters with
    | nil => exact absurd hh hne
    | cons a l => rfl
  unfold storedScoreOf
  simp only [h0, false_and, if_false, h1, and_self, if_true]
  rfl

end Stored

/-- A number read back from a `Float32Array` is an integer over a power of two. -/
theorem fround_dyadic (x : ℚ) : ∃ (n : ℤ) (k : ℕ), fround x * 2 ^ k = n := by
  unfold fround
  by_cases hx : x = 0
  · exact ⟨0, 0, by simp [hx]⟩
  simp only [hx, if_false]
  generalize roundHalfEven (|x| / 2 ^ (max (Int.log 2 |x|) (-126) - 23)) = z
  generalize max (Int.log 2 |x|) (-126) - 23 = m
  have hs : ∃ s : ℤ, (if x < 0 then (-1 : ℚ) else 1) = s := by
    by_cases h : x < 0
    · exact ⟨-1, by simp [h]⟩
    · exact ⟨1, by simp [h]⟩
  obtain ⟨s, hs⟩ := hs
  rw [hs]
  rcases le_or_lt 0 m with hm | hm
  · refine ⟨s * z * 2 ^ m.toNat, 0, ?_⟩
    have e : ((2 : ℚ) ^ m) = 2 ^ m.toNat := by
      conv_lhs => rw [← Int.toNat_of_nonneg hm]
      exact zpow_natCast 2 _
    rw [e]
    push_cast
    ring
  · refine ⟨s * z, (-m).toNat, ?_⟩
    have e : ((2 : ℚ) ^ m) * 2 ^ (-m).toNat = 1 := by
      have h1 : ((2 : ℚ) ^ (-m).toNat) = 2 ^ (-m) := by
        conv_rhs => rw [← Int.toNat_of_nonneg (by omega : 0 ≤ -m)]
        exact (zpow_natCast 2 _).symm
      rw [h1, ← zpow_add₀ (two_ne_zero)]
      simp
    push_cast
    calc (s : ℚ) * z * 2 ^ m * 2 ^ (-m).toNat = s * z * (2 ^ m * 2 ^ (-m).toNat) := by ring
      _ = s * z := by rw [e, mul_one]

/-- The number `0.15` is not an integer over a power of two. -/
theorem not_dyadic_fifteen (n : ℤ) (k : ℕ) : (15 / 100 : ℚ) * 2 ^ k ≠ n := by
  intro h
  have h1 : (3 : ℚ) * 2 ^ k = 20 * n := by linarith
  have h2 : (3 : ℤ) * 2 ^ k = 20 * n := by exact_mod_cast h1
  have h3 : (5 : ℤ) ∣ 3 * 2 ^ k := ⟨4 * n, by rw [h2]; ring⟩
  have hp : Prime (5 : ℤ) := Int.prime_iff_natAbs_prime.mpr (by norm_num)
  rcases hp.dvd_or_dvd h3 with h4 | h4
  · norm_num at h4
  · have := hp.dvd_of_dvd_pow h4
    norm_num at this

/-- Two numbers read back from a `Float32Array` never differ by `0.15`. -/
theorem fround_sub_ne (x y : ℚ) : fround x ≠ fround y + 15 / 100 := by
  intro h
  obtain ⟨n1, k1, h1⟩ := fround_dyadic x
  obtain ⟨n2, k2, h2⟩ := fround_dyadic y
  apply not_dyadic_fifteen (n1 * 2 ^ k2 - n2 * 2 ^ k1) (k1 + k2)
  push_cast
  rw [← h1, ← h2, h]
  ring

/-! ## Theorems about the response -/

/-- C1: with a budget `> 0`, every item of the response of `recommend` has a
parsed price `toNum(price)` that is at most the budget, whether the pool came
from the prefilter pass or from the fallback pass (both apply the budget gate);
and Scenario 3 (seed item 0, budget 10, all prices at least 50) returns the
empty list. -/
theorem budget_gate :
    (∀ (α : Type) [LinearOrderedField α] (host : Host α) (products : List (Option Item))
      (selIdxs : List ℤ) (opts : Opts), 0 < opts.budget →
      ∀ r ∈ recommend host products selIdxs opts, toNum r.price ≤ opts.budget) ∧
    (∀ (α : Type) [LinearOrderedField α] (host : Host α),
      onmessage host scenario3Request = []) := by
  constructor
  · intro α _ host products selIdxs opts hb r hr
    obtain ⟨c, hc, rfl⟩ := recommend_mem host products selIdxs opts r hr
    have h := (candidatePool_mem hc).1
    unfold relaxedAdmit at h
    simp only [Bool.and_eq_true] at h
    exact priceGate_budget h.2 hb
  · intro α _ host
    have hc : candidatePool scenario3Request.products scenario3Request.selIndices
        (optsOfRequest scenario3Request) = [] := by decide
    unfold onmessage recommend
    simp [hc]

/-- A run with budget 60 on the scenario catalog: the response is non-empty and
its items cost at most 60. -/
theorem budget_gate_witness :
    (0 : ℚ) < 60 ∧
    recommend ratHost scenarioProducts [0] { lambda := mkRat 1 2, topk := 2, budget := 60 }
      ≠ [] ∧
    ∀ r ∈ recommend ratHost scenarioProducts [0]
        { lambda := mkRat 1 2, topk := 2, budget := 60 }, toNum r.price ≤ 60 := by
  refine ⟨by norm_num, ?_, budget_gate.1 ℚ ratHost scenarioProducts [0]
    { lambda := mkRat 1 2, topk := 2, budget := 60 } (by norm_num)⟩
  rw [recommend_singleton ratHost scenarioProducts [0] _ (1, blueShoes) rfl (by decide)
    (by decide)]
  simp

/-- C2, as the code has it: the response of `recommend` has at most
`min(K, N)` items and at most 50, where `K` is `topk` clamped to `[1, 50]` and `N`
the size of the candidate pool; so it has at most `min(topk, N)` items whenever
`topk ≥ 1`. -/
theorem response_length_bound (α : Type) [LinearOrderedField α] (host : Host α)
    (products : List (Option Item)) (selIdxs : List ℤ) (opts : Opts) :
    (recommend host products selIdxs opts).length
        ≤ min (clamp opts.topk 1 50).toNat (candidatePool products selIdxs opts).length ∧
    (recommend host products selIdxs opts).length ≤ 50 ∧
    (1 ≤ opts.topk →
      ((recommend host products selIdxs opts).length : ℤ)
        ≤ min opts.topk ((candidatePool products selIdxs opts).length : ℤ)) := by
  have h := recommend_length host products selIdxs opts
  have hb := clamp_topk_bounds opts.topk
  have h1 := le_trans h (min_le_left _ _)
  have h2 := le_trans h (min_le_right _ _)
  refine ⟨h, by omega, ?_⟩
  intro ht
  have h3 := clamp_topk_le opts.topk ht
  exact le_min (by omega) (by exact_mod_cast h2)

/-- The bound of `response_length_bound` on Scenario 1, where `topk = 2`. -/
theorem response_length_bound_witness :
    ((recommend ratHost scenarioProducts [0]
        { lambda := mkRat 1 2, topk := 2, budget := 0 }).length : ℤ)
      ≤ min 2 ((candidatePool scenarioProducts [0]
        { lambda := mkRat 1 2, topk := 2, budget := 0 }).length : ℤ) :=
  (response_length_bound ℚ ratHost scenarioProducts [0]
    { lambda := mkRat 1 2, topk := 2, budget := 0 }).2.2 (by decide)

/-- C2 as stated fails for a requested count below 1: with `topk = 0` the
response has one item, more than `min(topk, N) = 0`; through `onmessage` a
request with `topk = 0` is served as `topk = 10`. -/
theorem response_length_topk_zero :
    ¬ (((recommend ratHost scenarioProducts [0]
          { lambda := mkRat 1 2, topk := 0, budget := 0 }).length : ℤ)
        ≤ min (0 : ℤ) ((candidatePool scenarioProducts [0]
          { lambda := mkRat 1 2, topk := 0, budget := 0 }).length : ℤ)) ∧
    (onmessage ratHost
      { products := scenarioProducts, selIndices := [0], topk := some 0 }).length = 1 := by
  constructor
  · rw [recommend_singleton ratHost scenarioProducts [0] _ (1, blueShoes) rfl (by decide)
      (by decide)]
    simp
  · unfold onmessage
    rw [recommend_singleton ratHost scenarioProducts [0] _ (1, blueShoes) rfl (by decide)
      (by decide)]
    simp

/-- C3: when no index of `selIdxs` references an existing item (every index is
negative or at least `products.length`) and the category and brand filter sets
are both empty, `recommend` returns the empty list, whatever the other options
are. -/
theorem no_driver_empty (α : Type) [LinearOrderedField α] (host : Host α)
    (products : List (Option Item)) (selIdxs : List ℤ) (opts : Opts)
    (hsel : ∀ i ∈ selIdxs, i < 0 ∨ (products.length : ℤ) ≤ i)
    (hcat : fCatsOf opts.filters = []) (hbrand : fBrandsOf opts.filters = []) :
    recommend host products selIdxs opts = [] := by
  have hs : seedsOf products selIdxs = [] := by
    unfold seedsOf
    rw [List.filterMap_eq_nil_iff]
    intro i hi
    unfold productAt
    rcases hsel i hi with h | h
    · simp [h]
    · have h0 : ¬ i < 0 := by omega
      have h1 : products.length ≤ i.toNat := by omega
      simp [h0, List.getElem?_eq_none h1]
  unfold recommend
  simp [hs, hcat, hbrand]

/-- The scenario catalog with the out-of-range indices `-1` and `7` and no
filters: the response is empty. -/
theorem no_driver_empty_witness :
    recommend ratHost scenarioProducts [-1, 7] { lambda := mkRat 4 5, topk := 10, budget := 0 }
      = [] :=
  no_driver_empty ℚ ratHost scenarioProducts [-1, 7]
    { lambda := mkRat 4 5, topk := 10, budget := 0 } (by decide) (by decide) (by decide)

/-- C4: no seed is recommended: every item of the response is `products[i]`,
with its `reason` written, for an index `i` that does not occur in `selIdxs`;
this holds for both passes. -/
theorem no_seed_recommended (α : Type) [LinearOrderedField α] (host : Host α)
    (products : List (Option Item)) (selIdxs : List ℤ) (opts : Opts) (r : Item)
    (hr : r ∈ recommend host products selIdxs opts) :
    ∃ (i : Nat) (p : Item), (i : ℤ) ∉ selIdxs ∧ products[i]? = some (some p) ∧
      r = { p with reason := r.reason } := by
  obtain ⟨c, hc, rfl⟩ := recommend_mem host products selIdxs opts r hr
  have h := candidatePool_mem hc
  refine ⟨c.1, c.2, ?_, h.2, withWhy_eq _ _ _ _ _ _⟩
  have h1 := h.1
  unfold relaxedAdmit at h1
  simp only [Bool.and_eq_true] at h1
  simpa using h1.1.1

/-- Scenario 1: the single item returned sits at an index other than the seed
index 0. -/
theorem no_seed_recommended_witness :
    ∃ (i : Nat) (p : Item), (i : ℤ) ∉ [(0 : ℤ)] ∧ scenarioProducts[i]? = some (some p) ∧
      withWhy ratHost blueShoes
          (drivingSeedsOf scenarioProducts [0] ({} : Filters)) 0 [] []
        = { p with reason := (withWhy ratHost blueShoes
          (drivingSeedsOf scenarioProducts [0] ({} : Filters)) 0 [] []).reason } :=
  no_seed_recommended ℚ ratHost scenarioProducts [0]
    { lambda := mkRat 1 2, topk := 2, budget := 0 } _ (by
      rw [recommend_singleton ratHost scenarioProducts [0] _ (1, blueShoes) rfl (by decide)
        (by decide)]
      exact List.mem_singleton.mpr rfl)

/-- C5: when the category filter set is non-empty and the prefilter pass admits
at least one candidate, every returned item's normalized first segment of
`product_category_tree` is in the normalized category filter set and its reason
contains the text `matches chosen category`; and Scenario 2 (no seeds,
`categories = ["Furniture"]`, `topk = 1`) returns exactly the Office Chair, with
such a reason. -/
theorem category_filter_respected :
    (∀ (α : Type) [LinearOrderedField α] (host : Host α) (products : List (Option Item))
      (selIdxs : List ℤ) (opts : Opts), fCatsOf opts.filters ≠ [] →
      strictPass products selIdxs opts ≠ [] →
      ∀ r ∈ recommend host products selIdxs opts,
        normalizeString (firstSegment r.product_category_tree) ∈ fCatsOf opts.filters ∧
        "matches chosen category".toList <:+: r.reason) ∧
    (∀ (α : Type) [LinearOrderedField α] (host : Host α),
      ∃ r : Item, onmessage host scenario2Request = [r] ∧
        r = { officeChair with reason := r.reason } ∧
        "matches chosen category".toList <:+: r.reason) := by
  have key : ∀ (α : Type) [LinearOrderedField α] (host : Host α)
      (products : List (Option Item)) (selIdxs : List ℤ) (opts : Opts),
      fCatsOf opts.filters ≠ [] → strictPass products selIdxs opts ≠ [] →
      ∀ r ∈ recommend host products selIdxs opts,
        normalizeString (firstSegment r.product_category_tree) ∈ fCatsOf opts.filters ∧
        "matches chosen category".toList <:+: r.reason := by
    intro α _ host products selIdxs opts hcat hs r hr
    obtain ⟨c, hc, rfl⟩ := recommend_mem host products selIdxs opts r hr
    have h := candidatePool_mem_strict hs hc
    unfold strictAdmit at h
    simp only [Bool.and_eq_true] at h
    have hne : (fCatsOf opts.filters).isEmpty = false := by
      cases hh : fCatsOf opts.filters with
      | nil => exact absurd hh hcat
      | cons a l => rfl
    have hmem : normalizeString (firstSegment c.2.product_category_tree)
        ∈ fCatsOf opts.filters := by
      have := h.1.1.1.2
      simpa [hne] using this
    exact ⟨hmem, withWhy_reason_matches host c.2 _ _ _ _ hne hmem⟩
  refine ⟨key, ?_⟩
  intro α _ host
  have hrec : onmessage host scenario2Request =
      [withWhy host officeChair
        (drivingSeedsOf scenarioProducts [] (optsOfRequest scenario2Request).filters)
        (optsOfRequest scenario2Request).budget
        (fCatsOf (optsOfRequest scenario2Request).filters)
        (fBrandsOf (optsOfRequest scenario2Request).filters)] :=
    recommend_singleton host scenarioProducts [] (optsOfRequest scenario2Request)
      (2, officeChair) rfl (by decide) (by decide)
  refine ⟨_, hrec, withWhy_eq _ _ _ _ _ _, ?_⟩
  exact (key α host scenarioProducts [] (optsOfRequest scenario2Request) (by decide)
    (by decide) _ (by
      have := hrec
      unfold onmessage at this
      rw [show scenario2Request.products = scenarioProducts from rfl,
        show scenario2Request.selIndices = [] from rfl] at this
      rw [this]
      exact List.mem_singleton.mpr rfl)).2

/-- Scenario 2 on the rational host: the prefilter pass admits the Office Chair,
and the item returned matches the category filter. -/
theorem category_filter_respected_witness :
    fCatsOf (optsOfRequest scenario2Request).filters ≠ [] ∧
    strictPass scenarioProducts [] (optsOfRequest scenario2Request) ≠ [] ∧
    recommend ratHost scenarioProducts [] (optsOfRequest scenario2Request) ≠ [] ∧
    ∀ r ∈ recommend ratHost scenarioProducts [] (optsOfRequest scenario2Request),
      normalizeString (firstSegment r.product_category_tree)
          ∈ fCatsOf (optsOfRequest scenario2Request).filters ∧
        "matches chosen category".toList <:+: r.reason := by
  refine ⟨by decide, by decide, ?_,
    category_filter_respected.1 ℚ ratHost scenarioProducts []
      (optsOfRequest scenario2Request) (by decide) (by decide)⟩
  rw [recommend_singleton ratHost scenarioProducts [] _ (2, officeChair) rfl (by decide)
    (by decide)]
  simp

/-- C6, as the code has it: every returned item satisfies the active price band
on its parsed price `p = toNum(price)`, the band being `minP = toNum(minPrice || 0)`
and `maxP = toNum(maxPrice || 0)` as `recommend` parses them from the filters: if
`maxP > 0` then `p ≤ maxP`, and if `minP > 0` then `p = 0` or `p ≥ minP`; this
holds for both passes. -/
theorem price_band_respected (α : Type) [LinearOrderedField α] (host : Host α)
    (products : List (Option Item)) (selIdxs : List ℤ) (opts : Opts) (r : Item)
    (hr : r ∈ recommend host products selIdxs opts) :
    (0 < maxPOf opts.filters → toNum r.price ≤ maxPOf opts.filters) ∧
    (0 < minPOf opts.filters → toNum r.price = 0 ∨ minPOf opts.filters ≤ toNum r.price) := by
  obtain ⟨c, hc, rfl⟩ := recommend_mem host products selIdxs opts r hr
  have h := (candidatePool_mem hc).1
  unfold relaxedAdmit at h
  simp only [Bool.and_eq_true] at h
  constructor
  · intro hm
    exact priceGate_max h.2 hm
  · intro hm
    rcases priceGate_min h.2 hm with h1 | h1
    · exact Or.inl (le_antisymm h1 (toNum_nonneg _))
    · exact Or.inr h1

/-- The scenario catalog with the band `[51, 60]`: the item returned costs 52. -/
theorem price_band_respected_witness :
    (0 : ℚ) < maxPOf { minPrice := .number 51, maxPrice := .number 60 } ∧
    (0 : ℚ) < minPOf { minPrice := .number 51, maxPrice := .number 60 } ∧
    toNum blueShoes.price ≤ maxPOf { minPrice := .number 51, maxPrice := .number 60 } ∧
    (toNum blueShoes.price = 0 ∨
      minPOf { minPrice := .number 51, maxPrice := .number 60 } ≤ toNum blueShoes.price) := by
  have h := price_band_respected ℚ ratHost scenarioProducts [0]
    { lambda := mkRat 1 2, topk := 2, budget := 0,
      filters := { minPrice := .number 51, maxPrice := .number 60 } }
    (withWhy ratHost blueShoes (drivingSeedsOf scenarioProducts [0]
      ({ minPrice := .number 51, maxPrice := .number 60 } : Filters)) 0 [] []) (by
      rw [recommend_singleton ratHost scenarioProducts [0] _ (1, blueShoes) rfl (by decide)
        (by decide)]
      exact List.mem_singleton.mpr rfl)
  exact ⟨by decide, by decide, h.1 (by decide), h.2 (by decide)⟩

/-- C6 as stated fails, the band being read from the filter values themselves.
With `maxPrice = 1e-7` the code parses `maxP = toNum("1e-7") = 17`, and the item
priced 5 is returned although `5 > 1e-7`.  With `minPrice = 1e21` the code
parses `minP = toNum("1e+21") = 121`, and the item priced 200 is returned
although its price is neither `0` nor at least `1e21`. -/
theorem price_band_raw_violated :
    (∃ r : Item, recommend ratHost bandProducts [0] tinyMaxOpts = [r] ∧
      r.product_name = "Red Boots".toList ∧ toNum r.price = 5 ∧
      tinyMaxOpts.filters.maxPrice = .number (mkRat 1 10000000) ∧
      jsString tinyMaxOpts.filters.maxPrice = "1e-7".toList ∧
      maxPOf tinyMaxOpts.filters = 17 ∧
      (0 : ℚ) < mkRat 1 10000000 ∧ ¬ (toNum r.price ≤ mkRat 1 10000000)) ∧
    (∃ r : Item, recommend ratHost bandProducts [0] hugeMinOpts = [r] ∧
      r.product_name = "Red Coat".toList ∧ toNum r.price = 200 ∧
      hugeMinOpts.filters.minPrice = .number 1000000000000000000000 ∧
      jsString hugeMinOpts.filters.minPrice = "1e+21".toList ∧
      minPOf hugeMinOpts.filters = 121 ∧
      (0 : ℚ) < 1000000000000000000000 ∧
      ¬ (toNum r.price = 0 ∨ (1000000000000000000000 : ℚ) ≤ toNum r.price)) := by
  constructor
  · refine ⟨_, recommend_singleton ratHost bandProducts [0] tinyMaxOpts
      (1, { product_name := "Red Boots".toList, price := .number 5 })
      rfl (by decide) (by decide), rfl, by decide, rfl, by decide, by decide, by decide, ?_⟩
    have h : toNum (withWhy ratHost
        ({ product_name := "Red Boots".toList, price := .number 5 } : Item)
        (drivingSeedsOf bandProducts [0] tinyMaxOpts.filters) tinyMaxOpts.budget
        (fCatsOf tinyMaxOpts.filters) (fBrandsOf tinyMaxOpts.filters)).price = 5 := by decide
    rw [h]
    decide
  · refine ⟨_, recommend_singleton ratHost bandProducts [0] hugeMinOpts
      (2, { product_name := "Red Coat".toList, price := .number 200 })
      rfl (by decide) (by decide), rfl, by decide, rfl, by decide, by decide, by decide, ?_⟩
    have h : toNum (withWhy ratHost
        ({ product_name := "Red Coat".toList, price := .number 200 } : Item)
        (drivingSeedsOf bandProducts [0] hugeMinOpts.filters) hugeMinOpts.budget
        (fCatsOf hugeMinOpts.filters) (fBrandsOf hugeMinOpts.filters)).price = 200 := by decide
    rw [h]
    decide

/-- C7, as the code has it: for the Scenario 1 request the response is exactly
one item, Blue Running Shoes (item 1), with a non-empty reason; the Office Chair
shares no token with the seed and is not returned. -/
theorem scenario1_response (α : Type) [LinearOrderedField α] (host : Host α) :
    ∃ r : Item, onmessage host scenario1Request = [r] ∧
      r = { blueShoes with reason := r.reason } ∧ r.reason ≠ [] := by
  have hrec : onmessage host scenario1Request =
      [withWhy host blueShoes
        (drivingSeedsOf scenarioProducts [0] (optsOfRequest scenario1Request).filters)
        (optsOfRequest scenario1Request).budget
        (fCatsOf (optsOfRequest scenario1Request).filters)
        (fBrandsOf (optsOfRequest scenario1Request).filters)] :=
    recommend_singleton host scenarioProducts [0] (optsOfRequest scenario1Request)
      (1, blueShoes) rfl (by decide) (by decide)
  refine ⟨_, hrec, withWhy_eq _ _ _ _ _ _, ?_⟩
  intro hnil
  have h := withWhy_reason_category host blueShoes
    (drivingSeedsOf scenarioProducts [0] (optsOfRequest scenario1Request).filters)
    (optsOfRequest scenario1Request).budget
    (fCatsOf (optsOfRequest scenario1Request).filters)
    (fBrandsOf (optsOfRequest scenario1Request).filters) rfl
  rw [hnil] at h
  have := List.eq_nil_of_infix_nil h
  simp at this

/-- C7 as stated fails: the response to the Scenario 1 request does not contain
item 2, the Office Chair. -/
theorem scenario1_no_office_chair :
    ¬ ∃ r ∈ onmessage ratHost scenario1Request,
      r.product_name = "Office Chair".toList := by
  have hrec : onmessage ratHost scenario1Request =
      [withWhy ratHost blueShoes
        (drivingSeedsOf scenarioProducts [0] (optsOfRequest scenario1Request).filters)
        (optsOfRequest scenario1Request).budget
        (fCatsOf (optsOfRequest scenario1Request).filters)
        (fBrandsOf (optsOfRequest scenario1Request).filters)] :=
    recommend_singleton ratHost scenarioProducts [0] (optsOfRequest scenario1Request)
      (1, blueShoes) rfl (by decide) (by decide)
  rw [hrec]
  rintro ⟨r, hr, hname⟩
  rw [List.mem_singleton] at hr
  subst hr
  revert hname
  show ¬ (blueShoes.product_name = "Office Chair".toList)
  decide

/-- C8: diversity, over exact real arithmetic (`Math.sqrt` and `Math.log` are the
real functions).  For `lambda < 1` and a pick after the first, in any state of
the MMR loop: if a candidate `d` has at least one token and the same
token multiset as an already chosen item `c`, another remaining candidate `e`
shares no token with any chosen item, and
`lambda * baseScore(d) - (1 - lambda) < lambda * baseScore(e)`, then the pick is
not `d`. -/
theorem mmr_diversity (host : Host ℝ) (hsqrt : host.sqrt = Real.sqrt)
    (hlog : host.log = Real.log) (products : List (Option Item)) (selIdxs : List ℤ)
    (opts : Opts) (hl1 : opts.lambda < 1) (pick : Nat) (hpick : 0 < pick) (st : MMRState)
    (c d e : Nat) (pc pd pe : Nat × Item)
    (hc : c ∈ st.picked) (he : e ∈ st.order)
    (hpc : (candidatePool products selIdxs opts)[c]? = some pc)
    (hpd : (candidatePool products selIdxs opts)[d]? = some pd)
    (hpe : (candidatePool products selIdxs opts)[e]? = some pe)
    (hne : tokensOf pd.2 ≠ []) (hperm : (tokensOf pd.2).Perm (tokensOf pc.2))
    (hdis : ∀ (j : Nat) (pj : Nat × Item), j ∈ st.picked →
      (candidatePool products selIdxs opts)[j]? = some pj →
      ∀ t ∈ tokensOf pe.2, t ∉ tokensOf pj.2)
    (hineq : (opts.lambda : ℝ) * (scoreOf host products selIdxs opts).baseScore.getD d 0
        - (1 - (opts.lambda : ℝ))
      < (opts.lambda : ℝ) * (scoreOf host products selIdxs opts).baseScore.getD e 0) :
    bestIdxOf (scoreOf host products selIdxs opts) opts.lambda pick st ≠ some d := by
  set sc := scoreOf host products selIdxs opts with hsc
  set pool := candidatePool products selIdxs opts with hpool
  have hlam : 0 < 1 - (opts.lambda : ℝ) := by
    have : (opts.lambda : ℝ) < 1 := by exact_mod_cast hl1
    linarith
  -- the duplicate `d` has similarity 1 to the chosen `c`
  have hsim1 : (1 : ℝ) ≤ maxSimOf sc st.picked d := by
    have h := maxSimOf_ge sc st.picked d c hc
    rw [hsc, candVecs_getD host products selIdxs opts c pc hpc,
      candNorms_getD host products selIdxs opts c pc hpc,
      candVecs_getD host products selIdxs opts d pd hpd,
      candNorms_getD host products selIdxs opts d pd hpd,
      cosine_same_tokens host hsqrt hlog pool pc pd (List.getElem?_mem hpd) hne hperm] at h
    exact h
  -- the dissimilar `e` has similarity 0 to every chosen item
  have hsim0 : maxSimOf sc st.picked e = 0 := by
    apply maxSimOf_zero
    intro j hj
    cases hpj : pool[j]? with
    | none =>
      have hn := candNorms_getD_none host products selIdxs opts j hpj
      rw [hsc]
      unfold cosine
      rw [if_pos (Or.inl hn)]
    | some pj =>
      rw [hsc, candVecs_getD host products selIdxs opts j pj hpj,
        candVecs_getD host products selIdxs opts e pe hpe]
      rw [cosine_disjoint]
      intro t ht hte
      rcases addTokens_keys _ _ _ t ht with h1 | h1
      · simp at h1
      rcases addTokens_keys _ _ _ t hte with h2 | h2
      · simp at h2
      exact hdis j pj hj hpj t h2 h1
  have hlt : mmrOf sc opts.lambda st.picked d < mmrOf sc opts.lambda st.picked e := by
    unfold mmrOf
    rw [hsim0]
    have : (1 - (opts.lambda : ℝ)) * 1 ≤ (1 - (opts.lambda : ℝ)) * maxSimOf sc st.picked d :=
      mul_le_mul_of_nonneg_left hsim1 hlam.le
    linarith
  unfold bestIdxOf
  rw [if_neg (Nat.pos_iff_ne_zero.mp hpick)]
  exact scanOrder_ne sc opts.lambda st.picked st.order d e he hlt

/-- The diversity catalog with `lambda = 0`: after pool position 0 (`Red Shoes`)
is chosen, the pick among positions 1 (`Shoes Red`) and 2 (`Office Chair`) is not
position 1. -/
theorem mmr_diversity_witness :
    bestIdxOf (scoreOf (⟨Real.sqrt, Real.log, Real.exp, numberToString⟩ : Host ℝ)
        diversityProducts [0] diversityOpts) diversityOpts.lambda 1
      { out := [], picked := [0], order := [1, 2] } ≠ some 1 :=
  mmr_diversity ⟨Real.sqrt, Real.log, Real.exp, numberToString⟩ rfl rfl
    diversityProducts [0] diversityOpts (by decide) 1 (by decide)
    { out := [], picked := [0], order := [1, 2] } 0 1 2
    (1, { product_name := "Red Shoes".toList })
    (2, { product_name := "Shoes Red".toList })
    (3, { product_name := "Office Chair".toList })
    (by decide) (by decide) (by decide) (by decide) (by decide) (by decide) (by decide)
    (by
      intro j pj hj hpj
      have hj0 : j = 0 := by simpa using hj
      subst hj0
      have hp : pj = (1, { product_name := "Red Shoes".toList }) := by
        have h0 : (candidatePool diversityProducts [0] diversityOpts)[0]?
            = some (1, { product_name := "Red Shoes".toList }) := by decide
        rw [h0] at hpj
        exact (Option.some.inj hpj).symm
      subst hp
      decide)
    (by
      have h0 : diversityOpts.lambda = 0 := rfl
      rw [h0]
      simp)

/-- C9, as the code has it: the brand boost is an additive shift followed by the
store into the `Float32Array`.  For a request with a non-empty brand filter set
and `brandBoost = b`, `0 < b ≤ 1`, and the same request with `brandBoost = 0`:
the candidate pool is the same, and the base score of a candidate in the boosted
run is the stored value of its base score in the unboosted run plus `0.15 * b`
when its normalized brand is in the brand filter set, and the same value
otherwise, whatever the rounding `store` of the array is.  With a store that
does not round, the arrays are those of `scoreOf` and the shift is `0.15 * b`
exactly.  In Scenario 4 (`brands = ["Zed"]`, `brandBoost = 1`, seed item 0) the
pool is Blue Running Shoes and Office Chair; the score `s2` of the Office Chair
becomes the stored value of `s2 + 0.15` and that of Blue Running Shoes is
unchanged. -/
theorem brand_boost_shift :
    (∀ (α : Type) [LinearOrderedField α] (store : α → α) (host : Host α)
      (products : List (Option Item)) (selIdxs : List ℤ) (opts : Opts),
      0 < opts.filters.brandBoost → opts.filters.brandBoost ≤ 1 →
      fBrandsOf opts.filters ≠ [] →
      candidatePool products selIdxs opts = candidatePool products selIdxs (withoutBoost opts) ∧
      ∀ (k : Nat) (c : Nat × Item), (candidatePool products selIdxs opts)[k]? = some c →
        ∃ s0 : α,
          (storedScoreOf store host products selIdxs (withoutBoost opts)).baseScore[k]?
            = some s0 ∧
          (storedScoreOf store host products selIdxs opts).baseScore[k]? =
            some (if normalizeString c.2.brand ∈ fBrandsOf opts.filters
              then store (s0 + 15 / 100 * (opts.filters.brandBoost : α)) else s0)) ∧
    (∀ (α : Type) [LinearOrderedField α] (host : Host α) (products : List (Option Item))
      (selIdxs : List ℤ) (opts : Opts),
      storedScoreOf id host products selIdxs opts = scoreOf host products selIdxs opts) ∧
    (∀ (α : Type) [LinearOrderedField α] (host : Host α) (products : List (Option Item))
      (selIdxs : List ℤ) (opts : Opts), 0 < opts.filters.brandBoost →
      opts.filters.brandBoost ≤ 1 → fBrandsOf opts.filters ≠ [] →
      ∀ (k : Nat) (c : Nat × Item), (candidatePool products selIdxs opts)[k]? = some c →
        ∃ s0 : α, (scoreOf host products selIdxs (withoutBoost opts)).baseScore[k]? = some s0 ∧
          (scoreOf host products selIdxs opts).baseScore[k]? =
            some (s0 + if normalizeString c.2.brand ∈ fBrandsOf opts.filters
              then 15 / 100 * (opts.filters.brandBoost : α) else 0)) ∧
    (∀ (α : Type) [LinearOrderedField α] (store : α → α) (host : Host α),
      candidatePool scenarioProducts [0] (optsOfRequest scenario4Request)
        = [(1, blueShoes), (2, officeChair)] ∧
      ∃ s1 s2 : α,
        (storedScoreOf store host scenarioProducts [0]
          (withoutBoost (optsOfRequest scenario4Request))).baseScore = [s1, s2] ∧
        (storedScoreOf store host scenarioProducts [0]
          (optsOfRequest scenario4Request)).baseScore = [s1, store (s2 + 15 / 100)]) := by
  have general : ∀ (α : Type) [LinearOrderedField α] (store : α → α) (host : Host α)
      (products : List (Option Item)) (selIdxs : List ℤ) (opts : Opts),
      0 < opts.filters.brandBoost → opts.filters.brandBoost ≤ 1 →
      fBrandsOf opts.filters ≠ [] →
      ∀ (k : Nat) (c : Nat × Item), (candidatePool products selIdxs opts)[k]? = some c →
        ∃ s0 : α,
          (storedScoreOf store host products selIdxs (withoutBoost opts)).baseScore[k]?
            = some s0 ∧
          (storedScoreOf store host products selIdxs opts).baseScore[k]? =
            some (if normalizeString c.2.brand ∈ fBrandsOf opts.filters
              then store (s0 + 15 / 100 * (opts.filters.brandBoost : α)) else s0) := by
    intro α _ store host products selIdxs opts hb0 hb1 hne k c hk
    have hbb : brandBoostOf opts.filters = opts.filters.brandBoost := by
      unfold brandBoostOf
      rw [min_eq_right hb1, max_eq_right hb0.le]
    have hlen := storedBase_withoutBoost_length store host products selIdxs opts
    have hklt : k < (candidatePool products selIdxs opts).length :=
      (List.getElem?_eq_some_iff.mp hk).1
    have hk0 : k < (storedScoreOf store host products selIdxs
        (withoutBoost opts)).baseScore.length := by
      rw [hlen]; exact hklt
    refine ⟨(storedScoreOf store host products selIdxs (withoutBoost opts)).baseScore[k],
      List.getElem?_eq_getElem hk0, ?_⟩
    rw [storedBase_boost store host products selIdxs opts (by rw [hbb]; exact hb0) hne, hbb]
    have hz : ((candidatePool products selIdxs opts).zip
        (storedScoreOf store host products selIdxs (withoutBoost opts)).baseScore)[k]?
        = some (c, (storedScoreOf store host products selIdxs
            (withoutBoost opts)).baseScore[k]) :=
      List.getElem?_zip_eq_some.mpr ⟨hk, List.getElem?_eq_getElem hk0⟩
    rw [List.getElem?_map, hz]
    rfl
  refine ⟨?_, fun α _ host products selIdxs opts => storedScoreOf_id host products selIdxs opts,
    ?_, ?_⟩
  · intro α _ store host products selIdxs opts hb0 hb1 hne
    exact ⟨(candidatePool_withoutBoost products selIdxs opts).symm,
      general α store host products selIdxs opts hb0 hb1 hne⟩
  · intro α _ host products selIdxs opts hb0 hb1 hne k c hk
    obtain ⟨s0, h0, h1⟩ := general α id host products selIdxs opts hb0 hb1 hne k c hk
    rw [storedScoreOf_id] at h0 h1
    refine ⟨s0, h0, ?_⟩
    rw [h1]
    split <;> simp
  · intro α _ store host
    have hpool : candidatePool scenarioProducts [0] (optsOfRequest scenario4Request)
        = [(1, blueShoes), (2, officeChair)] := by decide
    refine ⟨hpool, ?_⟩
    have hlen := storedBase_withoutBoost_length store host scenarioProducts [0]
      (optsOfRequest scenario4Request)
    rw [hpool] at hlen
    have hb : brandBoostOf (optsOfRequest scenario4Request).filters = 1 := by decide
    have hboost := storedBase_boost store host scenarioProducts [0]
      (optsOfRequest scenario4Request) (by rw [hb]; norm_num) (by decide)
    rw [hpool, hb] at hboost
    match hl : (storedScoreOf store host scenarioProducts [0]
        (withoutBoost (optsOfRequest scenario4Request))).baseScore, hlen with
    | [s1, s2], _ =>
      refine ⟨s1, s2, rfl, ?_⟩
      rw [hboost, hl]
      have h1 : ¬ (normalizeString blueShoes.brand
          ∈ fBrandsOf (optsOfRequest scenario4Request).filters) := by decide
      have h2 : normalizeString officeChair.brand
          ∈ fBrandsOf (optsOfRequest scenario4Request).filters := by decide
      simp [h1, h2]

/-- Scenario 4 on the rational host with the binary32 store, through the general
statement: the pool is unchanged by the boost and the score `s0` of the Office
Chair (pool position 1) becomes `fround (s0 + 0.15)`. -/
theorem brand_boost_shift_witness :
    (0 : ℚ) < (optsOfRequest scenario4Request).filters.brandBoost ∧
    (optsOfRequest scenario4Request).filters.brandBoost ≤ 1 ∧
    fBrandsOf (optsOfRequest scenario4Request).filters ≠ [] ∧
    ∃ s0 : ℚ,
      (storedScoreOf fround ratHost scenarioProducts [0]
        (withoutBoost (optsOfRequest scenario4Request))).baseScore[1]? = some s0 ∧
      (storedScoreOf fround ratHost scenarioProducts [0]
        (optsOfRequest scenario4Request)).baseScore[1]? = some (fround (s0 + 15 / 100 * 1)) := by
  have h := (brand_boost_shift.1 ℚ fround ratHost scenarioProducts [0]
    (optsOfRequest scenario4Request) (by decide) (by decide) (by decide)).2 1 (2, officeChair)
    (by decide)
  refine ⟨by decide, by decide, by decide, ?_⟩
  obtain ⟨s0, h0, h1⟩ := h
  refine ⟨s0, h0, ?_⟩
  rw [h1]
  have h2 : normalizeString officeChair.brand
      ∈ fBrandsOf (optsOfRequest scenario4Request).filters := by decide
  have h3 : (optsOfRequest scenario4Request).filters.brandBoost = 1 := rfl
  simp [h2, h3]

/-- C9 as stated fails: in Scenario 4, with the scores stored in a
`Float32Array`, the base score of the Office Chair (pool position 1) in the
boosted run is not its base score in the unboosted run plus `0.15`.  Both are
binary32 numbers, and two such numbers never differ by `0.15`. -/
theorem brand_boost_not_exact :
    ¬ ∃ s0 : ℚ,
      (storedScoreOf fround ratHost scenarioProducts [0]
        (withoutBoost (optsOfRequest scenario4Request))).baseScore[1]? = some s0 ∧
      (storedScoreOf fround ratHost scenarioProducts [0]
        (optsOfRequest scenario4Request)).baseScore[1]? = some (s0 + 15 / 100 * 1) := by
  rintro ⟨s0, h0, h1⟩
  have hb : brandBoostOf (optsOfRequest scenario4Request).filters = 1 := by decide
  have hboost := storedBase_boost fround ratHost scenarioProducts [0]
    (optsOfRequest scenario4Request) (by rw [hb]; norm_num) (by decide)
  have hpool : (candidatePool scenarioProducts [0] (optsOfRequest scenario4Request))[1]?
      = some (2, officeChair) := by decide
  have hz : ((candidatePool scenarioProducts [0] (optsOfRequest scenario4Request)).zip
      (storedScoreOf fround ratHost scenarioProducts [0]
        (withoutBoost (optsOfRequest scenario4Request))).baseScore)[1]?
      = some ((2, officeChair), s0) := List.getElem?_zip_eq_some.mpr ⟨hpool, h0⟩
  have h2 : normalizeString officeChair.brand
      ∈ fBrandsOf (optsOfRequest scenario4Request).filters := by decide
  rw [hboost, List.getElem?_map, hz, hb] at h1
  simp only [Option.map_some', h2, if_true, Option.some.injEq] at h1
  obtain ⟨y, hy⟩ := storedBase_range fround ratHost scenarioProducts [0]
    (optsOfRequest scenario4Request) s0 (List.getElem?_mem h0)
  rw [hy] at h1
  have h3 := fround_sub_ne (fround y + 15 / 100) y
  norm_num at h1 h3
  exact h3 h1

/-- C10: out-of-range seed indices are dropped: `recommend` returns the same
response (same items, same order, same reasons) for `selIdxs` and for `selIdxs`
with every index `i < 0` or `i ≥ products.length` removed. -/
theorem out_of_range_seeds_dropped (α : Type) [LinearOrderedField α] (host : Host α)
    (products : List (Option Item)) (selIdxs : List ℤ) (opts : Opts) :
    recommend host products selIdxs opts
      = recommend host products (inRangeIdxs products selIdxs) opts := by
  unfold recommend mmrRun
  simp only [seedsOf_inRange, candidatePool_inRange, scoreOf_inRange]

/-- C15, as the code has it: an item whose price is unparseable (`toNum` gives
`0`) is never rejected by a price gate, whatever budget and band are active: it
passes the three price tests of both passes, so the fallback pass admits it
exactly when it is not a seed and has a name. -/
theorem unparseable_price_passes (selIdxs : List ℤ) (opts : Opts) (i : Nat) (p : Item)
    (h : toNum p.price = 0) :
    priceGate opts.budget (minPOf opts.filters) (maxPOf opts.filters) (toNum p.price) = true ∧
    relaxedAdmit selIdxs opts i p = (!decide ((i : ℤ) ∈ selIdxs) && !p.product_name.isEmpty) := by
  have hg : priceGate opts.budget (minPOf opts.filters) (maxPOf opts.filters) (toNum p.price)
      = true := by
    rw [h]
    unfold priceGate
    have h1 : ¬ ((0 : ℚ) > opts.budget ∧ opts.budget > 0) := fun hh => by linarith [hh.1, hh.2]
    by_cases hb : opts.budget > 0
    · have : ¬ (0 : ℚ) > opts.budget := fun hh => h1 ⟨hh, hb⟩
      simp [hb, this]
    · simp [hb]
  refine ⟨hg, ?_⟩
  unfold relaxedAdmit
  simp only [hg, Bool.and_true]

/-- The item without a price of `unpricedProducts` passes the gates of
`constrainedOpts`. -/
theorem unparseable_price_passes_witness :
    toNum (JSVal.undefined) = 0 ∧
    relaxedAdmit [0] constrainedOpts 1 { product_name := "Blue Running Shoes".toList } = true := by
  have h := unparseable_price_passes [0] constrainedOpts 1
    { product_name := "Blue Running Shoes".toList } (by decide)
  refine ⟨by decide, ?_⟩
  rw [h.2]
  decide

/-- C15 as stated fails: with budget 10 and the band `[5, 20]` active, the item
whose price is missing (parsed price `0`) enters the candidate pool of the
prefilter pass and is returned. -/
theorem unparseable_price_returned :
    strictPass unpricedProducts [0] constrainedOpts
      = [(1, { product_name := "Blue Running Shoes".toList })] ∧
    ∃ r : Item, recommend ratHost unpricedProducts [0] constrainedOpts = [r] ∧
      r.price = JSVal.undefined ∧ toNum r.price = 0 := by
  refine ⟨by decide, _, recommend_singleton ratHost unpricedProducts [0] constrainedOpts
    (1, { product_name := "Blue Running Shoes".toList }) rfl (by decide) (by decide), rfl,
    by decide⟩

/-- C20 on the failing inputs: with budget 10, the item priced `$5` (parsed price
5) and the item without a price (parsed price 0) both pass the budget gate and
are returned, and on the rational host their reason says `over budget`, not
`within budget`. -/
theorem budget_label_disagrees :
    (∃ r : Item, recommend ratHost textPriceProducts [0] budgetTenOpts = [r] ∧
      toNum r.price ≤ budgetTenOpts.budget ∧
      "over budget".toList <:+: r.reason ∧ ¬ ("within budget".toList <:+: r.reason)) ∧
    (∃ r : Item, recommend ratHost unpricedProducts [0] budgetTenOpts = [r] ∧
      toNum r.price ≤ budgetTenOpts.budget ∧
      "over budget".toList <:+: r.reason ∧ ¬ ("within budget".toList <:+: r.reason)) := by
  constructor
  · refine ⟨_, recommend_singleton ratHost textPriceProducts [0] budgetTenOpts
      (1, { product_name := "Blue Running Shoes".toList, price := .string "$5".toList })
      rfl (by decide) (by decide), by decide, ?_⟩
    have hseeds : drivingSeedsOf textPriceProducts [0] budgetTenOpts.filters
        = [{ product_name := "Red Running Shoes".toList, price := .number 50 }] := by decide
    rw [hseeds]
    unfold withWhy
    simp only
    rcases bestSeedOf_cases ratHost
      { product_name := "Blue Running Shoes".toList, price := .string "$5".toList }
      [{ product_name := "Red Running Shoes".toList, price := .number 50 }] with h | ⟨s, hs, h⟩
    · rw [h]; decide
    · have hs' : s = { product_name := "Red Running Shoes".toList, price := .number 50 } := by
        simpa using hs
      rw [h, hs']; decide
  · refine ⟨_, recommend_singleton ratHost unpricedProducts [0] budgetTenOpts
      (1, { product_name := "Blue Running Shoes".toList })
      rfl (by decide) (by decide), by decide, ?_⟩
    have hseeds : drivingSeedsOf unpricedProducts [0] budgetTenOpts.filters
        = [{ product_name := "Red Running Shoes".toList, price := .number 50 }] := by decide
    rw [hseeds]
    unfold withWhy
    simp only
    rcases bestSeedOf_cases ratHost
      { product_name := "Blue Running Shoes".toList }
      [{ product_name := "Red Running Shoes".toList, price := .number 50 }] with h | ⟨s, hs, h⟩
    · rw [h]; decide
    · have hs' : s = { product_name := "Red Running Shoes".toList, price := .number 50 } := by
        simpa using hs
      rw [h, hs']; decide

/-- C18: price affinity over exact reals (`Math.log` and `Math.exp` are the real
functions).  For a median seed price `m > 0` and a factor `r > 0`, candidates
priced `m * r` and `m / r` get the same affinity
`exp(-0.5 * (ln r)^2 / 0.35^2)`; the affinity is `1` at price `m` and lies in
`(0, 1]` for every positive price; and it is exactly `0.5` when the median is
not positive, which is the case when no seed has a positive parsed price (so
also with no seed at all), or when the candidate's parsed price is not
positive. -/
theorem price_affinity_symmetric (host : Host ℝ) (hlog : host.log = Real.log)
    (hexp : host.exp = Real.exp) :
    (∀ m r : ℚ, 0 < m → 0 < r →
      priceAffOf host m (m * r) = priceAffOf host m (m / r) ∧
      priceAffOf host m (m * r)
        = Real.exp (-(1 / 2) * (Real.log (r : ℝ)) ^ 2 / ((35 / 100 : ℝ)) ^ 2)) ∧
    (∀ m : ℚ, 0 < m → priceAffOf host m m = 1) ∧
    (∀ m p : ℚ, 0 < m → 0 < p → 0 < priceAffOf host m p ∧ priceAffOf host m p ≤ 1) ∧
    (∀ m p : ℚ, m ≤ 0 ∨ p ≤ 0 → priceAffOf host m p = 1 / 2) ∧
    (∀ seeds : List Item, (∀ s ∈ seeds, toNum s.price ≤ 0) → medianSeedPriceOf seeds = 0) := by
  have hm : ∀ m : ℚ, 0 < m → (m : ℝ) ≠ 0 := fun m h => by
    have : (0 : ℝ) < (m : ℝ) := by exact_mod_cast h
    exact this.ne'
  refine ⟨?_, ?_, ?_, ?_, ?_⟩
  · intro m r h0 hr
    have hmr : 0 < m * r := mul_pos h0 hr
    have hmd : 0 < m / r := div_pos h0 hr
    have hr' : (0 : ℝ) < (r : ℝ) := by exact_mod_cast hr
    have e1 : ((m * r : ℚ) : ℝ) / (m : ℝ) = (r : ℝ) := by
      push_cast
      field_simp [hm m h0]
    have e2 : ((m / r : ℚ) : ℝ) / (m : ℝ) = (r : ℝ)⁻¹ := by
      push_cast
      field_simp [hm m h0, hr'.ne']
      ring
    unfold priceAffOf
    rw [if_pos ⟨h0, hmr⟩, if_pos ⟨h0, hmd⟩]
    simp only [hlog, hexp, e1, e2, Real.log_inv]
    constructor
    · congr 1
      ring
    · congr 1
      ring
  · intro m h0
    unfold priceAffOf
    rw [if_pos ⟨h0, h0⟩]
    simp only [hlog, hexp, div_self (hm m h0), Real.log_one]
    simp
  · intro m p h0 hp
    unfold priceAffOf
    rw [if_pos ⟨h0, hp⟩]
    simp only [hexp]
    refine ⟨Real.exp_pos _, ?_⟩
    apply Real.exp_le_one_iff.mpr
    have : 0 ≤ host.log ((p : ℝ) / (m : ℝ)) * host.log ((p : ℝ) / (m : ℝ)) := mul_self_nonneg _
    have h2 : (0 : ℝ) < 35 / 100 * (35 / 100) := by norm_num
    have h3 : 0 ≤ host.log ((p : ℝ) / (m : ℝ)) * host.log ((p : ℝ) / (m : ℝ))
        / (35 / 100 * (35 / 100)) := div_nonneg this h2.le
    have h4 : -(1 / 2) * (host.log ((p : ℝ) / (m : ℝ)) * host.log ((p : ℝ) / (m : ℝ)))
        / (35 / 100 * (35 / 100))
        = -(1 / 2) * (host.log ((p : ℝ) / (m : ℝ)) * host.log ((p : ℝ) / (m : ℝ))
          / (35 / 100 * (35 / 100))) := by ring
    rw [h4]
    linarith
  · intro m p h
    unfold priceAffOf
    rw [if_neg]
    rintro ⟨h1, h2⟩
    rcases h with h | h
    · exact absurd h1 (not_lt.mpr h)
    · exact absurd h2 (not_lt.mpr h)
  · intro seeds h
    unfold medianSeedPriceOf
    have : (seeds.map (fun p => toNum p.price)).filter (fun x => decide (x > 0)) = [] := by
      rw [List.filter_eq_nil_iff]
      intro x hx
      obtain ⟨s, hs, rfl⟩ := List.mem_map.mp hx
      simpa using h s hs
    simp [this]

/-- The affinity with the real logarithm and exponential for a median of 50:
prices 100 and 25 get the same affinity, and a seed without price gives a
median of `0`. -/
theorem price_affinity_symmetric_witness :
    priceAffOf (⟨Real.sqrt, Real.log, Real.exp, numberToString⟩ : Host ℝ) 50 (50 * 2)
      = priceAffOf (⟨Real.sqrt, Real.log, Real.exp, numberToString⟩ : Host ℝ) 50 (50 / 2) ∧
    medianSeedPriceOf [{ product_name := "Blue Running Shoes".toList }] = 0 :=
  ⟨((price_affinity_symmetric ⟨Real.sqrt, Real.log, Real.exp, numberToString⟩ rfl rfl).1
      50 2 (by norm_num) (by norm_num)).1,
    (price_affinity_symmetric ⟨Real.sqrt, Real.log, Real.exp, numberToString⟩ rfl rfl).2.2.2.2
      [{ product_name := "Blue Running Shoes".toList }] (by decide)⟩

/-- C16: the relaxed fallback.  The pool is the result of the fallback pass when
the prefilter pass admits nothing, and the result of the prefilter pass
otherwise.  The prefilter result is the first at most 30000 entries, in input
order, of the items the prefilter admits; the fallback result is the first at
most 5000 entries, in input order, of the items that are not seeds, have a name
and pass the budget, `minPrice` and `maxPrice` tests, with no test on category,
brand, tokens or overlap with the seeds. -/
theorem fallback_pool (products : List (Option Item)) (selIdxs : List ℤ) (opts : Opts) :
    (strictPass products selIdxs opts = [] →
      candidatePool products selIdxs opts
        = (admittedFrom (relaxedAdmit selIdxs opts) products 0).take 5000) ∧
    (strictPass products selIdxs opts ≠ [] →
      candidatePool products selIdxs opts = strictPass products selIdxs opts) ∧
    strictPass products selIdxs opts
      = (admittedFrom (strictAdmit products selIdxs opts) products 0).take 30000 ∧
    (∀ (i : Nat) (p : Item), relaxedAdmit selIdxs opts i p = true ↔
      ((i : ℤ) ∉ selIdxs ∧ p.product_name ≠ [] ∧
        ¬ (opts.budget > 0 ∧ toNum p.price > opts.budget) ∧
        ¬ (minPOf opts.filters > 0 ∧ toNum p.price > 0 ∧ toNum p.price < minPOf opts.filters) ∧
        ¬ (maxPOf opts.filters > 0 ∧ toNum p.price > 0 ∧
          toNum p.price > maxPOf opts.filters))) ∧
    (∀ (keep : Nat → Item → Bool) (c : Nat × Item), c ∈ admittedFrom keep products 0 ↔
      (keep c.1 c.2 = true ∧ products[c.1]? = some (some c.2))) ∧
    (∀ keep : Nat → Item → Bool,
      ((admittedFrom keep products 0).map Prod.fst).Sorted (· < ·)) := by
  refine ⟨?_, ?_, strictPass_eq products selIdxs opts, ?_, ?_, ?_⟩
  · intro h
    unfold candidatePool
    rw [h, ← relaxedPass_eq]
    rfl
  · intro h
    unfold candidatePool
    cases hs : strictPass products selIdxs opts with
    | nil => exact absurd hs h
    | cons a l => rfl
  · intro i p
    exact relaxedAdmit_iff selIdxs opts i p
  · intro keep c
    rw [admittedFrom_mem]
    simp
  · intro keep
    exact admittedFrom_sorted keep products 0

/-- Scenario 4, where the prefilter pass admits nothing: the pool is the fallback
result, items 1 and 2. -/
theorem fallback_pool_witness :
    strictPass scenarioProducts [0] (optsOfRequest scenario4Request) = [] ∧
    candidatePool scenarioProducts [0] (optsOfRequest scenario4Request)
      = (admittedFrom (relaxedAdmit [0] (optsOfRequest scenario4Request))
          scenarioProducts 0).take 5000 ∧
    candidatePool scenarioProducts [0] (optsOfRequest scenario4Request)
      = [(1, blueShoes), (2, officeChair)] :=
  ⟨by decide, (fallback_pool scenarioProducts [0] (optsOfRequest scenario4Request)).1
    (by decide), by decide⟩

/-- C12: every token of `tokenize(s)` has length at least 2, consists only of the
characters `a-z` and `0-9`, and is not one of the 21 stop-words; and the tokens
occur in the lower-cased `s` one after the other, in the order of the list. -/
theorem tokenize_tokens (s : Str) :
    (∀ t ∈ tokenize s, 2 ≤ t.length ∧
      (∀ c ∈ t, (97 ≤ c.toNat ∧ c.toNat ≤ 122) ∨ (48 ≤ c.toNat ∧ c.toNat ≤ 57)) ∧
      t ∉ stopWords) ∧
    stopWords.length = 21 ∧
    occursInOrder (tokenize s) (toLowerCase s) := by
  refine ⟨?_, by decide, ?_⟩
  · intro t ht
    unfold tokenize at ht
    simp only [List.mem_filter, decide_eq_true_eq, Bool.not_eq_true'] at ht
    obtain ⟨⟨hmem, hlen⟩, hstop⟩ := ht
    have hstop' : t ∉ stopWords := by
      intro hm
      have : stopWords.contains t = true := List.elem_iff.mpr hm
      rw [hstop] at this
      exact Bool.noConfusion this
    refine ⟨hlen, ?_, hstop'⟩
    intro c hc
    rcases splitWs_chars (toLowerCase s) [] false false (by simp) t hmem c hc with h | h
    · left
      unfold Char.isLower at h
      simp only [Bool.and_eq_true, decide_eq_true_eq, ge_iff_le] at h
      exact ⟨h.1, h.2⟩
    · right
      unfold Char.isDigit at h
      simp only [Bool.and_eq_true, decide_eq_true_eq, ge_iff_le] at h
      exact ⟨h.1, h.2⟩
  · unfold tokenize
    have h := splitWs_inOrder (toLowerCase s) [] false false (by simp) (by simp)
    simp only [List.nil_append] at h
    exact occursInOrder_sublist _ _
      ((List.filter_sublist _).trans (List.filter_sublist _)) _ h

/-- C11: the response of `recommend` does not depend on the `reason` fields
already present on the items: two catalogs that differ in `reason` fields only
give the same response (items, order and reason texts); hence a second call on
the catalog as the first call left it, with `reason` written onto the chosen
items, returns the response of the first call.  As a function of its arguments
`recommend` is deterministic. -/
theorem recommend_idempotent (α : Type) [LinearOrderedField α] (host : Host α)
    (products : List (Option Item)) (selIdxs : List ℤ) (opts : Opts) :
    (∀ products2 : List (Option Item),
      products2.map (Option.map clearReason) = products.map (Option.map clearReason) →
      recommend host products2 selIdxs opts = recommend host products selIdxs opts) ∧
    recommend host (productsAfter host products selIdxs opts) selIdxs opts
      = recommend host products selIdxs opts := by
  have key : ∀ products2 : List (Option Item),
      products2.map (Option.map clearReason) = products.map (Option.map clearReason) →
      recommend host products2 selIdxs opts = recommend host products selIdxs opts := by
    intro products2 h
    rw [← recommend_clear host products2, ← recommend_clear host products, h]
  exact ⟨key, key _ (productsAfter_clear host products selIdxs opts)⟩

/-- Scenario 1 with a stale `reason` on item 1: the response is that of the
scenario catalog. -/
theorem recommend_idempotent_witness :
    recommend ratHost
        [scenarioProducts[0]?.join, some { blueShoes with reason := "stale".toList },
          some officeChair] [0] (optsOfRequest scenario1Request)
      = recommend ratHost scenarioProducts [0] (optsOfRequest scenario1Request) :=
  (recommend_idempotent ℚ ratHost scenarioProducts [0] (optsOfRequest scenario1Request)).1
    _ (by decide)

/-- C19: in every state the MMR loop passes through (the state after `k` runs of
the body, for every `k`), the chosen positions followed by `order` are the pool
positions `0 .. N-1`, each once, so `order` holds exactly the positions not yet
chosen, each once, and `order` is sorted by descending base score.  The response
is the list of explained items `products[i]` of pool entries whose catalog
indices `i` are pairwise distinct. -/
theorem mmr_order_invariant (α : Type) [LinearOrderedField α] (host : Host α)
    (products : List (Option Item)) (selIdxs : List ℤ) (opts : Opts) :
    (∀ k : Nat,
      ((mmrStateAfter host products selIdxs opts k).picked
        ++ (mmrStateAfter host products selIdxs opts k).order).Perm
          (List.range (candidatePool products selIdxs opts).length) ∧
      (mmrStateAfter host products selIdxs opts k).order.Nodup ∧
      (∀ b : Nat, b ∈ (mmrStateAfter host products selIdxs opts k).order ↔
        (b < (candidatePool products selIdxs opts).length ∧
          b ∉ (mmrStateAfter host products selIdxs opts k).picked)) ∧
      (mmrStateAfter host products selIdxs opts k).order.Sorted
        (fun a b => (scoreOf host products selIdxs opts).baseScore.getD b 0
          ≤ (scoreOf host products selIdxs opts).baseScore.getD a 0)) ∧
    mmrRun host products selIdxs opts
      = mmrStateAfter host products selIdxs opts (candidatePool products selIdxs opts).length ∧
    (∃ cs : List (Nat × Item),
      (∀ c ∈ cs, c ∈ candidatePool products selIdxs opts ∧ products[c.1]? = some (some c.2)) ∧
      (cs.map Prod.fst).Nodup ∧
      recommend host products selIdxs opts = cs.map (fun c => withWhy host c.2
        (drivingSeedsOf products selIdxs opts.filters) opts.budget (fCatsOf opts.filters)
        (fBrandsOf opts.filters))) := by
  refine ⟨?_, rfl, ?_⟩
  · intro k
    have hinv : MMRInv host (scoreOf host products selIdxs opts) opts
        (mmrStateAfter host products selIdxs opts k) :=
      mmrLoop_inv host (scoreOf host products selIdxs opts) opts
        (clamp opts.topk 1 50) (candidatePool products selIdxs opts).length k 0 _
        (mmrInv_init host (scoreOf host products selIdxs opts) opts)
    have hp := mmrInv_picked host _ opts _ hinv
    have hperm : ((mmrStateAfter host products selIdxs opts k).picked
        ++ (mmrStateAfter host products selIdxs opts k).order).Perm
          (List.range (candidatePool products selIdxs opts).length) := hinv.1
    refine ⟨hperm, hp.2.1, ?_, hinv.2.1⟩
    intro b
    constructor
    · intro hb
      exact ⟨hp.2.2.2 b (List.mem_append_right _ hb), fun hpk => hp.2.2.1 b hpk hb⟩
    · rintro ⟨hlt, hnp⟩
      have : b ∈ List.range (candidatePool products selIdxs opts).length :=
        List.mem_range.mpr hlt
      rcases List.mem_append.mp (hperm.mem_iff.mpr this) with h | h
      · exact absurd h hnp
      · exact h
  · obtain ⟨cs, h1, h2, h3⟩ := recommend_entries host products selIdxs opts
    exact ⟨cs, fun c hc => ⟨h1 c hc, (candidatePool_mem (h1 c hc)).2⟩, h2, h3⟩

/-- C14: every pick of the MMR loop is the stated argmax.  With at least one
candidate the first pick is a position whose base score is at least the base
score of every position, and no lower position has a base score as large (the
earliest in pool order on ties).  For a later pick `c`, made in the state `st`:
`order` is `pre ++ c :: post` with `MMR(i) <= MMR(c)` for every position of
`order` and `MMR(i) < MMR(c)` for every position of `pre`, the ones before `c`.
Here `MMR(i) = lambda * baseScore(i) - (1 - lambda) * maxSim(i)`, and `maxSim(i)`
is `0` or the cosine of `i` to a chosen position, and at least the cosine of `i`
to every chosen position. -/
theorem mmr_pick_argmax (α : Type) [LinearOrderedField α] (host : Host α)
    (products : List (Option Item)) (selIdxs : List ℤ) (opts : Opts) :
    (0 < (candidatePool products selIdxs opts).length →
      ∃ b, bestIdxOf (scoreOf host products selIdxs opts) opts.lambda 0
          { out := [], picked := [], order := orderOf (scoreOf host products selIdxs opts) }
          = some b ∧
        b < (candidatePool products selIdxs opts).length ∧
        (∀ i, i < (candidatePool products selIdxs opts).length →
          (scoreOf host products selIdxs opts).baseScore.getD i 0
            ≤ (scoreOf host products selIdxs opts).baseScore.getD b 0) ∧
        (∀ i, i < b → (scoreOf host products selIdxs opts).baseScore.getD i 0
            < (scoreOf host products selIdxs opts).baseScore.getD b 0)) ∧
    (∀ (pick : Nat) (st : MMRState) (c : Nat), 0 < pick →
      bestIdxOf (scoreOf host products selIdxs opts) opts.lambda pick st = some c →
      ∃ pre post : List Nat, st.order = pre ++ c :: post ∧
        (∀ i ∈ st.order, mmrOf (scoreOf host products selIdxs opts) opts.lambda st.picked i
          ≤ mmrOf (scoreOf host products selIdxs opts) opts.lambda st.picked c) ∧
        (∀ i ∈ pre, mmrOf (scoreOf host products selIdxs opts) opts.lambda st.picked i
          < mmrOf (scoreOf host products selIdxs opts) opts.lambda st.picked c)) ∧
    (∀ (picked : List Nat) (i : Nat),
      mmrOf (scoreOf host products selIdxs opts) opts.lambda picked i
        = (opts.lambda : α) * (scoreOf host products selIdxs opts).baseScore.getD i 0
          - (1 - (opts.lambda : α)) * maxSimOf (scoreOf host products selIdxs opts) picked i ∧
      (∀ j ∈ picked,
        cosine ((scoreOf host products selIdxs opts).candVecs.getD j [])
            ((scoreOf host products selIdxs opts).candNorms.getD j 0)
            ((scoreOf host products selIdxs opts).candVecs.getD i [])
            ((scoreOf host products selIdxs opts).candNorms.getD i 0)
          ≤ maxSimOf (scoreOf host products selIdxs opts) picked i) ∧
      (maxSimOf (scoreOf host products selIdxs opts) picked i = 0 ∨
        ∃ j ∈ picked, maxSimOf (scoreOf host products selIdxs opts) picked i
          = cosine ((scoreOf host products selIdxs opts).candVecs.getD j [])
            ((scoreOf host products selIdxs opts).candNorms.getD j 0)
            ((scoreOf host products selIdxs opts).candVecs.getD i [])
            ((scoreOf host products selIdxs opts).candNorms.getD i 0))) := by
  refine ⟨fun hN => first_pick (scoreOf host products selIdxs opts) opts.lambda hN, ?_, ?_⟩
  · intro pick st c hpick hbest
    unfold bestIdxOf at hbest
    rw [if_neg (Nat.pos_iff_ne_zero.mp hpick)] at hbest
    rcases scanOrder_first (scoreOf host products selIdxs opts) opts.lambda st.picked st.order
      (none, -1) with h | ⟨c2, pre, post, hl, hres, hpre, hpost, _⟩
    · rw [h] at hbest; simp at hbest
    · rw [hres] at hbest
      have hc : c2 = c := by simpa using hbest
      subst hc
      refine ⟨pre, post, hl, ?_, hpre⟩
      intro i hi
      rw [hl] at hi
      rcases List.mem_append.mp hi with h1 | h1
      · exact le_of_lt (hpre i h1)
      · rcases List.mem_cons.mp h1 with e | h2
        · rw [e]
        · exact hpost i h2
  · intro picked i
    exact ⟨rfl, fun j hj => maxSimOf_ge _ picked i j hj,
      foldl_max_attained _ picked 0⟩

/-- Scenario 4 has two candidates: the first pick exists and has the largest base
score. -/
theorem mmr_pick_argmax_witness :
    ∃ b, bestIdxOf (scoreOf ratHost scenarioProducts [0] (optsOfRequest scenario4Request))
        (optsOfRequest scenario4Request).lambda 0
        { out := [], picked := [],
          order := orderOf (scoreOf ratHost scenarioProducts [0]
            (optsOfRequest scenario4Request)) } = some b ∧
      ∀ i, i < 2 →
        (scoreOf ratHost scenarioProducts [0] (optsOfRequest scenario4Request)).baseScore.getD i 0
          ≤ (scoreOf ratHost scenarioProducts [0]
            (optsOfRequest scenario4Request)).baseScore.getD b 0 := by
  have hlen : (candidatePool scenarioProducts [0] (optsOfRequest scenario4Request)).length = 2 := by
    decide
  obtain ⟨b, h1, _, h3, _⟩ := (mmr_pick_argmax ℚ ratHost scenarioProducts [0]
    (optsOfRequest scenario4Request)).1 (by rw [hlen]; norm_num)
  exact ⟨b, h1, fun i hi => h3 i (by rw [hlen]; exact hi)⟩

/-- C13 on the failing input, over exact real arithmetic: with `lambda = 0`,
`topk = 2` and a pool of two candidates with the same tokens, the response has
one item and not `min(K, N) = 2`. -/
theorem mmr_stops_early :
    (candidatePool duplicateProducts [0] duplicateOpts).length = 2 ∧
    clamp duplicateOpts.topk 1 50 = 2 ∧
    (recommend (⟨Real.sqrt, Real.log, Real.exp, numberToString⟩ : Host ℝ)
      duplicateProducts [0] duplicateOpts).length = 1 := by
  have hpool : candidatePool duplicateProducts [0] duplicateOpts
      = [(1, { product_name := "Red Shoes".toList }),
         (2, { product_name := "Shoes Red".toList })] := by decide
  refine ⟨by rw [hpool]; rfl, by decide, ?_⟩
  set host : Host ℝ := ⟨Real.sqrt, Real.log, Real.exp, numberToString⟩ with hhost
  set sc := scoreOf host duplicateProducts [0] duplicateOpts with hsc
  have hlen : sc.candidates.length = 2 := by
    show (candidatePool duplicateProducts [0] duplicateOpts).length = 2
    rw [hpool]; rfl
  have h0 : (candidatePool duplicateProducts [0] duplicateOpts)[0]?
      = some (1, { product_name := "Red Shoes".toList }) := by rw [hpool]; rfl
  have h1 : (candidatePool duplicateProducts [0] duplicateOpts)[1]?
      = some (2, { product_name := "Shoes Red".toList }) := by rw [hpool]; rfl
  have hcos01 : cosine (sc.candVecs.getD 0 []) (sc.candNorms.getD 0 0)
      (sc.candVecs.getD 1 []) (sc.candNorms.getD 1 0) = 1 := by
    rw [hsc, candVecs_getD host _ _ _ 0 _ h0, candNorms_getD host _ _ _ 0 _ h0,
      candVecs_getD host _ _ _ 1 _ h1, candNorms_getD host _ _ _ 1 _ h1]
    exact cosine_same_tokens host rfl rfl _ _ _ (List.getElem?_mem h1) (by decide) (by decide)
  have hcos10 : cosine (sc.candVecs.getD 1 []) (sc.candNorms.getD 1 0)
      (sc.candVecs.getD 0 []) (sc.candNorms.getD 0 0) = 1 := by
    rw [hsc, candVecs_getD host _ _ _ 0 _ h0, candNorms_getD host _ _ _ 0 _ h0,
      candVecs_getD host _ _ _ 1 _ h1, candNorms_getD host _ _ _ 1 _ h1]
    exact cosine_same_tokens host rfl rfl _ _ _ (List.getElem?_mem h0) (by decide) (by decide)
  have horder : orderOf sc = [0, 1] ∨ orderOf sc = [1, 0] := by
    unfold orderOf
    rw [hlen]
    have hr : List.range 2 = [0, 1] := rfl
    rw [hr]
    simp only [List.insertionSort, List.orderedInsert]
    split
    · exact Or.inl rfl
    · exact Or.inr rfl
  have hrec : recommend host duplicateProducts [0] duplicateOpts
      = (mmrLoop host sc duplicateOpts 2 2 2 0
          { out := [], picked := [], order := orderOf sc }).out := by
    unfold recommend mmrRun
    rw [if_neg (by decide), if_neg (by decide), if_neg (by rw [hpool]; decide)]
    simp only
    rw [← hsc, hlen]
    have hL : clamp duplicateOpts.topk 1 50 = 2 := by decide
    rw [hL]
  rw [hrec]
  rcases horder with ho | ho
  · exact mmrLoop_two_duplicates host sc duplicateOpts 0 1 _ ho (by rw [hsc]; exact h0)
      (by decide) hcos01 rfl
  · exact mmrLoop_two_duplicates host sc duplicateOpts 1 0 _ ho (by rw [hsc]; exact h1)
      (by decide) hcos10 rfl

/-- C17: relevance over exact reals (`Math.sqrt` and `Math.log` are the real
functions, norms are the L2 norms).  The relevance array holds, for each pool
entry, the cosine between the seed centroid and the entry's vector built from
the pool's idf table, with the centroid norm (a zero norm replaced by `1e-8`)
and the entry's L2 norm; every such value is at least `0` and at most `1`; a
zero candidate norm gives `0`.  The centroid and the candidate vectors have
distinct keys and positive weights.  For two vectors with distinct keys, the
loop over the smaller one computes the dot product over all shared tokens, and
the cosine is the same with the two vectors exchanged. -/
theorem relevance_in_unit_interval (host : Host ℝ) (hsqrt : host.sqrt = Real.sqrt)
    (hlog : host.log = Real.log) (products : List (Option Item)) (selIdxs : List ℤ)
    (opts : Opts) :
    (scoreOf host products selIdxs opts).rel
      = (candidatePool products selIdxs opts).map (fun c =>
          cosine
            (centroidOf (poolIdf host (candidatePool products selIdxs opts))
              (drivingSeedsOf products selIdxs opts.filters))
            (centroidNormOf host
              (centroidOf (poolIdf host (candidatePool products selIdxs opts))
                (drivingSeedsOf products selIdxs opts.filters)))
            (addTokens (poolIdf host (candidatePool products selIdxs opts)) [] (tokensOf c.2))
            (l2 host
              (addTokens (poolIdf host (candidatePool products selIdxs opts)) []
                (tokensOf c.2)))) ∧
    (∀ r ∈ (scoreOf host products selIdxs opts).rel, 0 ≤ r ∧ r ≤ 1) ∧
    (∀ (a b : Vec ℝ) (aN : ℝ), cosine a aN b 0 = 0) ∧
    (((centroidOf (poolIdf host (candidatePool products selIdxs opts))
          (drivingSeedsOf products selIdxs opts.filters)).map Prod.fst).Nodup ∧
      ∀ tw ∈ centroidOf (poolIdf host (candidatePool products selIdxs opts))
          (drivingSeedsOf products selIdxs opts.filters), 0 < tw.2) ∧
    (∀ v ∈ (scoreOf host products selIdxs opts).candVecs,
      (v.map Prod.fst).Nodup ∧ ∀ tw ∈ v, 0 < tw.2) ∧
    (∀ a b : Vec ℝ, (a.map Prod.fst).Nodup → (b.map Prod.fst).Nodup →
      (if a.length < b.length then a else b).foldl
          (dotStep (if a.length < b.length then b else a)) 0 = sharedDot a b ∧
      sharedDot a b = sharedDot b a ∧
      ∀ aN bN : ℝ, cosine a aN b bN = cosine b bN a aN) := by
  have hidf : ∀ u w, mapGet (poolIdf host (candidatePool products selIdxs opts)) u = some w
      → 0 < w := fun u w h =>
    lt_of_lt_of_le zero_lt_one (poolIdf_ge_one host hlog _ u w h)
  have hcen := centroidOf_spec (poolIdf host (candidatePool products selIdxs opts)) hidf
    (drivingSeedsOf products selIdxs opts.filters)
  have hvec : ∀ toks : List Str,
      ((addTokens (poolIdf host (candidatePool products selIdxs opts)) [] toks).map
          Prod.fst).Nodup ∧
      ∀ tw ∈ addTokens (poolIdf host (candidatePool products selIdxs opts)) [] toks,
        0 < tw.2 := fun toks =>
    ⟨addTokens_keys_nodup _ toks [] List.nodup_nil,
      addTokens_pos _ hidf toks [] (by intro tw h; simp at h)⟩
  refine ⟨rel_eq host products selIdxs opts, ?_, ?_, hcen, ?_, ?_⟩
  · intro r hr
    rw [rel_eq] at hr
    obtain ⟨c, _, rfl⟩ := List.mem_map.mp hr
    exact cosine_bounds host hsqrt _ _ hcen.1 (hvec _).1
      (fun tw h => (hcen.2 tw h).le) (fun tw h => ((hvec _).2 tw h).le)
  · intro a b aN
    unfold cosine
    simp
  · intro v hv
    unfold scoreOf at hv
    simp only [List.mem_map] at hv
    obtain ⟨toks, _, rfl⟩ := hv
    exact hvec toks
  · intro a b ha hb
    refine ⟨?_, ?_, fun aN bN => cosine_comm a aN b bN ha hb⟩
    · by_cases hl : a.length < b.length
      · simp only [hl, if_true]
        exact dot_sum_eq_shared a b ha
      · simp only [hl, if_false]
        rw [dot_comm b a hb ha]
        exact dot_sum_eq_shared a b ha
    · rw [← dot_sum_eq_shared a b ha, ← dot_sum_eq_shared b a hb]
      exact dot_comm a b ha hb

/-- The first relevance value of the diversity catalog, with the real square root
and logarithm, lies between `0` and `1`. -/
theorem relevance_in_unit_interval_witness :
    0 ≤ (scoreOf (⟨Real.sqrt, Real.log, Real.exp, numberToString⟩ : Host ℝ)
        diversityProducts [0] diversityOpts).rel.getD 0 0 ∧
    (scoreOf (⟨Real.sqrt, Real.log, Real.exp, numberToString⟩ : Host ℝ)
        diversityProducts [0] diversityOpts).rel.getD 0 0 ≤ 1 := by
  have hlen : 0 < (scoreOf (⟨Real.sqrt, Real.log, Real.exp, numberToString⟩ : Host ℝ)
      diversityProducts [0] diversityOpts).rel.length := by
    rw [rel_eq, List.length_map]
    decide
  rw [List.getD_eq_getElem _ _ hlen]
  exact (relevance_in_unit_interval ⟨Real.sqrt, Real.log, Real.exp, numberToString⟩ rfl rfl
    diversityProducts [0] diversityOpts).2.1 _ (List.getElem_mem _)

end Worker
